import Mathlib

/-!
# Soft-body jelly cubes: a shallow embedding of `Jelly.cpp`

The embedding follows `src/YoutubeOpenGL 9 - Lighting/src/Jelly.cpp` and `Jelly.h`.

* `float` is idealised as an arbitrary linearly ordered field `K` with a floor function
  (instantiated with `ℚ` for evaluation and with `ℝ` for the irrational cases).  In the
  physics (integration, constraint solver, collisions, bounding box) every arithmetic
  operation is exact and float constants are the decimal fractions written in the source
  (`9.81f` is `981/100`, ...).
* In `GenerateCubeMesh` the result of a rounding decides which particles and springs exist,
  so every `float` operation on the face origins, the steps, the cell positions and the
  quantised keys passes through `Rounding.rnd`, the constant `1e-4f` included.  The identity
  recovers exact arithmetic; `binary32` is IEEE 754 single precision on `ℚ`.  The rest
  lengths of the springs and the inverse masses are computed exactly.
* The libm functions that have no rational counterpart (`std::sqrt`, `std::pow`, `std::sin`)
  are the fields of a `MathFns K` record handed to the functions that call them; theorems
  that rely on a property of one of them say so in a hypothesis.
* `std::vector` is `List`, a C++ reference into `particles` is an index read followed by an
  index write, an `int` particle index is an `Int` (loop counters, iteration counts and the
  grid size `S`, which are never negative where they are used, are `Nat`), and a `for` loop
  is a fold over `List.range`.  The sum `springsPerEdge + 1` wraps around in 32 bits and the
  conversions `(int)std::round(...)` of `keyOf` are range-checked (`toInt32`); the indices
  `v * S + u` and `(int)particles.size() - 1` do not overflow while `6 * S^2 < 2^31`.
* The render buffers (`vertices`, `indices`, the GL objects) are not part of the physics
  state and are left out, together with `rebuildIndicesAndAttributes`, `updateGPU` and
  `Render`, which read the physics state and write only those buffers.
-/

namespace JellySim

/-! ## Vectors -/

/-- Model of `glm::vec3` with exact components. -/
structure Vec3 (K : Type) where
  x : K
  y : K
  z : K
deriving DecidableEq, Repr

/-- Model of `glm::ivec3`. -/
structure IVec3 where
  x : Int
  y : Int
  z : Int
deriving DecidableEq, Repr

namespace Vec3

variable {K : Type} [LinearOrderedField K]

/-- Componentwise sum, `a + b`. -/
def add (a b : Vec3 K) : Vec3 K := ⟨a.x + b.x, a.y + b.y, a.z + b.z⟩

/-- Componentwise difference, `a - b`. -/
def sub (a b : Vec3 K) : Vec3 K := ⟨a.x - b.x, a.y - b.y, a.z - b.z⟩

/-- Vector times scalar, `v * s`. -/
def scale (v : Vec3 K) (s : K) : Vec3 K := ⟨v.x * s, v.y * s, v.z * s⟩

/-- Scalar times vector, `s * v`. -/
def smul (s : K) (v : Vec3 K) : Vec3 K := ⟨s * v.x, s * v.y, s * v.z⟩

/-- The vector `glm::vec3(s)` with all three components equal to `s`. -/
def splat (s : K) : Vec3 K := ⟨s, s, s⟩

/-- Componentwise minimum, `glm::min`. -/
def vmin (a b : Vec3 K) : Vec3 K := ⟨min a.x b.x, min a.y b.y, min a.z b.z⟩

/-- Componentwise maximum, `glm::max`. -/
def vmax (a b : Vec3 K) : Vec3 K := ⟨max a.x b.x, max a.y b.y, max a.z b.z⟩

/-- Squared Euclidean norm, `glm::length2`. -/
def length2 (v : Vec3 K) : K := v.x * v.x + v.y * v.y + v.z * v.z

end Vec3

/-- The libm functions used by the simulation, as functions on the scalar type. -/
structure MathFns (K : Type) where
  /-- The function `std::sqrt`. -/
  sqrt : K → K
  /-- The function `std::pow`. -/
  pow : K → K → K
  /-- The function `std::sin`. -/
  sin : K → K

/-- A square root in the sense the proofs need: exact on squares of non-negative numbers. -/
def MathFns.SqrtExact {K : Type} [LinearOrderedField K] (m : MathFns K) : Prop :=
  ∀ x : K, 0 ≤ x → m.sqrt (x * x) = x

/-- Euclidean norm, `glm::length`: the square root of `glm::length2`. -/
def Vec3.length {K : Type} [LinearOrderedField K] (m : MathFns K) (v : Vec3 K) : K :=
  m.sqrt v.length2

/-- Rounding to the nearest integer, halfway cases away from zero (`std::round`). -/
def cround {K : Type} [LinearOrderedField K] [FloorRing K] (x : K) : Int :=
  if 0 ≤ x then ⌊x + 1 / 2⌋ else -⌊-x + 1 / 2⌋

/-- The result rounding of one `float` operation.  The mesh builder applies it to every
operation on which a discrete outcome depends: the face origins and steps, the cell
positions and the quotients of the quantised keys.  The identity gives exact arithmetic;
`f32` below is IEEE binary32 rounding to nearest, ties to even. -/
class Rounding (K : Type) where
  /-- The rounded value of an exact result. -/
  rnd : K → K

/-- Wrap-around of an integer into the range of a 32-bit two's-complement `int`. -/
def wrap32 (i : Int) : Int := (i + 2147483648) % 4294967296 - 2147483648

/-- The conversion `(int)x` of an integral `float` value `x`: the value itself when it lies in
the `int` range.  Outside the range the conversion is undefined in C++; the model takes the
result of the x86 conversion instruction, `INT_MIN`. -/
def toInt32 (i : Int) : Int :=
  if -2147483648 ≤ i ∧ i ≤ 2147483647 then i else -2147483648

/-- Componentwise `float` sum: each component of `a + b` is rounded. -/
def Vec3.radd {K : Type} [LinearOrderedField K] [Rounding K] (a b : Vec3 K) : Vec3 K :=
  ⟨Rounding.rnd (a.x + b.x), Rounding.rnd (a.y + b.y), Rounding.rnd (a.z + b.z)⟩

/-- Componentwise `float` product with a scalar: each component of `v * s` is rounded. -/
def Vec3.rscale {K : Type} [LinearOrderedField K] [Rounding K] (v : Vec3 K) (s : K) : Vec3 K :=
  ⟨Rounding.rnd (v.x * s), Rounding.rnd (v.y * s), Rounding.rnd (v.z * s)⟩

/-! ## Data model (`Jelly.h`) -/

/-- The `Container` struct: an open-top box with a restitution and a friction coefficient. -/
structure Container (K : Type) where
  min : Vec3 K
  max : Vec3 K
  restitution : K
  friction : K
deriving DecidableEq

/-- The `Jelly::Particle` struct. -/
structure Particle (K : Type) where
  /-- Current position. -/
  p : Vec3 K
  /-- Previous position (Verlet). -/
  prev : Vec3 K
  /-- Accumulated acceleration. -/
  a : Vec3 K
  /-- Inverse mass. -/
  invMass : K
deriving DecidableEq

/-- The `Jelly::Spring` struct. -/
structure Spring (K : Type) where
  i : Int
  j : Int
  rest : K
  k : K
deriving DecidableEq

/-- The physics state of the `Jelly` class. -/
structure Jelly (K : Type) where
  center : Vec3 K
  radius : K
  velocity : Vec3 K
  acceleration : Vec3 K
  pointMass : K
  springStrength : K
  springsPerEdge : Int
  particles : List (Particle K)
  springs : List (Spring K)
  S : Nat
  facePointIdx : List (List Int)
  aabbMin : Vec3 K
  aabbMax : Vec3 K
deriving DecidableEq

section Model

variable {K : Type} [LinearOrderedField K]

/-- The read `particles[i]` for an `int` index; an index outside the vector (undefined
behaviour in the source) reads a zero particle. -/
def pget (ps : List (Particle K)) (i : Int) : Particle K :=
  if i < 0 then ⟨⟨0, 0, 0⟩, ⟨0, 0, 0⟩, ⟨0, 0, 0⟩, 0⟩
  else ps.getD i.toNat ⟨⟨0, 0, 0⟩, ⟨0, 0, 0⟩, ⟨0, 0, 0⟩, 0⟩

/-- The write `particles[i] = q` for an `int` index; an index outside the vector writes
nothing. -/
def pset (ps : List (Particle K)) (i : Int) (q : Particle K) : List (Particle K) :=
  if i < 0 then ps else ps.set i.toNat q

/-- The read `facePointIdx[f][c]`; a cell outside the grid reads the fill value `-1`. -/
def cellGet (fpi : List (List Int)) (f c : Nat) : Int :=
  (fpi.getD f []).getD c (-1)

/-- The write `facePointIdx[f][c] = idx`. -/
def cellSet (fpi : List (List Int)) (f c : Nat) (idx : Int) : List (List Int) :=
  fpi.set f ((fpi.getD f []).set c idx)

/-! ## `updateAABB` -/

/-- The loop of `updateAABB`: componentwise minimum and maximum of the particle positions,
starting from `mn = vec3(1e9)` and `mx = vec3(-1e9)`. -/
def aabbOf (ps : List (Particle K)) : Vec3 K × Vec3 K :=
  ps.foldl (fun acc p => (acc.1.vmin p.p, acc.2.vmax p.p))
    (Vec3.splat 1000000000, Vec3.splat (-1000000000))

/-- The method `Jelly::updateAABB`. -/
def Jelly.updateAABB (b : Jelly K) : Jelly K :=
  { b with aabbMin := (aabbOf b.particles).1, aabbMax := (aabbOf b.particles).2 }

/-! ## `GenerateCubeMesh` -/

/-- The local struct `FaceDef` of `GenerateCubeMesh`. -/
structure FaceDef (K : Type) where
  origin : Vec3 K
  ex : Vec3 K
  ey : Vec3 K
  normal : Vec3 K

/-- The six faces of `GenerateCubeMesh`, in the order of the source: +Z, -Z, +X, -X, +Y, -Y.
Every `float` operation is rounded: `half = radius * 0.5f`, the conversion of the `int`
value `S - 1` to `float`, the quotients `radius / (S - 1)` and `-radius / (S - 1)`, and the
three sums of `center + glm::vec3(...)`. -/
def cubeFaces [Rounding K] (center : Vec3 K) (radius : K) (S : Nat) : List (FaceDef K) :=
  let half : K := Rounding.rnd (radius * (1 / 2))
  let n : K := Rounding.rnd ((((S : Int) - 1 : Int) : K))
  let e : K := Rounding.rnd (radius / n)
  let ne : K := Rounding.rnd (-radius / n)
  [ ⟨center.radd ⟨-half, -half, half⟩, ⟨e, 0, 0⟩, ⟨0, e, 0⟩, ⟨0, 0, 1⟩⟩,
    ⟨center.radd ⟨half, -half, -half⟩, ⟨ne, 0, 0⟩, ⟨0, e, 0⟩, ⟨0, 0, -1⟩⟩,
    ⟨center.radd ⟨half, -half, -half⟩, ⟨0, 0, e⟩, ⟨0, e, 0⟩, ⟨1, 0, 0⟩⟩,
    ⟨center.radd ⟨-half, -half, half⟩, ⟨0, 0, ne⟩, ⟨0, e, 0⟩, ⟨-1, 0, 0⟩⟩,
    ⟨center.radd ⟨-half, half, -half⟩, ⟨e, 0, 0⟩, ⟨0, 0, e⟩, ⟨0, 1, 0⟩⟩,
    ⟨center.radd ⟨-half, -half, half⟩, ⟨e, 0, 0⟩, ⟨0, 0, ne⟩, ⟨0, -1, 0⟩⟩ ]

/-- The read `faces[f]`. -/
def faceAt (faces : List (FaceDef K)) (f : Nat) : FaceDef K :=
  faces.getD f ⟨⟨0, 0, 0⟩, ⟨0, 0, 0⟩, ⟨0, 0, 0⟩, ⟨0, 0, 0⟩⟩

/-- The position generated for cell `(u, v)` of a face:
`fd.origin + fd.ex * (float)u + fd.ey * (float)v`, with the two conversions, the two products
and the two sums rounded. -/
def cellPos [Rounding K] (fd : FaceDef K) (u v : Nat) : Vec3 K :=
  (fd.origin.radd (fd.ex.rscale (Rounding.rnd (u : K)))).radd
    (fd.ey.rscale (Rounding.rnd (v : K)))

/-- The lambda `addParticle`: appends a particle at rest at `pos` and returns the new vector
together with the index `(int)particles.size() - 1` of the new particle. -/
def addParticle (pointMass : K) (ps : List (Particle K)) (pos : Vec3 K) :
    List (Particle K) × Int :=
  let q : Particle K :=
    { p := pos, prev := pos, a := Vec3.splat 0,
      invMass := if pointMass > 0 then 1 / pointMass else 0 }
  (ps ++ [q], ((ps ++ [q]).length : Int) - 1)

/-- The value `std::round(x / q)` of `keyOf` for one coordinate, with `q = 1e-4f` the
rounded constant and the quotient rounded, before the conversion to `int`. -/
def roundedQuotient [FloorRing K] [Rounding K] (x : K) : Int :=
  cround (Rounding.rnd (x / Rounding.rnd (1 / 10000)))

/-- The lambda `keyOf`: each coordinate divided by `q = 1e-4f`, rounded to the nearest
integer and converted to `int`. -/
def keyOf [FloorRing K] [Rounding K] (p : Vec3 K) : IVec3 :=
  ⟨toInt32 (roundedQuotient p.x), toInt32 (roundedQuotient p.y), toInt32 (roundedQuotient p.z)⟩

/-- The variables written by the fill loop of `GenerateCubeMesh`: the particle vector, the
look-up table `lut` (an exact-match map from keys to particle indices, kept as an association
list) and the face grid. -/
structure FillState (K : Type) where
  particles : List (Particle K)
  lut : List (IVec3 × Int)
  facePointIdx : List (List Int)

/-- The body of the fill loop for face `f`, row `v`, column `u`. -/
def fillCell [FloorRing K] [Rounding K] (pointMass : K) (faces : List (FaceDef K)) (S : Nat)
    (st : FillState K) (f v u : Nat) : FillState K :=
  let pos := cellPos (faceAt faces f) u v
  let k := keyOf pos
  match st.lut.lookup k with
  | none =>
    let r := addParticle pointMass st.particles pos
    ⟨r.1, (k, r.2) :: st.lut, cellSet st.facePointIdx f (v * S + u) r.2⟩
  | some idx => ⟨st.particles, st.lut, cellSet st.facePointIdx f (v * S + u) idx⟩

/-- The fill loop `for f < 6, for v < S, for u < S`. -/
def fillGrid [FloorRing K] [Rounding K] (pointMass : K) (faces : List (FaceDef K)) (S : Nat)
    (st : FillState K) : FillState K :=
  (List.range 6).foldl (fun st f =>
    (List.range S).foldl (fun st v =>
      (List.range S).foldl (fun st u => fillCell pointMass faces S st f v u) st) st) st

/-- The lambda `addSpring`: nothing for `a == b`, otherwise a spring whose rest length is
the current distance of the two particles. -/
def addSpring (m : MathFns K) (ps : List (Particle K)) (springs : List (Spring K))
    (a b : Int) (k : K) : List (Spring K) :=
  if a = b then springs
  else springs ++ [⟨a, b, Vec3.length m ((pget ps a).p.sub (pget ps b).p), k⟩]

/-- The body of the surface spring loop for face `f`, row `v`, column `u`: a spring to the
right neighbour, to the neighbour below and to the two diagonal neighbours below. -/
def faceSpringsCell (m : MathFns K) (ps : List (Particle K)) (fpi : List (List Int)) (S : Nat)
    (springStrength : K) (springs : List (Spring K)) (f v u : Nat) : List (Spring K) :=
  let i := cellGet fpi f (v * S + u)
  let s1 := if u + 1 < S then
      addSpring m ps springs i (cellGet fpi f (v * S + (u + 1))) springStrength
    else springs
  let s2 := if v + 1 < S then
      addSpring m ps s1 i (cellGet fpi f ((v + 1) * S + u)) springStrength
    else s1
  let s3 := if u + 1 < S ∧ v + 1 < S then
      addSpring m ps s2 i (cellGet fpi f ((v + 1) * S + (u + 1))) (springStrength * (7 / 10))
    else s2
  if 0 < u ∧ v + 1 < S then
    addSpring m ps s3 i (cellGet fpi f ((v + 1) * S + (u - 1))) (springStrength * (7 / 10))
  else s3

/-- The surface spring loop `for f < 6, for v < S, for u < S`. -/
def faceSprings (m : MathFns K) (ps : List (Particle K)) (fpi : List (List Int)) (S : Nat)
    (springStrength : K) (springs : List (Spring K)) : List (Spring K) :=
  (List.range 6).foldl (fun sp f =>
    (List.range S).foldl (fun sp v =>
      (List.range S).foldl (fun sp u => faceSpringsCell m ps fpi S springStrength sp f v u)
        sp) sp) springs

/-- The body of the loop of the lambda `addPairSprings` for row `v`, column `u`. -/
def pairSpringsCell (m : MathFns K) (ps : List (Particle K)) (fpi : List (List Int)) (S : Nat)
    (fA fB : Nat) (mirrorU mirrorV : Bool) (k : K) (springs : List (Spring K)) (v u : Nat) :
    List (Spring K) :=
  let ub := if mirrorU then S - 1 - u else u
  let vb := if mirrorV then S - 1 - v else v
  let ia := cellGet fpi fA (v * S + u)
  let ib := cellGet fpi fB (vb * S + ub)
  if ia = ib then springs
  else springs ++ [⟨ia, ib, Vec3.length m ((pget ps ia).p.sub (pget ps ib).p), k⟩]

/-- The lambda `addPairSprings`: body springs between the faces `fA` and `fB`. -/
def addPairSprings (m : MathFns K) (ps : List (Particle K)) (fpi : List (List Int)) (S : Nat)
    (fA fB : Nat) (mirrorU mirrorV : Bool) (k : K) (springs : List (Spring K)) :
    List (Spring K) :=
  (List.range S).foldl (fun sp v =>
    (List.range S).foldl (fun sp u =>
      pairSpringsCell m ps fpi S fA fB mirrorU mirrorV k sp v u) sp) springs

/-- The number of points per edge, `S = std::max(2, springsPerEdge + 1)`, the sum taken in
32-bit `int` arithmetic (it wraps around for `springsPerEdge = INT_MAX`). -/
def subdivisions (springsPerEdge : Int) : Nat :=
  (max 2 (wrap32 (springsPerEdge + 1))).toNat

/-- The method `Jelly::GenerateCubeMesh`: particles welded through the look-up table, surface
springs, body springs, and the bounding box. -/
def Jelly.GenerateCubeMesh [FloorRing K] [Rounding K] (m : MathFns K) (b : Jelly K) : Jelly K :=
  let S := subdivisions b.springsPerEdge
  let st := fillGrid b.pointMass (cubeFaces b.center b.radius S) S
    ⟨[], [], List.replicate 6 (List.replicate (S * S) (-1))⟩
  let sp := faceSprings m st.particles st.facePointIdx S b.springStrength []
  let bodyK := b.springStrength * (6 / 10)
  let sp := addPairSprings m st.particles st.facePointIdx S 0 1 true false bodyK sp
  let sp := addPairSprings m st.particles st.facePointIdx S 2 3 true false bodyK sp
  let sp := addPairSprings m st.particles st.facePointIdx S 4 5 false true bodyK sp
  Jelly.updateAABB
    { b with S := S, facePointIdx := st.facePointIdx, particles := st.particles, springs := sp }

/-- The member initialiser list of the constructor `Jelly::Jelly`: the configuration is
stored, the vectors start empty. -/
def Jelly.init (center : Vec3 K) (radius : K) (velocity acceleration : Vec3 K)
    (pointMass springStrength : K) (springsPerEdge : Int) : Jelly K :=
  { center := center, radius := radius, velocity := velocity, acceleration := acceleration,
    pointMass := pointMass, springStrength := springStrength,
    springsPerEdge := springsPerEdge, particles := [], springs := [], S := 0,
    facePointIdx := [], aabbMin := Vec3.splat 0, aabbMax := Vec3.splat 0 }

/-- The constructor `Jelly::Jelly`: stores the configuration, generates the mesh and updates
the bounding box. -/
def Jelly.new [FloorRing K] [Rounding K] (m : MathFns K) (center : Vec3 K) (radius : K)
    (velocity acceleration : Vec3 K) (pointMass springStrength : K) (springsPerEdge : Int) :
    Jelly K :=
  Jelly.updateAABB (Jelly.GenerateCubeMesh m
    (Jelly.init center radius velocity acceleration pointMass springStrength springsPerEdge))

/-! ### Vocabulary for the fill loop -/

/-- The cells `(f, v, u)` visited by the fill loop, in the order of the three nested loops. -/
def gridCells (S : Nat) : List (Nat × Nat × Nat) :=
  (List.range 6).flatMap fun f =>
    (List.range S).flatMap fun v => (List.range S).map fun u => (f, v, u)

/-- The position generated for a cell `(f, v, u)`. -/
def cellPosOf [Rounding K] (faces : List (FaceDef K)) (c : Nat × Nat × Nat) : Vec3 K :=
  cellPos (faceAt faces c.1) c.2.2 c.2.1

/-- The quantised key of the position generated for a cell `(f, v, u)`. -/
def cellKey [FloorRing K] [Rounding K] (faces : List (FaceDef K)) (c : Nat × Nat × Nat) : IVec3 :=
  keyOf (cellPosOf faces c)

/-- The keys of the particles, in index order. -/
def particleKeys [FloorRing K] [Rounding K] (ps : List (Particle K)) : List IVec3 :=
  ps.map fun p => keyOf p.p

/-- The lattice point `(i, j, k)`, each coordinate in `0 .. S - 1`, that cell `(f, v, u)`
of the face grid lies on, counted from the corner `center - (half, half, half)` in steps of
`radius / (S - 1)`. -/
def cellLattice (S : Nat) (c : Nat × Nat × Nat) : Nat × Nat × Nat :=
  match c.1 with
  | 0 => (c.2.2, c.2.1, S - 1)
  | 1 => (S - 1 - c.2.2, c.2.1, 0)
  | 2 => (S - 1, c.2.1, c.2.2)
  | 3 => (0, c.2.1, S - 1 - c.2.2)
  | 4 => (c.2.2, S - 1, c.2.1)
  | _ => (c.2.2, 0, S - 1 - c.2.1)

/-- The position of the lattice point `(i, j, k)`. -/
def latticePos (center : Vec3 K) (radius : K) (S : Nat) (t : Nat × Nat × Nat) : Vec3 K :=
  ⟨center.x - radius * (1 / 2) + radius / (((S : Int) - 1 : Int) : K) * (t.1 : K),
    center.y - radius * (1 / 2) + radius / (((S : Int) - 1 : Int) : K) * (t.2.1 : K),
    center.z - radius * (1 / 2) + radius / (((S : Int) - 1 : Int) : K) * (t.2.2 : K)⟩

/-- The lattice points on the surface of the cube: at least one coordinate is `0` or
`S - 1`. -/
def surfacePoints (S : Nat) : Finset (Nat × Nat × Nat) :=
  ((Finset.range S) ×ˢ ((Finset.range S) ×ˢ (Finset.range S))).filter fun t =>
    ¬ ((1 ≤ t.1 ∧ t.1 < S - 1) ∧ (1 ≤ t.2.1 ∧ t.2.1 < S - 1) ∧ (1 ≤ t.2.2 ∧ t.2.2 < S - 1))

/-- A cell of the face grid: face below 6, row and column below `S`. -/
def CellValid (S : Nat) (c : Nat × Nat × Nat) : Prop := c.1 < 6 ∧ c.2.1 < S ∧ c.2.2 < S

/-- An integer in the range of a 32-bit `int`. -/
def InInt32 (i : Int) : Prop := -2147483648 ≤ i ∧ i ≤ 2147483647

/-- Membership in the `int` range is decidable. -/
instance (i : Int) : Decidable (InInt32 i) := by
  unfold InInt32
  infer_instance

/-- The three values `std::round(p / q)` of `keyOf`, before the conversions to `int`. -/
def rawKeyOf [FloorRing K] [Rounding K] (p : Vec3 K) : IVec3 :=
  ⟨roundedQuotient p.x, roundedQuotient p.y, roundedQuotient p.z⟩

/-- Every conversion to `int` performed by `keyOf` during the fill loop is defined: the
rounded quotients of all cell positions lie in the `int` range. -/
def KeysInRange [FloorRing K] [Rounding K] (center : Vec3 K) (radius : K) (S : Nat) : Prop :=
  ∀ c ∈ gridCells S,
    InInt32 (rawKeyOf (cellPosOf (cubeFaces center radius S) c)).x ∧
    InInt32 (rawKeyOf (cellPosOf (cubeFaces center radius S) c)).y ∧
    InInt32 (rawKeyOf (cellPosOf (cubeFaces center radius S) c)).z

/-- The quantised keys separate the cells of the face grids exactly as the lattice does: two
cells get the same key if and only if they lie on the same lattice point. -/
def KeysSeparate [FloorRing K] [Rounding K] (center : Vec3 K) (radius : K) (S : Nat) : Prop :=
  ∀ c ∈ gridCells S, ∀ d ∈ gridCells S,
    (rawKeyOf (cellPosOf (cubeFaces center radius S) c) =
        rawKeyOf (cellPosOf (cubeFaces center radius S) d) ↔
      cellLattice S c = cellLattice S d)

/-- The position computed for every cell is exactly the position of its lattice point: no
rounding error is committed in the face origins, the steps and the cell positions. -/
def PositionsExact [Rounding K] (center : Vec3 K) (radius : K) (S : Nat) : Prop :=
  ∀ c ∈ gridCells S,
    cellPosOf (cubeFaces center radius S) c = latticePos center radius S (cellLattice S c)

/-- The range condition is a finite check over the grid. -/
instance [FloorRing K] [Rounding K] (center : Vec3 K) (radius : K) (S : Nat) :
    Decidable (KeysInRange center radius S) := by
  unfold KeysInRange
  infer_instance

/-- The separation condition is a finite check over the pairs of cells. -/
instance [FloorRing K] [Rounding K] (center : Vec3 K) (radius : K) (S : Nat) :
    Decidable (KeysSeparate center radius S) := by
  unfold KeysSeparate
  infer_instance

/-- Exactness of the positions is a finite check over the grid. -/
instance [Rounding K] (center : Vec3 K) (radius : K) (S : Nat) :
    Decidable (PositionsExact center radius S) := by
  unfold PositionsExact
  infer_instance

/-- The state of the fill loop after the cells `cs` have been visited: the particle keys are
pairwise distinct and are exactly the keys of the visited cells, the look-up table maps each
of them to the index of its particle, every visited grid cell holds the index of the particle
with the key of the cell, every particle is the particle `addParticle` creates at the
position of some visited cell, and the grid keeps its `6 x (S * S)` shape. -/
structure FillInv [FloorRing K] [Rounding K] (pointMass : K) (faces : List (FaceDef K)) (S : Nat)
    (cs : List (Nat × Nat × Nat)) (st : FillState K) : Prop where
  nodup : (particleKeys st.particles).Nodup
  mem_iff : ∀ k, k ∈ particleKeys st.particles ↔ ∃ c ∈ cs, cellKey faces c = k
  lut_eq : ∀ k, st.lut.lookup k =
    if k ∈ particleKeys st.particles then
      some (((particleKeys st.particles).indexOf k : Nat) : Int)
    else none
  cell_eq : ∀ c ∈ cs, cellGet st.facePointIdx c.1 (c.2.1 * S + c.2.2) =
    (((particleKeys st.particles).indexOf (cellKey faces c) : Nat) : Int)
  fresh : ∀ p ∈ st.particles, ∃ c ∈ cs,
    p = ⟨cellPosOf faces c, cellPosOf faces c, Vec3.splat 0,
      if pointMass > 0 then 1 / pointMass else 0⟩
  shape : st.facePointIdx.length = 6 ∧ ∀ l ∈ st.facePointIdx, l.length = S * S

/-! ## Integration -/

/-- The method `Jelly::applyGravity`: `p.a += vec3(0, -9.81f, 0)` for every particle. -/
def Jelly.applyGravity (b : Jelly K) : Jelly K :=
  { b with particles := b.particles.map fun p => { p with a := p.a.add ⟨0, -(981 / 100), 0⟩ } }

/-- The loop body of `Jelly::integrate` for one particle. -/
def integrateParticle (dt : K) (p : Particle K) : Particle K :=
  let temp := p.p
  let vel := (p.p.sub p.prev).scale (1 - 1 / 100)
  { p with p := (p.p.add vel).add (p.a.scale (dt * dt)), prev := temp, a := Vec3.splat 0 }

/-- The method `Jelly::integrate`: damped Verlet step. -/
def Jelly.integrate (dt : K) (b : Jelly K) : Jelly K :=
  { b with particles := b.particles.map (integrateParticle dt) }

/-! ## Constraint solver -/

/-- The constant `k_total = 0.6f` of `satisfyConstraints`. -/
def k_total : K := 6 / 10

/-- The constant `maxCorrFrac = 0.2f` of `satisfyConstraints`. -/
def maxCorrFrac : K := 2 / 10

/-- The per-iteration factor `k_iter = 1.0f - std::pow(1.0f - k_total, 1.0f / iterations)`. -/
def k_iter (m : MathFns K) (iterations : Nat) : K :=
  1 - m.pow (1 - k_total) (1 / (iterations : K))

/-- The body of the inner loop of `satisfyConstraints` for one spring.  The two `continue`
statements return the particles unchanged.  The reference `b` is read again after `a.p` has
been written, as in the source. -/
def relaxSpring (m : MathFns K) (kIter : K) (ps : List (Particle K)) (s : Spring K) :
    List (Particle K) :=
  let a := pget ps s.i
  let b := pget ps s.j
  let d := b.p.sub a.p
  let l2 := d.length2
  if l2 < 1 / 1000000000000 then ps
  else
    let len := m.sqrt l2
    let diff := (len - s.rest) / len
    let w1 := a.invMass
    let w2 := b.invMass
    let wsum := w1 + w2
    if wsum ≤ 0 then ps
    else
      let corr := d.scale (kIter * diff)
      let corrLen := Vec3.length m corr
      let maxStep := maxCorrFrac * s.rest
      let corr := if corrLen > maxStep then
          corr.scale (maxStep / max corrLen (1 / 100000000))
        else corr
      let ps1 := pset ps s.i { a with p := a.p.add (Vec3.smul (w1 / wsum) corr) }
      let b1 := pget ps1 s.j
      pset ps1 s.j { b1 with p := b1.p.sub (Vec3.smul (w2 / wsum) corr) }

/-- A loop `for (int i = 0; i < n; ++i) body` whose body does not read the counter. -/
def forN {σ : Type} (n : Nat) (body : σ → σ) (s : σ) : σ :=
  match n with
  | 0 => s
  | n + 1 => forN n body (body s)

/-- The method `Jelly::satisfyConstraints`: `iterations` Gauss-Seidel passes over the
springs. -/
def Jelly.satisfyConstraints (m : MathFns K) (iterations : Nat) (b : Jelly K) : Jelly K :=
  let pass := fun ps => b.springs.foldl (relaxSpring m (k_iter m iterations)) ps
  { b with particles := forN iterations pass b.particles }

/-! ## Container collision -/

/-- The constant `EPS = 1e-4f` of `collideWithContainer`. -/
def EPS : K := 1 / 10000

/-- The floor test of `collideWithContainer` on the pair `(cur, prev)`. -/
def collideFloor (box : Container K) (cp : Vec3 K × Vec3 K) : Vec3 K × Vec3 K :=
  if cp.1.y < box.min.y then
    let cur : Vec3 K := { cp.1 with y := box.min.y + EPS }
    let v := cur.sub cp.2
    let v : Vec3 K := { v with y := -v.y * (1 - box.restitution) }
    let v : Vec3 K := { v with x := v.x * (1 - box.friction) }
    let v : Vec3 K := { v with z := v.z * (1 - box.friction) }
    (cur, cur.sub v)
  else cp

/-- The response shared by the two x walls once `cur.x` has been clamped. -/
def bounceX (box : Container K) (cur prev : Vec3 K) : Vec3 K × Vec3 K :=
  let v := cur.sub prev
  let v : Vec3 K := { v with x := -v.x * (1 - box.restitution) }
  let v : Vec3 K := { v with y := v.y * (1 - box.friction) }
  let v : Vec3 K := { v with z := v.z * (1 - box.friction) }
  (cur, cur.sub v)

/-- The x wall tests of `collideWithContainer` (`if ... else if ...`). -/
def collideX (box : Container K) (cp : Vec3 K × Vec3 K) : Vec3 K × Vec3 K :=
  if cp.1.x < box.min.x then bounceX box { cp.1 with x := box.min.x + EPS } cp.2
  else if cp.1.x > box.max.x then bounceX box { cp.1 with x := box.max.x - EPS } cp.2
  else cp

/-- The response shared by the two z walls once `cur.z` has been clamped. -/
def bounceZ (box : Container K) (cur prev : Vec3 K) : Vec3 K × Vec3 K :=
  let v := cur.sub prev
  let v : Vec3 K := { v with z := -v.z * (1 - box.restitution) }
  let v : Vec3 K := { v with y := v.y * (1 - box.friction) }
  let v : Vec3 K := { v with x := v.x * (1 - box.friction) }
  (cur, cur.sub v)

/-- The z wall tests of `collideWithContainer` (`if ... else if ...`). -/
def collideZ (box : Container K) (cp : Vec3 K × Vec3 K) : Vec3 K × Vec3 K :=
  if cp.1.z < box.min.z then bounceZ box { cp.1 with z := box.min.z + EPS } cp.2
  else if cp.1.z > box.max.z then bounceZ box { cp.1 with z := box.max.z - EPS } cp.2
  else cp

/-- The loop body of `collideWithContainer` for one particle: floor, then x walls, then
z walls, then the write-back `p.p = cur; p.prev = prev`. -/
def collideParticle (box : Container K) (p : Particle K) : Particle K :=
  let cp := collideZ box (collideX box (collideFloor box (p.p, p.prev)))
  { p with p := cp.1, prev := cp.2 }

/-- The method `Jelly::collideWithContainer`. -/
def Jelly.collideWithContainer (box : Container K) (b : Jelly K) : Jelly K :=
  { b with particles := b.particles.map (collideParticle box) }

/-! ## Step orchestration -/

/-- The method `Jelly::Update`: external acceleration, gravity, integration, four
collide-then-relax passes, bounding box. -/
def Jelly.Update (m : MathFns K) (dt : K) (box : Container K) (b : Jelly K) : Jelly K :=
  let b1 : Jelly K :=
    { b with particles := b.particles.map fun p => { p with a := p.a.add b.acceleration } }
  let b2 := b1.applyGravity
  let b3 := b2.integrate dt
  let b4 := forN 4 (fun c => (c.collideWithContainer box).satisfyConstraints m 1) b3
  b4.updateAABB

/-! ## Cosmetic displacements -/

/-- Model of `glm::normalize(v)` followed by the test `!std::isfinite(dir.x)` of
`apply_idle_wobble`: the quotient by a zero length is the non-finite case and yields the
fallback direction `(0, 1, 0)`. -/
def wobbleDir (m : MathFns K) (v : Vec3 K) : Vec3 K :=
  if Vec3.length m v = 0 then ⟨0, 1, 0⟩ else v.scale (1 / Vec3.length m v)

/-- The method `Jelly::apply_idle_wobble`, with `amp = 0.01f` and `freq = 4.0f`. -/
def Jelly.apply_idle_wobble (m : MathFns K) (t : K) (b : Jelly K) : Jelly K :=
  { b with particles := b.particles.map fun p =>
      { p with p := p.p.add ((wobbleDir m (p.p.sub b.center)).scale (1 / 100 * m.sin (4 * t))) } }

/-- The method `Jelly::apply_punch`. -/
def Jelly.apply_punch (b : Jelly K) : Jelly K :=
  { b with particles := b.particles.map fun p =>
      if p.p.z > b.center.z then { p with p := { p.p with z := p.p.z + 5 / 100 } } else p }

/-- The method `Jelly::resolve_ground_collision`. -/
def Jelly.resolve_ground_collision (b : Jelly K) : Jelly K :=
  { b with particles := b.particles.map fun p =>
      if p.p.y < 0 then { p with p := { p.p with y := 0 } } else p }

/-! ## Inter-body collision -/

/-- The overlap test of `CollideWith` on the cached bounding boxes. -/
def aabbOverlap (amin amax bmin bmax : Vec3 K) : Prop :=
  (amin.x ≤ bmax.x ∧ amax.x ≥ bmin.x) ∧ (amin.y ≤ bmax.y ∧ amax.y ≥ bmin.y) ∧
    (amin.z ≤ bmax.z ∧ amax.z ≥ bmin.z)

instance (amin amax bmin bmax : Vec3 K) : Decidable (aabbOverlap amin amax bmin bmax) := by
  unfold aabbOverlap; infer_instance

/-- The center-to-center vector of `CollideWith`, with the fallback `(0, 1, 0)` for
coincident centers. -/
def centerDelta (amin amax bmin bmax : Vec3 K) : Vec3 K :=
  let aCenter := Vec3.smul (1 / 2) (amin.add amax)
  let bCenter := Vec3.smul (1 / 2) (bmin.add bmax)
  let delta := aCenter.sub bCenter
  if delta.length2 < 1 / 1000000000000 then ⟨0, 1, 0⟩ else delta

/-- The per-axis penetration vector `pen` of `CollideWith`. -/
def penetration (amin amax bmin bmax : Vec3 K) : Vec3 K :=
  ⟨min (amax.x - bmin.x) (bmax.x - amin.x), min (amax.y - bmin.y) (bmax.y - amin.y),
    min (amax.z - bmin.z) (bmax.z - amin.z)⟩

/-- The axis selection of `CollideWith`: the unit vector of the axis of least penetration,
signed by the test `delta > 0` on that axis. -/
def separationDir (pen delta : Vec3 K) : Vec3 K :=
  if pen.x ≤ pen.y ∧ pen.x ≤ pen.z then ⟨if delta.x > 0 then 1 else -1, 0, 0⟩
  else if pen.y ≤ pen.x ∧ pen.y ≤ pen.z then ⟨0, if delta.y > 0 then 1 else -1, 0⟩
  else ⟨0, 0, if delta.z > 0 then 1 else -1⟩

/-- The displacement `delta * push * 0.5f` that `CollideWith` adds to the particles of
`*this` and subtracts from the particles of `other`. -/
def collidePush (amin amax bmin bmax : Vec3 K) : Vec3 K :=
  ((separationDir (penetration amin amax bmin bmax) (centerDelta amin amax bmin bmax)).scale
    (1 / 2 * min (min (penetration amin amax bmin bmax).x (penetration amin amax bmin bmax).y)
      (penetration amin amax bmin bmax).z)).scale (1 / 2)

/-- The method `Jelly::CollideWith`: the pair is `(*this, other)` after the call. -/
def Jelly.CollideWith (a other : Jelly K) : Jelly K × Jelly K :=
  let amin := a.aabbMin
  let amax := a.aabbMax
  let bmin := other.aabbMin
  let bmax := other.aabbMax
  if ¬ aabbOverlap amin amax bmin bmax then (a, other)
  else
    let pen := penetration amin amax bmin bmax
    let delta := separationDir pen (centerDelta amin amax bmin bmax)
    let push : K := 1 / 2 * min (min pen.x pen.y) pen.z
    let a1 : Jelly K := { a with particles := a.particles.map fun p =>
      { p with p := p.p.add ((delta.scale push).scale (1 / 2)) } }
    let o1 : Jelly K := { other with particles := other.particles.map fun p =>
      { p with p := p.p.sub ((delta.scale push).scale (1 / 2)) } }
    (a1.updateAABB, o1.updateAABB)

/-! ## Sequences of operations -/

/-- The public operations that mutate a body.  A body takes part in `CollideWith` either as
`*this` (`collideWith`) or as the argument `other` of a call on another body
(`collidedBy`). -/
inductive Op (K : Type) where
  | update (dt : K) (box : Container K)
  | collideWith (other : Jelly K)
  | collidedBy (caller : Jelly K)
  | idleWobble (t : K)
  | punch
  | groundCollision

/-- The effect of one operation on a body. -/
def Jelly.step (m : MathFns K) (b : Jelly K) : Op K → Jelly K
  | Op.update dt box => b.Update m dt box
  | Op.collideWith other => (b.CollideWith other).1
  | Op.collidedBy caller => (caller.CollideWith b).2
  | Op.idleWobble t => b.apply_idle_wobble m t
  | Op.punch => b.apply_punch
  | Op.groundCollision => b.resolve_ground_collision

/-- The effect of a sequence of operations, first to last. -/
def Jelly.run (m : MathFns K) (b : Jelly K) (ops : List (Op K)) : Jelly K :=
  ops.foldl (Jelly.step m) b

/-! ## Vocabulary of the statements -/

/-- The coordinate of a vector along axis `0` (x), `1` (y) or `2` (z). -/
def Vec3.comp (v : Vec3 K) (ax : Fin 3) : K :=
  match ax with
  | 0 => v.x
  | 1 => v.y
  | 2 => v.z

/-- The unit vector of an axis. -/
def axisUnit (ax : Fin 3) : Vec3 K :=
  match ax with
  | 0 => ⟨1, 0, 0⟩
  | 1 => ⟨0, 1, 0⟩
  | 2 => ⟨0, 0, 1⟩

/-- The axis of minimum penetration, ties resolved X, then Y, then Z: the first axis whose
penetration equals the minimum of the three. -/
def minPenAxis (pen : Vec3 K) : Fin 3 :=
  if pen.x = min (min pen.x pen.y) pen.z then 0
  else if pen.y = min (min pen.x pen.y) pen.z then 1
  else 2

/-- The sign of a scalar: `1`, `-1` or `0`. -/
def signOf (c : K) : K := if 0 < c then 1 else if c < 0 then -1 else 0

/-- The center of a bounding box, `0.5f * (min + max)`. -/
def aabbCenter (mn mx : Vec3 K) : Vec3 K := Vec3.smul (1 / 2) (mn.add mx)

/-- The push of the specification of `CollideWith`: the unit vector of the axis of minimum
penetration, signed like `aCenter - bCenter` on that axis, times a quarter of the minimum
penetration. -/
def specPush (amin amax bmin bmax : Vec3 K) : Vec3 K :=
  let pen := penetration amin amax bmin bmax
  let ax := minPenAxis pen
  ((axisUnit ax).scale (signOf (((aabbCenter amin amax).sub (aabbCenter bmin bmax)).comp ax))).scale
    (min (min pen.x pen.y) pen.z / 4)

/-- All three coordinates lie within the start values `-1e9` and `1e9` of `updateAABB`. -/
def Vec3.InRange (v : Vec3 K) : Prop :=
  (-1000000000 ≤ v.x ∧ v.x ≤ 1000000000) ∧ (-1000000000 ≤ v.y ∧ v.y ≤ 1000000000) ∧
    (-1000000000 ≤ v.z ∧ v.z ≤ 1000000000)

instance (v : Vec3 K) : Decidable v.InRange := by
  unfold Vec3.InRange; infer_instance

/-- The distance of two vectors in the maximum norm is at most `B`. -/
def Vec3.Near (u v : Vec3 K) (B : K) : Prop :=
  |u.x - v.x| ≤ B ∧ |u.y - v.y| ≤ B ∧ |u.z - v.z| ≤ B

/-- The sum of the rest lengths of the springs that have particle `i` as an endpoint. -/
def incidentRest (springs : List (Spring K)) (i : Int) : K :=
  match springs with
  | [] => 0
  | s :: ss => (if s.i = i ∨ s.j = i then s.rest else 0) + incidentRest ss i

/-- A square root that never underestimates: non-negative, with a square at least its
argument.  The real square root satisfies it with equality. -/
def MathFns.SqrtUpper (m : MathFns K) : Prop :=
  ∀ x : K, 0 ≤ x → 0 ≤ m.sqrt x ∧ x ≤ m.sqrt x * m.sqrt x

/-- A spring as `GenerateCubeMesh` creates it over the particle vector `ps`: two distinct
indices into `ps` and the distance of the two particles as rest length. -/
def SpringBuilt (m : MathFns K) (ps : List (Particle K)) (s : Spring K) : Prop :=
  s.i ≠ s.j ∧ (0 ≤ s.i ∧ s.i < ps.length) ∧ (0 ≤ s.j ∧ s.j < ps.length) ∧
    s.rest = Vec3.length m ((pget ps s.i).p.sub (pget ps s.j).p)

/-- The scalar by which one relaxation of spring `s` multiplies the difference vector
`d = b.p - a.p` to obtain the correction it applies: `k_iter * diff`, times the clamp
quotient when the clamp is active. -/
def relaxFactor (m : MathFns K) (kIter : K) (ps : List (Particle K)) (s : Spring K) : K :=
  if Vec3.length m (((pget ps s.j).p.sub (pget ps s.i).p).scale
      (kIter * ((m.sqrt ((pget ps s.j).p.sub (pget ps s.i).p).length2 - s.rest) /
        m.sqrt ((pget ps s.j).p.sub (pget ps s.i).p).length2))) > maxCorrFrac * s.rest then
    kIter * ((m.sqrt ((pget ps s.j).p.sub (pget ps s.i).p).length2 - s.rest) /
        m.sqrt ((pget ps s.j).p.sub (pget ps s.i).p).length2) *
      (maxCorrFrac * s.rest /
        max (Vec3.length m (((pget ps s.j).p.sub (pget ps s.i).p).scale
          (kIter * ((m.sqrt ((pget ps s.j).p.sub (pget ps s.i).p).length2 - s.rest) /
            m.sqrt ((pget ps s.j).p.sub (pget ps s.i).p).length2)))) (1 / 100000000))
  else
    kIter * ((m.sqrt ((pget ps s.j).p.sub (pget ps s.i).p).length2 - s.rest) /
        m.sqrt ((pget ps s.j).p.sub (pget ps s.i).p).length2)

/-- The springs refer to particles of the body: both endpoints of every spring are indices
into the particle vector. -/
def Jelly.SpringsValid (b : Jelly K) : Prop :=
  ∀ s ∈ b.springs, (0 ≤ s.i ∧ s.i < b.particles.length) ∧ (0 ≤ s.j ∧ s.j < b.particles.length)

end Model

/-! ## A rational instance of the libm functions -/

/-- Integer square root rounded down, two bits of the argument at a time; `fuel` bounds the
number of steps. -/
def isqrtAux (fuel n : Nat) : Nat :=
  match fuel with
  | 0 => 0
  | f + 1 =>
    if n < 4 then (if n = 0 then 0 else 1)
    else
      let r := 2 * isqrtAux f (n / 4)
      if (r + 1) * (r + 1) ≤ n then r + 1 else r

/-- Integer square root rounded down. -/
def isqrt (n : Nat) : Nat := isqrtAux n n

/-- Integer square root rounded up: the least `r` with `n ≤ r * r`. -/
def ceilSqrt (n : Nat) : Nat := if isqrt n * isqrt n = n then isqrt n else isqrt n + 1

/-- A rational square root: exact on squares of rationals, rounded up to the next multiple
of `1 / den` otherwise. -/
def qsqrt (q : ℚ) : ℚ := (ceilSqrt (q.num.toNat * q.den) : ℚ) / (q.den : ℚ)

/-- A rational instance of the libm functions: `qsqrt`, the power function on natural
exponents (the exponent is truncated), and the degree-five Taylor polynomial of the sine. -/
def qMath : MathFns ℚ :=
  ⟨qsqrt, fun a e => a ^ ⌊e⌋.toNat, fun x => x - x ^ 3 / 6 + x ^ 5 / 120⟩

/-! ## Rounding on the rationals -/

/-- Exact arithmetic on the rationals: no operation is rounded.  It is the rounding used by
the evaluations that do not name another one. -/
instance exactArithmetic : Rounding ℚ := ⟨fun x => x⟩

/-- The quotient `n / d` rounded to the nearest natural number, halfway cases to the even
neighbour. -/
def roundHalfEven (n d : Nat) : Nat :=
  if 2 * (n % d) < d then n / d
  else if d < 2 * (n % d) then n / d + 1
  else n / d + (n / d) % 2

/-- Repeated halving: the number of halvings that bring `n` below 2, with `fuel` bounding
their number. -/
def ilog2Aux (fuel n : Nat) : Nat :=
  match fuel with
  | 0 => 0
  | fuel + 1 => if n < 2 then 0 else ilog2Aux fuel (n / 2) + 1

/-- One step of the bisection of `ilog2`: when `2^k <= p.2`, add `k` to the count `p.1` and
divide `p.2` by `2^k`. -/
def ilog2Step (k : Nat) (p : Nat × Nat) : Nat × Nat :=
  if 2 ^ k ≤ p.2 then (p.1 + k, p.2 / 2 ^ k) else p

/-- The position of the leading binary digit of `n`: the largest `k` with `2^k <= n`, by
bisection below `2^256` and by repeated halving above. -/
def ilog2 (n : Nat) : Nat :=
  if n < 2 ^ 256 then
    (ilog2Step 1 (ilog2Step 2 (ilog2Step 4 (ilog2Step 8 (ilog2Step 16 (ilog2Step 32
      (ilog2Step 64 (ilog2Step 128 (0, n))))))))).1
  else ilog2Aux n n

/-- IEEE 754 binary32 rounding of a rational: the nearest number `M * 2^e` with a 24-bit
significand `M`, halfway cases to the even significand, with the subnormal exponent floor
`e >= -149`.  Overflow to infinity (beyond about `3.4e38`) is not modelled. -/
def f32 (x : ℚ) : ℚ :=
  if x = 0 then 0 else
    let n := x.num.natAbs
    let d := x.den
    let e0 : Int := (ilog2 n : Int) - (ilog2 d : Int) - 23
    let e1 : Int := if n * 2 ^ (-e0).toNat < 2 ^ 23 * (d * 2 ^ e0.toNat) then e0 - 1 else e0
    let e : Int := max e1 (-149)
    let r : ℚ := (roundHalfEven (n * 2 ^ (-e).toNat) (d * 2 ^ e.toNat) : ℚ) * 2 ^ e
    if x < 0 then -r else r

/-- The `float` arithmetic of the program: every rounded operation rounds to binary32. -/
def binary32 : Rounding ℚ := ⟨f32⟩

/-! ## Concrete bodies used to evaluate the model -/

/-- The unit cube with two points per edge (eight particles) built by the constructor around
`c`, with unit mass and stiffness. -/
def unitCube (c : Vec3 ℚ) : Jelly ℚ := Jelly.new qMath c 1 ⟨0, 0, 0⟩ ⟨0, 0, 0⟩ 1 1 1

/-- The container of `Main.cpp`: `min = (-1, 0, -1)`, `max = (1, 1.2, 1)`, restitution
`0.25`, friction `0.6`. -/
def mainBox : Container ℚ := ⟨⟨-1, 0, -1⟩, ⟨1, 12 / 10, 1⟩, 25 / 100, 6 / 10⟩

/-- The configuration of the body `j1` of `Main.cpp`: center `(0, 0.7, 0)`, radius `0.35`,
mass `0.05`, stiffness `0.25`, two springs per edge. -/
def mainConfig : Jelly ℚ :=
  Jelly.init ⟨0, 7 / 10, 0⟩ (35 / 100) ⟨0, 0, 0⟩ ⟨0, 0, 0⟩ (5 / 100) (25 / 100) 2

/-- The configuration of the body `j1` of `Main.cpp` with its arguments as `float` values:
center `(0, 0.7f, 0)`, radius `0.35f`, mass `0.05f`, stiffness `0.25f`, two springs per edge. -/
def mainConfigF32 : Jelly ℚ :=
  Jelly.init ⟨0, f32 (7 / 10), 0⟩ (f32 (35 / 100)) ⟨0, 0, 0⟩ ⟨0, 0, 0⟩ (f32 (5 / 100))
    (f32 (25 / 100)) 2

/-- The configuration `mainConfigF32` moved to the center `(0.22505f, 0.7f, 0)`. -/
def shiftedConfigF32 : Jelly ℚ :=
  Jelly.init ⟨f32 (22505 / 100000), f32 (7 / 10), 0⟩ (f32 (35 / 100)) ⟨0, 0, 0⟩ ⟨0, 0, 0⟩
    (f32 (5 / 100)) (f32 (25 / 100)) 2

/-- A small cube far from the origin: center `(200000, 0, 0)`, radius `1/128 = 0.0078125`
(both `float` values), unit mass and stiffness, one spring per edge. -/
def farConfigF32 : Jelly ℚ :=
  Jelly.init ⟨200000, 0, 0⟩ (1 / 128) ⟨0, 0, 0⟩ ⟨0, 0, 0⟩ 1 1 1

/-- The configuration of the unit cube around the origin: radius `1`, unit mass and stiffness,
one spring per edge; all its values are `float` values. -/
def unitConfig : Jelly ℚ :=
  Jelly.init ⟨0, 0, 0⟩ 1 ⟨0, 0, 0⟩ ⟨0, 0, 0⟩ 1 1 1

/-- The method `GenerateCubeMesh` run in binary32 arithmetic. -/
def generateF32 (b : Jelly ℚ) : Jelly ℚ := @Jelly.GenerateCubeMesh ℚ _ _ binary32 qMath b

/-- The body `j1` of `Main.cpp` built with per-particle mass `0` and one spring per edge. -/
def masslessCube : Jelly ℚ :=
  Jelly.new qMath ⟨0, 7 / 10, 0⟩ (35 / 100) ⟨0, 0, 0⟩ ⟨0, 0, 0⟩ 0 (25 / 100) 1

/-- A body state with two particles at rest on the vertical line through the origin, at
heights `0` and `1`, joined by one spring of rest length `2`. -/
def compressedPair : Jelly ℚ :=
  { center := ⟨0, 1 / 2, 0⟩, radius := 1, velocity := ⟨0, 0, 0⟩, acceleration := ⟨0, 0, 0⟩,
    pointMass := 1, springStrength := 1, springsPerEdge := 1,
    particles := [⟨⟨0, 0, 0⟩, ⟨0, 0, 0⟩, ⟨0, 0, 0⟩, 1⟩, ⟨⟨0, 1, 0⟩, ⟨0, 1, 0⟩, ⟨0, 0, 0⟩, 1⟩],
    springs := [⟨0, 1, 2, 1⟩], S := 2, facePointIdx := [],
    aabbMin := ⟨0, 0, 0⟩, aabbMax := ⟨0, 1, 0⟩ }

/-- A body state with two particles of unit inverse mass at rest on the vertical line through
the origin, at heights `0` and `1`, joined by one spring of rest length `4/5`. -/
def stretchedPair : Jelly ℚ :=
  { center := ⟨0, 1 / 2, 0⟩, radius := 1, velocity := ⟨0, 0, 0⟩, acceleration := ⟨0, 0, 0⟩,
    pointMass := 1, springStrength := 1, springsPerEdge := 1,
    particles := [⟨⟨0, 0, 0⟩, ⟨0, 0, 0⟩, ⟨0, 0, 0⟩, 1⟩, ⟨⟨0, 1, 0⟩, ⟨0, 1, 0⟩, ⟨0, 0, 0⟩, 1⟩],
    springs := [⟨0, 1, 4 / 5, 1⟩], S := 2, facePointIdx := [],
    aabbMin := ⟨0, 0, 0⟩, aabbMax := ⟨0, 1, 0⟩ }

/-- The body state `stretchedPair` over an arbitrary field: two particles of unit inverse mass
at heights `0` and `1`, joined by one spring of rest length `4/5`. -/
def stretchedPairOver (K : Type) [LinearOrderedField K] : Jelly K :=
  { center := ⟨0, 1 / 2, 0⟩, radius := 1, velocity := ⟨0, 0, 0⟩, acceleration := ⟨0, 0, 0⟩,
    pointMass := 1, springStrength := 1, springsPerEdge := 1,
    particles := [⟨⟨0, 0, 0⟩, ⟨0, 0, 0⟩, ⟨0, 0, 0⟩, 1⟩, ⟨⟨0, 1, 0⟩, ⟨0, 1, 0⟩, ⟨0, 0, 0⟩, 1⟩],
    springs := [⟨0, 1, 4 / 5, 1⟩], S := 2, facePointIdx := [],
    aabbMin := ⟨0, 0, 0⟩, aabbMax := ⟨0, 1, 0⟩ }

/-- A body state with two particles of unit inverse mass at heights `0` and `4e-7`, joined by
one spring of rest length `3e-7`. -/
def tinyPair : Jelly ℚ :=
  { center := ⟨0, 0, 0⟩, radius := 1, velocity := ⟨0, 0, 0⟩, acceleration := ⟨0, 0, 0⟩,
    pointMass := 1, springStrength := 1, springsPerEdge := 1,
    particles := [⟨⟨0, 0, 0⟩, ⟨0, 0, 0⟩, ⟨0, 0, 0⟩, 1⟩,
      ⟨⟨0, 4 / 10000000, 0⟩, ⟨0, 4 / 10000000, 0⟩, ⟨0, 0, 0⟩, 1⟩],
    springs := [⟨0, 1, 3 / 10000000, 1⟩], S := 2, facePointIdx := [],
    aabbMin := ⟨0, 0, 0⟩, aabbMax := ⟨0, 4 / 10000000, 0⟩ }

/-- A body with two particles, at `(1e9, 0, 0)` and `(1e9 + 2048, 4096, 4096)`, and its
bounding box as `updateAABB` computes it. -/
def farBodyA : Jelly ℚ :=
  Jelly.updateAABB
    { center := ⟨1000001024, 2048, 2048⟩, radius := 4096, velocity := ⟨0, 0, 0⟩,
      acceleration := ⟨0, 0, 0⟩, pointMass := 1, springStrength := 1, springsPerEdge := 1,
      particles := [⟨⟨1000000000, 0, 0⟩, ⟨1000000000, 0, 0⟩, ⟨0, 0, 0⟩, 1⟩,
        ⟨⟨1000002048, 4096, 4096⟩, ⟨1000002048, 4096, 4096⟩, ⟨0, 0, 0⟩, 1⟩],
      springs := [], S := 2, facePointIdx := [], aabbMin := ⟨0, 0, 0⟩, aabbMax := ⟨0, 0, 0⟩ }

/-- A body with two particles, at `(1e9 - 1024, 0, 0)` and `(1e9 + 1024, 4096, 4096)`, and
its bounding box as `updateAABB` computes it. -/
def farBodyB : Jelly ℚ :=
  Jelly.updateAABB
    { center := ⟨1000000000, 2048, 2048⟩, radius := 4096, velocity := ⟨0, 0, 0⟩,
      acceleration := ⟨0, 0, 0⟩, pointMass := 1, springStrength := 1, springsPerEdge := 1,
      particles := [⟨⟨999998976, 0, 0⟩, ⟨999998976, 0, 0⟩, ⟨0, 0, 0⟩, 1⟩,
        ⟨⟨1000001024, 4096, 4096⟩, ⟨1000001024, 4096, 4096⟩, ⟨0, 0, 0⟩, 1⟩],
      springs := [], S := 2, facePointIdx := [], aabbMin := ⟨0, 0, 0⟩, aabbMax := ⟨0, 0, 0⟩ }

/-- A body state with a single particle at rest at `(0, 1, 0)` and no spring. -/
def loneParticle : Jelly ℚ :=
  { center := ⟨0, 1, 0⟩, radius := 1, velocity := ⟨0, 0, 0⟩, acceleration := ⟨0, 0, 0⟩,
    pointMass := 1, springStrength := 1, springsPerEdge := 1,
    particles := [⟨⟨0, 1, 0⟩, ⟨0, 1, 0⟩, ⟨0, 0, 0⟩, 1⟩],
    springs := [], S := 2, facePointIdx := [],
    aabbMin := ⟨0, 1, 0⟩, aabbMax := ⟨0, 1, 0⟩ }

/-- A container whose x walls are swapped: `min.x = 1` and `max.x = -1`. -/
def invertedBox : Container ℚ := ⟨⟨1, 0, -1⟩, ⟨-1, 12 / 10, 1⟩, 25 / 100, 6 / 10⟩

/-- A body state with five particles and no spring: one below the floor of `mainBox` moving
down, one far above its top, one beyond the `+x` wall, one beyond the `-z` wall and one
outside the floor, the `-x` wall and the `+z` wall at once. -/
def strayParticles : Jelly ℚ :=
  { center := ⟨0, 1, 0⟩, radius := 1, velocity := ⟨0, 0, 0⟩, acceleration := ⟨0, 0, 0⟩,
    pointMass := 1, springStrength := 1, springsPerEdge := 1,
    particles := [⟨⟨0, -(1 / 10), 0⟩, ⟨1 / 100, 0, 0⟩, ⟨0, 0, 0⟩, 1⟩,
      ⟨⟨0, 5, 0⟩, ⟨0, 5, 0⟩, ⟨0, 0, 0⟩, 1⟩,
      ⟨⟨2, 1 / 2, 0⟩, ⟨2, 1 / 2, 0⟩, ⟨0, 0, 0⟩, 1⟩,
      ⟨⟨0, 1 / 2, -3⟩, ⟨0, 1 / 2, -3⟩, ⟨0, 0, 0⟩, 1⟩,
      ⟨⟨-2, -1, 2⟩, ⟨-2, -1, 2⟩, ⟨0, 0, 0⟩, 1⟩],
    springs := [], S := 2, facePointIdx := [],
    aabbMin := ⟨-2, -1, -3⟩, aabbMax := ⟨2, 5, 2⟩ }

/-! ## Further vocabulary of the statements -/

/-- The mass-weighted sum of the positions, `sum_i (1 / invMass_i) * position_i`. -/
def massWeightedSum {K : Type} [LinearOrderedField K] (ps : List (Particle K)) : Vec3 K :=
  ⟨(ps.map fun p => 1 / p.invMass * p.p.x).sum, (ps.map fun p => 1 / p.invMass * p.p.y).sum,
    (ps.map fun p => 1 / p.invMass * p.p.z).sum⟩

/-- Validity of the spring endpoints is decidable: a finite check over the springs. -/
instance {K : Type} [LinearOrderedField K] (b : Jelly K) : Decidable b.SpringsValid := by
  unfold Jelly.SpringsValid
  infer_instance

/-- A body state with two particles of inverse masses `1` and `3` at rest on the vertical line
through the origin, at heights `0` and `1`, joined by one spring of rest length `4/5`. -/
def unequalPair : Jelly ℚ :=
  { center := ⟨0, 1 / 2, 0⟩, radius := 1, velocity := ⟨0, 0, 0⟩, acceleration := ⟨0, 0, 0⟩,
    pointMass := 1, springStrength := 1, springsPerEdge := 1,
    particles := [⟨⟨0, 0, 0⟩, ⟨0, 0, 0⟩, ⟨0, 0, 0⟩, 1⟩, ⟨⟨0, 1, 0⟩, ⟨0, 1, 0⟩, ⟨0, 0, 0⟩, 3⟩],
    springs := [⟨0, 1, 4 / 5, 1⟩], S := 2, facePointIdx := [],
    aabbMin := ⟨0, 0, 0⟩, aabbMax := ⟨0, 1, 0⟩ }

/-- What `satisfyConstraints` reads of a spring: the two endpoints and the rest length. -/
def Spring.shape {K : Type} (s : Spring K) : Int × Int × K := (s.i, s.j, s.rest)

/-- Two body states with the same particles, the same external acceleration, the same
bounding box and the same springs up to their stiffness `k`. -/
def Jelly.SameUpToStiffness {K : Type} (b c : Jelly K) : Prop :=
  b.particles = c.particles ∧ b.acceleration = c.acceleration ∧
    b.springs.map Spring.shape = c.springs.map Spring.shape ∧
    b.aabbMin = c.aabbMin ∧ b.aabbMax = c.aabbMax

/-- The displacement of one rigid free-fall step for implicit velocity `v`:
`0.99 * v + (acceleration + (0, -9.81, 0)) * dt^2`. -/
def fallStep {K : Type} [LinearOrderedField K] (b : Jelly K) (v : Vec3 K) (dt : K) : Vec3 K :=
  (v.scale (99 / 100)).add ((b.acceleration.add ⟨0, -(981 / 100), 0⟩).scale (dt * dt))

/-- The column or row that `addPairSprings` pairs with index `i`: `S - 1 - i` when the
direction is mirrored, `i` otherwise. -/
def mirrorIdx (flag : Bool) (S i : Nat) : Nat := if flag then S - 1 - i else i

/-- The body spring that `addPairSprings` creates for cell `(u, v)` of face `fA`: it joins the
particle of that cell to the particle of the paired cell of face `fB`, with their distance as
rest length and stiffness `k`. -/
def pairSpringAt {K : Type} [LinearOrderedField K] (m : MathFns K) (ps : List (Particle K))
    (fpi : List (List Int)) (S fA fB : Nat) (mirrorU mirrorV : Bool) (k : K) (v u : Nat) :
    Spring K :=
  ⟨cellGet fpi fA (v * S + u),
    cellGet fpi fB (mirrorIdx mirrorV S v * S + mirrorIdx mirrorU S u),
    Vec3.length m ((pget ps (cellGet fpi fA (v * S + u))).p.sub
      (pget ps (cellGet fpi fB (mirrorIdx mirrorV S v * S + mirrorIdx mirrorU S u))).p), k⟩

/-- One spring `pairSpringAt` for every cell `(u, v)` of the `S x S` grid, in loop order. -/
def pairSpringList {K : Type} [LinearOrderedField K] (m : MathFns K) (ps : List (Particle K))
    (fpi : List (List Int)) (S fA fB : Nat) (mirrorU mirrorV : Bool) (k : K) :
    List (Spring K) :=
  (List.range S).flatMap fun v =>
    (List.range S).map fun u => pairSpringAt m ps fpi S fA fB mirrorU mirrorV k v u

end JellySim

/-! # Theorems -/

set_option linter.unusedSectionVars false

namespace JellySim

section Basics

variable {K : Type} [LinearOrderedField K]

theorem Vec3.ext_iff3 (a b : Vec3 K) : a = b ↔ a.x = b.x ∧ a.y = b.y ∧ a.z = b.z := by
  cases a; cases b; simp

theorem pset_length (ps : List (Particle K)) (i : Int) (q : Particle K) :
    (pset ps i q).length = ps.length := by
  unfold pset; split_ifs <;> simp

theorem pget_pset_same (ps : List (Particle K)) (i : Int) (q : Particle K)
    (h0 : 0 ≤ i) (h1 : i < ps.length) : pget (pset ps i q) i = q := by
  have hlt : i.toNat < ps.length := by omega
  unfold pget pset
  rw [if_neg (by omega), if_neg (by omega)]
  simp [List.getD_eq_getElem?_getD, List.getElem?_set, hlt]

theorem pget_pset_ne (ps : List (Particle K)) (i j : Int) (q : Particle K) (h : i ≠ j) :
    pget (pset ps i q) j = pget ps j := by
  unfold pget pset
  by_cases hj : j < 0
  · simp [hj]
  · by_cases hi : i < 0
    · simp [hi]
    · have hne : i.toNat ≠ j.toNat := by omega
      simp [hi, hj, List.getD_eq_getElem?_getD, List.getElem?_set, hne]

theorem min3_cases (x y z : K) :
    (x ≤ y ∧ x ≤ z ∧ min (min x y) z = x) ∨ (y < x ∧ y ≤ z ∧ min (min x y) z = y) ∨
      (z < x ∧ z < y ∧ min (min x y) z = z) := by
  rcases le_or_lt x y with h1 | h1
  · rcases le_or_lt x z with h2 | h2
    · left; exact ⟨h1, h2, by rw [min_eq_left h1, min_eq_left h2]⟩
    · right; right; exact ⟨h2, by linarith, by rw [min_eq_left h1, min_eq_right h2.le]⟩
  · rcases le_or_lt y z with h2 | h2
    · right; left; exact ⟨h1, h2, by rw [min_eq_right h1.le, min_eq_left h2]⟩
    · right; right; exact ⟨by linarith, h2, by rw [min_eq_right h1.le, min_eq_right h2.le]⟩

theorem separationDir_eq (pen c : Vec3 K) (hnz : c.comp (minPenAxis pen) ≠ 0) :
    separationDir pen c = (axisUnit (minPenAxis pen)).scale (signOf (c.comp (minPenAxis pen))) := by
  rcases min3_cases pen.x pen.y pen.z with ⟨h1, h2, h3⟩ | ⟨h1, h2, h3⟩ | ⟨h1, h2, h3⟩
  · have hax : minPenAxis pen = 0 := by simp [minPenAxis, h3]
    rw [hax] at hnz ⊢
    simp only [Vec3.comp] at hnz
    rcases lt_or_gt_of_ne hnz with h | h
    · simp [separationDir, h1, h2, axisUnit, Vec3.scale, signOf, Vec3.comp, h, not_lt.mpr h.le]
    · simp [separationDir, h1, h2, axisUnit, Vec3.scale, signOf, Vec3.comp, h]
  · have hax : minPenAxis pen = 1 := by simp [minPenAxis, h3, h1.ne']
    rw [hax] at hnz ⊢
    simp only [Vec3.comp] at hnz
    rcases lt_or_gt_of_ne hnz with h | h
    · simp [separationDir, h1, h2, h1.le, not_le.mpr h1, axisUnit, Vec3.scale, signOf,
        Vec3.comp, h, not_lt.mpr h.le]
    · simp [separationDir, h1, h2, h1.le, not_le.mpr h1, axisUnit, Vec3.scale, signOf,
        Vec3.comp, h]
  · have hax : minPenAxis pen = 2 := by simp [minPenAxis, h3, h1.ne', h2.ne']
    rw [hax] at hnz ⊢
    simp only [Vec3.comp] at hnz
    rcases lt_or_gt_of_ne hnz with h | h
    · simp [separationDir, not_le.mpr h1, not_le.mpr h2, axisUnit, Vec3.scale, signOf,
        Vec3.comp, h, not_lt.mpr h.le]
    · simp [separationDir, not_le.mpr h1, not_le.mpr h2, axisUnit, Vec3.scale, signOf,
        Vec3.comp, h]

theorem minPenAxis_comp (pen : Vec3 K) :
    pen.comp (minPenAxis pen) = min (min pen.x pen.y) pen.z := by
  rcases min3_cases pen.x pen.y pen.z with ⟨h1, h2, h3⟩ | ⟨h1, h2, h3⟩ | ⟨h1, h2, h3⟩
  · simp [minPenAxis, h3, Vec3.comp]
  · simp [minPenAxis, h3, h1.ne', Vec3.comp]
  · simp [minPenAxis, h3, h1.ne', h2.ne', Vec3.comp]

end Basics

section InterBody

variable {K : Type} [LinearOrderedField K]

theorem axisUnit_comp_ne (sel ax : Fin 3) (c s : K) (h : ax ≠ sel) :
    (((axisUnit sel : Vec3 K).scale c).scale s).comp ax = 0 := by
  fin_cases ax <;> fin_cases sel <;> simp [Vec3.comp, Vec3.scale, axisUnit] at h ⊢

theorem collideWith_of_overlap (a o : Jelly K)
    (hov : aabbOverlap a.aabbMin a.aabbMax o.aabbMin o.aabbMax) :
    a.CollideWith o =
      (Jelly.updateAABB { a with particles := a.particles.map fun p =>
          { p with p := p.p.add (((separationDir (penetration a.aabbMin a.aabbMax o.aabbMin o.aabbMax)
            (centerDelta a.aabbMin a.aabbMax o.aabbMin o.aabbMax)).scale
            (1 / 2 * min (min (penetration a.aabbMin a.aabbMax o.aabbMin o.aabbMax).x
              (penetration a.aabbMin a.aabbMax o.aabbMin o.aabbMax).y)
              (penetration a.aabbMin a.aabbMax o.aabbMin o.aabbMax).z)).scale (1 / 2)) } },
       Jelly.updateAABB { o with particles := o.particles.map fun p =>
          { p with p := p.p.sub (((separationDir (penetration a.aabbMin a.aabbMax o.aabbMin o.aabbMax)
            (centerDelta a.aabbMin a.aabbMax o.aabbMin o.aabbMax)).scale
            (1 / 2 * min (min (penetration a.aabbMin a.aabbMax o.aabbMin o.aabbMax).x
              (penetration a.aabbMin a.aabbMax o.aabbMin o.aabbMax).y)
              (penetration a.aabbMin a.aabbMax o.aabbMin o.aabbMax).z)).scale (1 / 2)) } }) := by
  unfold Jelly.CollideWith
  simp only [hov, not_true_eq_false, if_false]

theorem push_eq_specPush (amin amax bmin bmax : Vec3 K)
    (hfar : 1 / 1000000000000 ≤ ((aabbCenter amin amax).sub (aabbCenter bmin bmax)).length2)
    (hnz : ((aabbCenter amin amax).sub (aabbCenter bmin bmax)).comp
      (minPenAxis (penetration amin amax bmin bmax)) ≠ 0) :
    ((separationDir (penetration amin amax bmin bmax) (centerDelta amin amax bmin bmax)).scale
        (1 / 2 * min (min (penetration amin amax bmin bmax).x (penetration amin amax bmin bmax).y)
          (penetration amin amax bmin bmax).z)).scale (1 / 2) = specPush amin amax bmin bmax := by
  have hc : centerDelta amin amax bmin bmax =
      (aabbCenter amin amax).sub (aabbCenter bmin bmax) := by
    unfold centerDelta aabbCenter at *
    simp only [if_neg (not_lt.mpr hfar)]
  rw [hc, separationDir_eq _ _ hnz]
  unfold specPush
  rw [Vec3.ext_iff3]
  simp only [Vec3.scale]
  refine ⟨by ring, by ring, by ring⟩

end InterBody

section Fill

variable {K : Type} [LinearOrderedField K] [FloorRing K] [Rounding K]

theorem cell_index_inj {S v u v' u' : Nat} (hu : u < S) (hu' : u' < S)
    (h : v * S + u = v' * S + u') : v = v' ∧ u = u' := by
  have key : ∀ a b x y : Nat, x < S → a < b → a * S + x < b * S + y := by
    intro a b x y hx hab
    have h1 : (a + 1) * S ≤ b * S := Nat.mul_le_mul_right S hab
    have h2 : (a + 1) * S = a * S + S := by ring
    omega
  rcases Nat.lt_trichotomy v v' with hlt | heq | hgt
  · exact absurd h (Nat.ne_of_lt (key v v' u u' hu hlt))
  · subst heq; exact ⟨rfl, by omega⟩
  · exact absurd h.symm (Nat.ne_of_lt (key v' v u' u hu' hgt))

theorem cell_index_lt {S v u : Nat} (hv : v < S) (hu : u < S) : v * S + u < S * S := by
  have h1 : (v + 1) * S ≤ S * S := Nat.mul_le_mul_right S hv
  have h2 : (v + 1) * S = v * S + S := by ring
  omega

theorem cellGet_cellSet_same (fpi : List (List Int)) (f i : Nat) (x : Int)
    (hf : f < fpi.length) (hi : i < (fpi.getD f []).length) :
    cellGet (cellSet fpi f i x) f i = x := by
  unfold cellGet cellSet
  simp [List.getD_eq_getElem?_getD, List.getElem?_set, hf] at hi ⊢
  simp [hi]

theorem cellGet_cellSet_ne (fpi : List (List Int)) (f i f' i' : Nat) (x : Int)
    (h : f ≠ f' ∨ i ≠ i') : cellGet (cellSet fpi f i x) f' i' = cellGet fpi f' i' := by
  unfold cellGet cellSet
  by_cases hff : f = f'
  · subst hff
    have hi : i ≠ i' := by
      rcases h with h | h
      · exact absurd rfl h
      · exact h
    by_cases hf : f < fpi.length
    · simp [List.getD_eq_getElem?_getD, List.getElem?_set, hf, hi]
    · have : fpi.set f ((fpi.getD f []).set i x) = fpi := by
        apply List.set_eq_of_length_le
        omega
      rw [this]
  · simp [List.getD_eq_getElem?_getD, List.getElem?_set, hff]

theorem cellSet_shape (fpi : List (List Int)) (f i : Nat) (x : Int) (n : Nat)
    (h : fpi.length = 6 ∧ ∀ l ∈ fpi, l.length = n) :
    (cellSet fpi f i x).length = 6 ∧ ∀ l ∈ cellSet fpi f i x, l.length = n := by
  unfold cellSet
  refine ⟨by simp [h.1], ?_⟩
  intro l hl
  by_cases hf : f < fpi.length
  · rcases List.mem_or_eq_of_mem_set hl with hl | hl
    · exact h.2 l hl
    · subst hl
      rw [List.length_set]
      have : fpi.getD f [] ∈ fpi := by
        rw [List.getD_eq_getElem?_getD, List.getElem?_eq_getElem hf]
        simp
      exact h.2 _ this
  · rw [List.set_eq_of_length_le (by omega)] at hl
    exact h.2 l hl

theorem cellRow_length (fpi : List (List Int)) (f n : Nat)
    (h : fpi.length = 6 ∧ ∀ l ∈ fpi, l.length = n) (hf : f < 6) :
    (fpi.getD f []).length = n := by
  have hlt : f < fpi.length := by omega
  have : fpi.getD f [] ∈ fpi := by
    rw [List.getD_eq_getElem?_getD, List.getElem?_eq_getElem hlt]
    simp
  exact h.2 _ this

theorem lookup_cons_eq (lut : List (IVec3 × Int)) (k k' : IVec3) (v : Int) :
    List.lookup k' ((k, v) :: lut) = if k' = k then some v else List.lookup k' lut := by
  rw [List.lookup_cons]
  by_cases h : k' = k
  · simp [h]
  · have hb : (k' == k) = false := by simpa using h
    rw [hb, if_neg h]

theorem fillCell_inv (pm : K) (faces : List (FaceDef K)) (S : Nat)
    (cs : List (Nat × Nat × Nat)) (st : FillState K) (c : Nat × Nat × Nat)
    (h : FillInv pm faces S cs st) (hc : c ∉ cs) (hv : CellValid S c)
    (hcs : ∀ d ∈ cs, CellValid S d) :
    FillInv pm faces S (cs ++ [c]) (fillCell pm faces S st c.1 c.2.1 c.2.2) := by
  obtain ⟨hf, hvS, huS⟩ := hv
  have hrow : (st.facePointIdx.getD c.1 []).length = S * S :=
    cellRow_length _ _ _ h.shape hf
  have hflen : c.1 < st.facePointIdx.length := by rw [h.shape.1]; exact hf
  have hidx : c.2.1 * S + c.2.2 < (st.facePointIdx.getD c.1 []).length := by
    rw [hrow]; exact cell_index_lt hvS huS
  have hother : ∀ d ∈ cs, ∀ x : Int,
      cellGet (cellSet st.facePointIdx c.1 (c.2.1 * S + c.2.2) x) d.1 (d.2.1 * S + d.2.2) =
        cellGet st.facePointIdx d.1 (d.2.1 * S + d.2.2) := by
    intro d hd x
    apply cellGet_cellSet_ne
    by_contra hcon
    push_neg at hcon
    obtain ⟨h1, h2⟩ := hcon
    obtain ⟨-, -, hdu⟩ := hcs d hd
    obtain ⟨h3, h4⟩ := cell_index_inj huS hdu h2
    apply hc
    have : c = d := by
      rcases c with ⟨c1, c2, c3⟩
      rcases d with ⟨d1, d2, d3⟩
      simp only at h1 h3 h4
      subst h1 h3 h4
      rfl
    rw [this]; exact hd
  have hkey : keyOf (cellPos (faceAt faces c.1) c.2.2 c.2.1) = cellKey faces c := rfl
  unfold fillCell
  simp only [hkey]
  rw [h.lut_eq (cellKey faces c)]
  by_cases hmem : cellKey faces c ∈ particleKeys st.particles
  · -- the key is in the table: the cell reuses the particle
    simp only [if_pos hmem]
    refine ⟨h.nodup, ?_, h.lut_eq, ?_, ?_, cellSet_shape _ _ _ _ _ h.shape⟩
    · intro k
      rw [h.mem_iff k]
      constructor
      · rintro ⟨d, hd, hk⟩
        exact ⟨d, List.mem_append_left _ hd, hk⟩
      · rintro ⟨d, hd, hk⟩
        rcases List.mem_append.mp hd with hd | hd
        · exact ⟨d, hd, hk⟩
        · simp only [List.mem_singleton] at hd
          subst hd
          rw [← hk]
          exact (h.mem_iff _).mp hmem
    · intro d hd
      rcases List.mem_append.mp hd with hd | hd
      · simp only
        rw [hother d hd]
        exact h.cell_eq d hd
      · simp only [List.mem_singleton] at hd
        subst hd
        simp only
        rw [cellGet_cellSet_same _ _ _ _ hflen hidx]
    · intro p hp
      obtain ⟨d, hd, hpd⟩ := h.fresh p hp
      exact ⟨d, List.mem_append_left _ hd, hpd⟩
  · -- a new key: a particle is appended
    simp only [if_neg hmem, addParticle]
    have hkeys : particleKeys (st.particles ++
        [({ p := cellPos (faceAt faces c.1) c.2.2 c.2.1,
            prev := cellPos (faceAt faces c.1) c.2.2 c.2.1, a := Vec3.splat 0,
            invMass := if pm > 0 then 1 / pm else 0 } : Particle K)]) =
        particleKeys st.particles ++ [cellKey faces c] := by
      simp [particleKeys, cellKey, cellPosOf]
    have hlen : (((st.particles ++
        [({ p := cellPos (faceAt faces c.1) c.2.2 c.2.1,
            prev := cellPos (faceAt faces c.1) c.2.2 c.2.1, a := Vec3.splat 0,
            invMass := if pm > 0 then 1 / pm else 0 } : Particle K)]).length : Int) - 1) =
        ((particleKeys st.particles).length : Int) := by
      simp [particleKeys]
    have hnew : (particleKeys st.particles ++ [cellKey faces c]).indexOf (cellKey faces c) =
        (particleKeys st.particles).length := by
      rw [List.indexOf_append_of_not_mem hmem]
      simp
    refine ⟨?_, ?_, ?_, ?_, ?_, cellSet_shape _ _ _ _ _ h.shape⟩
    · simp only [hkeys]
      rw [List.nodup_append]
      refine ⟨h.nodup, List.nodup_singleton _, ?_⟩
      intro a ha hb
      simp only [List.mem_singleton] at hb
      subst hb
      exact hmem ha
    · intro k
      simp only [hkeys, List.mem_append, List.mem_singleton]
      rw [h.mem_iff k]
      constructor
      · rintro (⟨d, hd, hk⟩ | hk)
        · exact ⟨d, Or.inl hd, hk⟩
        · exact ⟨c, Or.inr rfl, hk.symm⟩
      · rintro ⟨d, hd | hd, hk⟩
        · exact Or.inl ⟨d, hd, hk⟩
        · subst hd; exact Or.inr hk.symm
    · intro k
      simp only [hkeys, hlen]
      rw [lookup_cons_eq]
      by_cases hk : k = cellKey faces c
      · subst hk
        simp [hnew]
      · rw [if_neg hk, h.lut_eq k]
        by_cases hkm : k ∈ particleKeys st.particles
        · simp [hkm, List.indexOf_append_of_mem hkm]
        · simp [hkm, hk]
    · intro d hd
      simp only [hkeys, hlen]
      rcases List.mem_append.mp hd with hd | hd
      · rw [hother d hd, h.cell_eq d hd]
        have : cellKey faces d ∈ particleKeys st.particles := (h.mem_iff _).mpr ⟨d, hd, rfl⟩
        rw [List.indexOf_append_of_mem this]
      · simp only [List.mem_singleton] at hd
        subst hd
        rw [cellGet_cellSet_same _ _ _ _ hflen hidx, hnew]
    · intro p hp
      rcases List.mem_append.mp hp with hp | hp
      · obtain ⟨d, hd, hpd⟩ := h.fresh p hp
        exact ⟨d, List.mem_append_left _ hd, hpd⟩
      · simp only [List.mem_singleton] at hp
        exact ⟨c, by simp, by rw [hp]; rfl⟩

theorem foldl_flatMap {α β σ : Type} (l : List α) (f : α → List β) (g : σ → β → σ) (init : σ) :
    (l.flatMap f).foldl g init = l.foldl (fun acc a => (f a).foldl g acc) init := by
  induction l generalizing init with
  | nil => rfl
  | cons a l ih => simp [List.flatMap_cons, List.foldl_append, ih]

theorem fillGrid_eq_foldl (pm : K) (faces : List (FaceDef K)) (S : Nat) (st : FillState K) :
    fillGrid pm faces S st =
      (gridCells S).foldl (fun st c => fillCell pm faces S st c.1 c.2.1 c.2.2) st := by
  unfold fillGrid gridCells
  rw [foldl_flatMap]
  congr 1
  funext st f
  rw [foldl_flatMap]
  congr 1
  funext st v
  rw [List.foldl_map]

theorem mem_gridCells (S : Nat) (c : Nat × Nat × Nat) : c ∈ gridCells S ↔ CellValid S c := by
  rcases c with ⟨f, v, u⟩
  simp only [gridCells, CellValid, List.mem_flatMap, List.mem_range, List.mem_map,
    Prod.mk.injEq]
  constructor
  · rintro ⟨f', hf, v', hv, u', hu, h1, h2, h3⟩
    subst h1 h2 h3
    exact ⟨hf, hv, hu⟩
  · rintro ⟨hf, hv, hu⟩
    exact ⟨f, hf, v, hv, u, hu, rfl, rfl, rfl⟩

theorem nodup_gridCells (S : Nat) : (gridCells S).Nodup := by
  unfold gridCells
  rw [List.nodup_flatMap]
  refine ⟨?_, ?_⟩
  · intro f _
    rw [List.nodup_flatMap]
    refine ⟨?_, ?_⟩
    · intro v _
      refine List.Nodup.map ?_ (List.nodup_range S)
      intro a b hab
      simpa using hab
    · refine List.Pairwise.imp_of_mem ?_ (List.nodup_range S)
      intro a b _ _ hab
      simp only [Function.onFun, List.Disjoint, List.mem_map, List.mem_range]
      rintro x ⟨u, _, rfl⟩ ⟨u', _, h⟩
      simp only [Prod.mk.injEq] at h
      exact hab h.2.1.symm
  · refine List.Pairwise.imp_of_mem ?_ (List.nodup_range 6)
    intro a b _ _ hab
    simp only [Function.onFun, List.Disjoint, List.mem_flatMap, List.mem_map, List.mem_range]
    rintro x ⟨v, _, u, _, rfl⟩ ⟨v', _, u', _, h⟩
    simp only [Prod.mk.injEq] at h
    exact hab h.1.symm

theorem fillCells_inv (pm : K) (faces : List (FaceDef K)) (S : Nat)
    (rest done : List (Nat × Nat × Nat)) (st : FillState K)
    (h : FillInv pm faces S done st) (hnd : (done ++ rest).Nodup)
    (hv : ∀ d ∈ done ++ rest, CellValid S d) :
    FillInv pm faces S (done ++ rest)
      (rest.foldl (fun st c => fillCell pm faces S st c.1 c.2.1 c.2.2) st) := by
  induction rest generalizing done st with
  | nil => simpa using h
  | cons c rest ih =>
    have hsplit : done ++ c :: rest = (done ++ [c]) ++ rest := by simp
    rw [hsplit] at hnd hv ⊢
    simp only [List.foldl_cons]
    apply ih (done ++ [c]) _ _ hnd hv
    apply fillCell_inv pm faces S done st c h
    · have := (List.nodup_append.mp (List.nodup_append.mp hnd).1).2.2
      intro hc
      exact this hc (by simp)
    · exact hv c (by simp)
    · intro d hd
      exact hv d (by simp [hd])

theorem fillInit_inv (pm : K) (faces : List (FaceDef K)) (S : Nat) :
    FillInv pm faces S []
      (⟨[], [], List.replicate 6 (List.replicate (S * S) (-1))⟩ : FillState K) := by
  refine ⟨by simp [particleKeys], by simp [particleKeys], by simp [particleKeys],
    by simp, by simp, ?_⟩
  refine ⟨by simp, ?_⟩
  intro l hl
  rw [List.eq_of_mem_replicate hl]
  simp

/-- The fill loop of `GenerateCubeMesh` establishes the fill invariant for all grid cells. -/
theorem fillGrid_inv (pm : K) (faces : List (FaceDef K)) (S : Nat) :
    FillInv pm faces S (gridCells S)
      (fillGrid pm faces S ⟨[], [], List.replicate 6 (List.replicate (S * S) (-1))⟩) := by
  rw [fillGrid_eq_foldl]
  have := fillCells_inv pm faces S (gridCells S) [] _ (fillInit_inv pm faces S)
    (by simpa using nodup_gridCells S) (by
      intro d hd
      exact (mem_gridCells S d).mp (by simpa using hd))
  simpa using this

end Fill

section Springs

variable {K : Type} [LinearOrderedField K] [FloorRing K] [Rounding K]

theorem foldl_range_inv {σ : Type} (P : σ → Prop) (n : Nat) (g : σ → Nat → σ) (init : σ)
    (h0 : P init) (hstep : ∀ acc x, x < n → P acc → P (g acc x)) :
    P ((List.range n).foldl g init) := by
  have : ∀ l : List Nat, (∀ x ∈ l, x < n) → ∀ acc, P acc → P (l.foldl g acc) := by
    intro l
    induction l with
    | nil => intro _ acc h; exact h
    | cons a l ih =>
      intro hl acc h
      simp only [List.foldl_cons]
      exact ih (fun x hx => hl x (by simp [hx])) _ (hstep acc a (hl a (by simp)) h)
  exact this _ (fun x hx => List.mem_range.mp hx) init h0

theorem FillInv.cell_valid {pm : K} {faces : List (FaceDef K)} {S : Nat}
    {st : FillState K} (h : FillInv pm faces S (gridCells S) st) {f v u : Nat}
    (hf : f < 6) (hv : v < S) (hu : u < S) :
    0 ≤ cellGet st.facePointIdx f (v * S + u) ∧
      cellGet st.facePointIdx f (v * S + u) < (st.particles.length : Int) := by
  have hc : (f, v, u) ∈ gridCells S := (mem_gridCells S _).mpr ⟨hf, hv, hu⟩
  have h1 := h.cell_eq (f, v, u) hc
  simp only at h1
  rw [h1]
  have hmem : cellKey faces (f, v, u) ∈ particleKeys st.particles :=
    (h.mem_iff _).mpr ⟨_, hc, rfl⟩
  have hlt := List.indexOf_lt_length.mpr hmem
  have hlen : (particleKeys st.particles).length = st.particles.length := by
    simp [particleKeys]
  constructor
  · exact Int.natCast_nonneg _
  · rw [← hlen]; exact_mod_cast hlt

theorem addSpring_built (m : MathFns K) (ps : List (Particle K)) (springs : List (Spring K))
    (a b : Int) (k : K) (h : ∀ s ∈ springs, SpringBuilt m ps s)
    (ha : 0 ≤ a ∧ a < ps.length) (hb : 0 ≤ b ∧ b < ps.length) :
    ∀ s ∈ addSpring m ps springs a b k, SpringBuilt m ps s := by
  unfold addSpring
  split_ifs with hab
  · exact h
  · intro s hs
    rcases List.mem_append.mp hs with hs | hs
    · exact h s hs
    · simp only [List.mem_singleton] at hs
      subst hs
      exact ⟨hab, ha, hb, rfl⟩

theorem cond_addSpring_built (m : MathFns K) (ps : List (Particle K)) (c : Prop) [Decidable c]
    (springs : List (Spring K)) (a b : Int) (k : K) (h : ∀ s ∈ springs, SpringBuilt m ps s)
    (ha : 0 ≤ a ∧ a < ps.length) (hb : c → (0 ≤ b ∧ b < ps.length)) :
    ∀ s ∈ (if c then addSpring m ps springs a b k else springs), SpringBuilt m ps s := by
  split_ifs with hc
  · exact addSpring_built m ps springs a b k h ha (hb hc)
  · exact h

theorem faceSpringsCell_built (m : MathFns K) (pm : K) (faces : List (FaceDef K)) (S : Nat)
    (st : FillState K) (hinv : FillInv pm faces S (gridCells S) st) (k : K)
    (springs : List (Spring K)) (f v u : Nat) (hf : f < 6) (hv : v < S) (hu : u < S)
    (h : ∀ s ∈ springs, SpringBuilt m st.particles s) :
    ∀ s ∈ faceSpringsCell m st.particles st.facePointIdx S k springs f v u,
      SpringBuilt m st.particles s := by
  unfold faceSpringsCell
  dsimp only
  have hi := hinv.cell_valid hf hv hu
  refine cond_addSpring_built m _ _ _ _ _ _ ?_ hi
    (fun hc => hinv.cell_valid hf hc.2 (by omega))
  refine cond_addSpring_built m _ _ _ _ _ _ ?_ hi
    (fun hc => hinv.cell_valid hf hc.2 hc.1)
  refine cond_addSpring_built m _ _ _ _ _ _ ?_ hi
    (fun hc => hinv.cell_valid hf hc hu)
  exact cond_addSpring_built m _ _ _ _ _ _ h hi (fun hc => hinv.cell_valid hf hv hc)

theorem faceSprings_built (m : MathFns K) (pm : K) (faces : List (FaceDef K)) (S : Nat)
    (st : FillState K) (hinv : FillInv pm faces S (gridCells S) st) (k : K)
    (springs : List (Spring K)) (h : ∀ s ∈ springs, SpringBuilt m st.particles s) :
    ∀ s ∈ faceSprings m st.particles st.facePointIdx S k springs,
      SpringBuilt m st.particles s := by
  unfold faceSprings
  refine foldl_range_inv (fun sp => ∀ s ∈ sp, SpringBuilt m st.particles s) 6 _ _ h ?_
  intro acc f hf hacc
  refine foldl_range_inv (fun sp => ∀ s ∈ sp, SpringBuilt m st.particles s) S _ _ hacc ?_
  intro acc v hv hacc
  refine foldl_range_inv (fun sp => ∀ s ∈ sp, SpringBuilt m st.particles s) S _ _ hacc ?_
  intro acc u hu hacc
  exact faceSpringsCell_built m pm faces S st hinv k acc f v u hf hv hu hacc

theorem addPairSprings_built (m : MathFns K) (pm : K) (faces : List (FaceDef K)) (S : Nat)
    (st : FillState K) (hinv : FillInv pm faces S (gridCells S) st) (fA fB : Nat)
    (hA : fA < 6) (hB : fB < 6) (mirrorU mirrorV : Bool) (k : K)
    (springs : List (Spring K)) (h : ∀ s ∈ springs, SpringBuilt m st.particles s) :
    ∀ s ∈ addPairSprings m st.particles st.facePointIdx S fA fB mirrorU mirrorV k springs,
      SpringBuilt m st.particles s := by
  unfold addPairSprings
  refine foldl_range_inv (fun sp => ∀ s ∈ sp, SpringBuilt m st.particles s) S _ _ h ?_
  intro acc v hv hacc
  refine foldl_range_inv (fun sp => ∀ s ∈ sp, SpringBuilt m st.particles s) S _ _ hacc ?_
  intro acc u hu hacc
  unfold pairSpringsCell
  dsimp only
  have hub : (if mirrorU = true then S - 1 - u else u) < S := by split_ifs <;> omega
  have hvb : (if mirrorV = true then S - 1 - v else v) < S := by split_ifs <;> omega
  generalize (if mirrorU = true then S - 1 - u else u) = ub at hub ⊢
  generalize (if mirrorV = true then S - 1 - v else v) = vb at hvb ⊢
  split_ifs with hab
  · exact hacc
  · intro s hs
    rcases List.mem_append.mp hs with hs | hs
    · exact hacc s hs
    · simp only [List.mem_singleton] at hs
      subst hs
      exact ⟨hab, hinv.cell_valid hA hv hu, hinv.cell_valid hB hvb hub, rfl⟩

/-- The springs of a generated mesh join two distinct particles of the mesh and rest at
their distance. -/
theorem generateCubeMesh_springs_built (m : MathFns K) (b : Jelly K) :
    ∀ s ∈ (b.GenerateCubeMesh m).springs, SpringBuilt m (b.GenerateCubeMesh m).particles s := by
  have hinv := fillGrid_inv b.pointMass (cubeFaces b.center b.radius (subdivisions b.springsPerEdge))
    (subdivisions b.springsPerEdge)
  unfold Jelly.GenerateCubeMesh Jelly.updateAABB
  dsimp only
  refine addPairSprings_built m _ _ _ _ hinv 4 5 (by omega) (by omega) _ _ _ _ ?_
  refine addPairSprings_built m _ _ _ _ hinv 2 3 (by omega) (by omega) _ _ _ _ ?_
  refine addPairSprings_built m _ _ _ _ hinv 0 1 (by omega) (by omega) _ _ _ _ ?_
  refine faceSprings_built m _ _ _ _ hinv _ _ ?_
  intro s hs
  simp at hs

end Springs

section Frame

variable {K : Type} [LinearOrderedField K]

theorem relaxSpring_length (m : MathFns K) (kIter : K) (ps : List (Particle K)) (s : Spring K) :
    (relaxSpring m kIter ps s).length = ps.length := by
  unfold relaxSpring
  dsimp only
  split_ifs <;> simp [pset_length]

theorem foldl_relaxSpring_length (m : MathFns K) (kIter : K) (springs : List (Spring K))
    (ps : List (Particle K)) : (springs.foldl (relaxSpring m kIter) ps).length = ps.length := by
  induction springs generalizing ps with
  | nil => rfl
  | cons s ss ih => simp only [List.foldl_cons]; rw [ih, relaxSpring_length]

theorem forN_inv {σ : Type} (P : σ → Prop) (n : Nat) (body : σ → σ) (s : σ) (h0 : P s)
    (hstep : ∀ x, P x → P (body x)) : P (forN n body s) := by
  induction n generalizing s with
  | zero => exact h0
  | succ n ih => exact ih _ (hstep s h0)

theorem satisfyConstraints_frame (m : MathFns K) (n : Nat) (b : Jelly K) :
    (b.satisfyConstraints m n).springs = b.springs ∧
      (b.satisfyConstraints m n).particles.length = b.particles.length := by
  unfold Jelly.satisfyConstraints
  refine ⟨rfl, ?_⟩
  dsimp only
  exact forN_inv (fun ps : List (Particle K) => ps.length = b.particles.length) n _ _ rfl
    (fun x hx => by
      show (List.foldl (relaxSpring m (k_iter m n)) x b.springs).length = b.particles.length
      rw [foldl_relaxSpring_length]; exact hx)

theorem update_frame (m : MathFns K) (dt : K) (box : Container K) (b : Jelly K) :
    (b.Update m dt box).springs = b.springs ∧
      (b.Update m dt box).particles.length = b.particles.length := by
  unfold Jelly.Update
  dsimp only
  have h3 : ∀ c : Jelly K, (c.springs = b.springs ∧ c.particles.length = b.particles.length) →
      (((c.collideWithContainer box).satisfyConstraints m 1).springs = b.springs ∧
        ((c.collideWithContainer box).satisfyConstraints m 1).particles.length =
          b.particles.length) := by
    intro c hc
    have := satisfyConstraints_frame m 1 (c.collideWithContainer box)
    rw [this.1, this.2]
    simpa [Jelly.collideWithContainer] using hc
  have := forN_inv (fun c : Jelly K => c.springs = b.springs ∧
      c.particles.length = b.particles.length) 4
    (fun c => (c.collideWithContainer box).satisfyConstraints m 1)
    (Jelly.integrate dt (Jelly.applyGravity
      { b with particles := b.particles.map fun p => { p with a := p.a.add b.acceleration } }))
    (by simp [Jelly.integrate, Jelly.applyGravity]) h3
  simpa [Jelly.updateAABB] using this

theorem collideWith_frame (a o : Jelly K) :
    ((a.CollideWith o).1.springs = a.springs ∧
      (a.CollideWith o).1.particles.length = a.particles.length) ∧
    ((a.CollideWith o).2.springs = o.springs ∧
      (a.CollideWith o).2.particles.length = o.particles.length) := by
  unfold Jelly.CollideWith
  dsimp only
  split_ifs <;> simp [Jelly.updateAABB]

theorem step_frame (m : MathFns K) (b : Jelly K) (op : Op K) :
    (b.step m op).springs = b.springs ∧
      (b.step m op).particles.length = b.particles.length := by
  cases op with
  | update dt box => exact update_frame m dt box b
  | collideWith other => exact (collideWith_frame b other).1
  | collidedBy caller => exact (collideWith_frame caller b).2
  | idleWobble t => simp [Jelly.step, Jelly.apply_idle_wobble]
  | punch => simp [Jelly.step, Jelly.apply_punch]
  | groundCollision => simp [Jelly.step, Jelly.resolve_ground_collision]

theorem run_frame (m : MathFns K) (b : Jelly K) (ops : List (Op K)) :
    (b.run m ops).springs = b.springs ∧
      (b.run m ops).particles.length = b.particles.length := by
  unfold Jelly.run
  induction ops generalizing b with
  | nil => exact ⟨rfl, rfl⟩
  | cons op ops ih =>
    simp only [List.foldl_cons]
    have h1 := ih (b.step m op)
    have h2 := step_frame m b op
    exact ⟨h1.1.trans h2.1, h1.2.trans h2.2⟩

end Frame

section Springs

variable {K : Type} [LinearOrderedField K] [FloorRing K] [Rounding K]

/-- C3 (rest-length invariance).  In every state reached from the constructor by a sequence
of `Update`, `CollideWith` (as either of the two bodies), `apply_idle_wobble`, `apply_punch`
and `resolve_ground_collision`, the spring vector is the one built by the constructor and the
number of particles is unchanged; each spring joins two distinct valid particle indices and
its rest length is the Euclidean distance (`glm::length`) between the construction-time
positions of its two endpoints. -/
theorem rest_length_invariance (m : MathFns K) (center : Vec3 K) (radius : K)
    (velocity acceleration : Vec3 K) (pointMass springStrength : K) (springsPerEdge : Int)
    (ops : List (Op K)) :
    ((Jelly.new m center radius velocity acceleration pointMass springStrength
        springsPerEdge).run m ops).springs =
      (Jelly.new m center radius velocity acceleration pointMass springStrength
        springsPerEdge).springs ∧
    ((Jelly.new m center radius velocity acceleration pointMass springStrength
        springsPerEdge).run m ops).particles.length =
      (Jelly.new m center radius velocity acceleration pointMass springStrength
        springsPerEdge).particles.length ∧
    ∀ s ∈ ((Jelly.new m center radius velocity acceleration pointMass springStrength
        springsPerEdge).run m ops).springs,
      s.i ≠ s.j ∧
      (0 ≤ s.i ∧ s.i < ((Jelly.new m center radius velocity acceleration pointMass
        springStrength springsPerEdge).particles.length : Int)) ∧
      (0 ≤ s.j ∧ s.j < ((Jelly.new m center radius velocity acceleration pointMass
        springStrength springsPerEdge).particles.length : Int)) ∧
      s.rest = Vec3.length m
        ((pget (Jelly.new m center radius velocity acceleration pointMass springStrength
          springsPerEdge).particles s.i).p.sub
         (pget (Jelly.new m center radius velocity acceleration pointMass springStrength
          springsPerEdge).particles s.j).p) := by
  have hrun := run_frame m (Jelly.new m center radius velocity acceleration pointMass
    springStrength springsPerEdge) ops
  refine ⟨hrun.1, hrun.2, ?_⟩
  rw [hrun.1]
  intro s hs
  exact generateCubeMesh_springs_built m _ s hs

end Springs

section Welding

variable {K : Type} [LinearOrderedField K] [FloorRing K] [Rounding K]

theorem cround_lt_of_add_one_le (x y : K) (h : x + 1 ≤ y) : cround x < cround y := by
  unfold cround
  by_cases hx : 0 ≤ x
  · have hy : 0 ≤ y := by linarith
    rw [if_pos hx, if_pos hy]
    have h1 : ⌊x + 1 / 2⌋ + 1 ≤ ⌊y + 1 / 2⌋ := by
      rw [Int.le_floor]
      push_cast
      have := Int.floor_le (x + 1 / 2)
      linarith
    omega
  · push_neg at hx
    by_cases hy : 0 ≤ y
    · rw [if_neg (not_le.mpr hx), if_pos hy]
      have h0 : 0 ≤ ⌊-x + 1 / 2⌋ := Int.floor_nonneg.mpr (by linarith)
      have h1 : 0 ≤ ⌊y + 1 / 2⌋ := Int.floor_nonneg.mpr (by linarith)
      by_cases hz : ⌊-x + 1 / 2⌋ = 0
      · have h2 : -x + 1 / 2 < 1 := by
          have := Int.lt_floor_add_one (-x + 1 / 2)
          rw [hz] at this
          simpa using this
        have h3 : (1 : Int) ≤ ⌊y + 1 / 2⌋ := by
          rw [Int.le_floor]
          push_cast
          linarith
        omega
      · omega
    · push_neg at hy
      rw [if_neg (not_le.mpr hx), if_neg (not_le.mpr hy)]
      have h1 : ⌊-y + 1 / 2⌋ + 1 ≤ ⌊-x + 1 / 2⌋ := by
        rw [Int.le_floor]
        push_cast
        have := Int.floor_le (-y + 1 / 2)
        linarith
      omega

theorem subdivisions_ge_two (springsPerEdge : Int) : 2 ≤ subdivisions springsPerEdge := by
  unfold subdivisions
  omega

theorem cellPosOf_eq_latticePos (hex : ∀ x : K, Rounding.rnd x = x) (center : Vec3 K)
    (radius : K) (S : Nat) (hS : 2 ≤ S) (c : Nat × Nat × Nat) (hc : CellValid S c) :
    cellPosOf (cubeFaces center radius S) c = latticePos center radius S (cellLattice S c) := by
  rcases c with ⟨f, v, u⟩
  obtain ⟨hf, hv, hu⟩ := hc
  simp only at hf hv hu
  have hn : (((S : Int) - 1 : Int) : K) ≠ 0 := by
    have : (1 : Int) ≤ (S : Int) - 1 := by omega
    have h2 : (0 : K) < (((S : Int) - 1 : Int) : K) := by exact_mod_cast this
    exact ne_of_gt h2
  have hS1 : ((S - 1 : Nat) : K) = (((S : Int) - 1 : Int) : K) := by
    push_cast [Nat.cast_sub (by omega : 1 ≤ S)]; ring
  have hSu : ((S - 1 - u : Nat) : K) = (((S : Int) - 1 : Int) : K) - (u : K) := by
    rw [Nat.cast_sub (by omega : u ≤ S - 1), hS1]
  have hSv : ((S - 1 - v : Nat) : K) = (((S : Int) - 1 : Int) : K) - (v : K) := by
    rw [Nat.cast_sub (by omega : v ≤ S - 1), hS1]
  interval_cases f
  all_goals
    simp only [cellPosOf, cubeFaces, faceAt, cellPos, Vec3.radd, Vec3.rscale, hex, latticePos,
      cellLattice, List.getD_cons_zero, List.getD_cons_succ, hS1, hSu, hSv, Nat.cast_zero,
      neg_div]
    generalize (((S : Int) - 1 : Int) : K) = n at hn ⊢
    have he : radius / n * n = radius := div_mul_cancel₀ _ hn
    generalize radius / n = e at he ⊢
    rw [Vec3.ext_iff3]
    simp only
    refine ⟨?_, ?_, ?_⟩ <;>
      first
        | ring1
        | linear_combination he
        | linear_combination -he

theorem coordKey_strictMono (a e : K) (he : 1 / 10000 ≤ e) :
    StrictMono (fun i : Nat => cround ((a + e * (i : K)) / (1 / 10000))) := by
  apply strictMono_nat_of_lt_succ
  intro i
  apply cround_lt_of_add_one_le
  have : (a + e * ((i + 1 : Nat) : K)) / (1 / 10000) =
      (a + e * (i : K)) / (1 / 10000) + e * 10000 := by
    push_cast
    field_simp
    ring
  rw [this]
  have h1 : (1 : K) ≤ e * 10000 := by linarith
  linarith

theorem rawKeyOf_latticePos_injective (hex : ∀ x : K, Rounding.rnd x = x) (center : Vec3 K)
    (radius : K) (S : Nat) (he : 1 / 10000 ≤ radius / (((S : Int) - 1 : Int) : K)) :
    Function.Injective (fun t : Nat × Nat × Nat => rawKeyOf (latticePos center radius S t)) := by
  rintro ⟨i, j, k⟩ ⟨i', j', k'⟩ h
  simp only [rawKeyOf, roundedQuotient, hex, latticePos, IVec3.mk.injEq] at h
  obtain ⟨h1, h2, h3⟩ := h
  have e1 := (coordKey_strictMono (center.x - radius * (1 / 2)) _ he).injective h1
  have e2 := (coordKey_strictMono (center.y - radius * (1 / 2)) _ he).injective h2
  have e3 := (coordKey_strictMono (center.z - radius * (1 / 2)) _ he).injective h3
  rw [e1, e2, e3]

/-- In exact arithmetic (no operation rounded) a grid spacing of at least 1e-4 makes every
cell position the position of its lattice point and makes the keys separate the cells as the
lattice does. -/
theorem exact_arithmetic_separates (hex : ∀ x : K, Rounding.rnd x = x) (center : Vec3 K)
    (radius : K) (S : Nat) (hS : 2 ≤ S)
    (he : 1 / 10000 ≤ radius / (((S : Int) - 1 : Int) : K)) :
    PositionsExact center radius S ∧ KeysSeparate center radius S := by
  have hpos : PositionsExact center radius S := fun c hc =>
    cellPosOf_eq_latticePos hex center radius S hS c ((mem_gridCells S c).mp hc)
  refine ⟨hpos, ?_⟩
  intro c hc d hd
  rw [hpos c hc, hpos d hd]
  constructor
  · intro h
    exact rawKeyOf_latticePos_injective hex center radius S he h
  · intro h
    rw [h]

theorem cellLattice_image (S : Nat) (hS : 2 ≤ S) :
    ((gridCells S).map (cellLattice S)).toFinset = surfacePoints S := by
  ext ⟨i, j, k⟩
  simp only [List.mem_toFinset, List.mem_map, mem_gridCells, surfacePoints, Finset.mem_filter,
    Finset.mem_product, Finset.mem_range]
  constructor
  · rintro ⟨⟨f, v, u⟩, ⟨hf, hv, hu⟩, h⟩
    simp only at hf hv hu
    interval_cases f <;> simp only [cellLattice, Prod.mk.injEq] at h <;>
      obtain ⟨h1, h2, h3⟩ := h <;> subst h1 h2 h3 <;> refine ⟨⟨?_, ?_, ?_⟩, ?_⟩ <;> omega
  · rintro ⟨⟨hi, hj, hk⟩, hsurf⟩
    by_cases c0 : k = S - 1
    · exact ⟨(0, j, i), ⟨by simp, hj, hi⟩, by simp [cellLattice, c0]⟩
    by_cases c1 : k = 0
    · refine ⟨(1, j, S - 1 - i), ⟨by simp, hj, by simp only; omega⟩, ?_⟩
      simp only [cellLattice, Prod.mk.injEq]
      refine ⟨?_, ?_, ?_⟩ <;> first | trivial | omega
    by_cases c2 : i = S - 1
    · exact ⟨(2, j, k), ⟨by simp, hj, hk⟩, by simp [cellLattice, c2]⟩
    by_cases c3 : i = 0
    · refine ⟨(3, j, S - 1 - k), ⟨by simp, hj, by simp only; omega⟩, ?_⟩
      simp only [cellLattice, Prod.mk.injEq]
      refine ⟨?_, ?_, ?_⟩ <;> first | trivial | omega
    by_cases c4 : j = S - 1
    · exact ⟨(4, k, i), ⟨by simp, hk, hi⟩, by simp [cellLattice, c4]⟩
    · have c5 : j = 0 := by omega
      refine ⟨(5, S - 1 - k, i), ⟨by simp, by simp only; omega, hi⟩, ?_⟩
      simp only [cellLattice, Prod.mk.injEq]
      refine ⟨?_, ?_, ?_⟩ <;> first | trivial | omega

theorem surfacePoints_card (S : Nat) (hS : 2 ≤ S) :
    (surfacePoints S).card = 6 * S ^ 2 - 12 * S + 8 := by
  have hbox : ((Finset.range S) ×ˢ ((Finset.range S) ×ˢ (Finset.range S))).card = S * (S * S) := by
    simp [Finset.card_product]
  have hint : (((Finset.range S) ×ˢ ((Finset.range S) ×ˢ (Finset.range S))).filter fun t =>
      ((1 ≤ t.1 ∧ t.1 < S - 1) ∧ (1 ≤ t.2.1 ∧ t.2.1 < S - 1) ∧ (1 ≤ t.2.2 ∧ t.2.2 < S - 1))) =
      (Finset.Ico 1 (S - 1)) ×ˢ ((Finset.Ico 1 (S - 1)) ×ˢ (Finset.Ico 1 (S - 1))) := by
    ext ⟨i, j, k⟩
    simp only [Finset.mem_filter, Finset.mem_product, Finset.mem_range, Finset.mem_Ico]
    constructor
    · rintro ⟨-, h⟩; exact h
    · rintro h; refine ⟨⟨?_, ?_, ?_⟩, h⟩ <;> omega
  have hsum := Finset.filter_card_add_filter_neg_card_eq_card
    (s := (Finset.range S) ×ˢ ((Finset.range S) ×ˢ (Finset.range S)))
    (fun t : Nat × Nat × Nat =>
      ((1 ≤ t.1 ∧ t.1 < S - 1) ∧ (1 ≤ t.2.1 ∧ t.2.1 < S - 1) ∧ (1 ≤ t.2.2 ∧ t.2.2 < S - 1)))
  rw [hint, hbox] at hsum
  simp only [Finset.card_product, Nat.card_Ico] at hsum
  unfold surfacePoints
  obtain ⟨t, rfl⟩ : ∃ t, S = t + 2 := ⟨S - 2, by omega⟩
  have e1 : t + 2 - 1 - 1 = t := by omega
  rw [e1] at hsum
  have e2 : 6 * (t + 2) ^ 2 = 12 * (t + 2) + (6 * t ^ 2 + 12 * t) := by ring
  rw [e2, Nat.add_sub_cancel_left]
  have e3 : (t + 2) * ((t + 2) * (t + 2)) = t * (t * t) + (6 * t ^ 2 + 12 * t + 8) := by ring
  rw [e3] at hsum
  omega

theorem toInt32_of_inRange (i : Int) (h : InInt32 i) : toInt32 i = i := by
  unfold toInt32
  exact if_pos h

/-- With all conversions in range, the key of a cell is its triple of rounded quotients, so
the keys of the cells separate as the rounded quotients do. -/
theorem cellKey_separates {center : Vec3 K} {radius : K} {S : Nat}
    (hrange : KeysInRange center radius S) (hsep : KeysSeparate center radius S) :
    ∀ c ∈ gridCells S, ∀ d ∈ gridCells S,
      (cellKey (cubeFaces center radius S) c = cellKey (cubeFaces center radius S) d ↔
        cellLattice S c = cellLattice S d) := by
  have hraw : ∀ c ∈ gridCells S, cellKey (cubeFaces center radius S) c =
      rawKeyOf (cellPosOf (cubeFaces center radius S) c) := by
    intro c hc
    obtain ⟨hx, hy, hz⟩ := hrange c hc
    unfold cellKey keyOf
    unfold rawKeyOf at hx hy hz ⊢
    simp only at hx hy hz
    rw [toInt32_of_inRange _ hx, toInt32_of_inRange _ hy, toInt32_of_inRange _ hz]
  intro c hc d hd
  rw [hraw c hc, hraw d hd]
  exact hsep c hc d hd

theorem card_image_eq_of_iff {α β γ : Type} [DecidableEq β] [DecidableEq γ] (A : Finset α)
    (f : α → β) (g : α → γ) (h : ∀ a ∈ A, ∀ b ∈ A, (f a = f b ↔ g a = g b)) :
    (A.image f).card = (A.image g).card := by
  have e1 : (A.image f).card = (A.image fun a => (f a, g a)).card := by
    have hf : (A.image fun a => (f a, g a)).image Prod.fst = A.image f := by
      rw [Finset.image_image]; rfl
    rw [← hf]
    apply Finset.card_image_of_injOn
    intro x hx y hy hxy
    obtain ⟨a, ha, rfl⟩ := Finset.mem_image.mp (Finset.mem_coe.mp hx)
    obtain ⟨b, hb, rfl⟩ := Finset.mem_image.mp (Finset.mem_coe.mp hy)
    simp only at hxy
    rw [Prod.mk.injEq]
    exact ⟨hxy, (h a ha b hb).mp hxy⟩
  have e2 : (A.image g).card = (A.image fun a => (f a, g a)).card := by
    have hg : (A.image fun a => (f a, g a)).image Prod.snd = A.image g := by
      rw [Finset.image_image]; rfl
    rw [← hg]
    apply Finset.card_image_of_injOn
    intro x hx y hy hxy
    obtain ⟨a, ha, rfl⟩ := Finset.mem_image.mp (Finset.mem_coe.mp hx)
    obtain ⟨b, hb, rfl⟩ := Finset.mem_image.mp (Finset.mem_coe.mp hy)
    simp only at hxy
    rw [Prod.mk.injEq]
    exact ⟨(h a ha b hb).mpr hxy, hxy⟩
  exact e1.trans e2.symm

/-- When the keys separate the cells as the lattice does, the fill loop creates one particle
per surface lattice point. -/
theorem welded_particle_count {faces : List (FaceDef K)} {S : Nat} (hS : 2 ≤ S)
    (hsep : ∀ c ∈ gridCells S, ∀ d ∈ gridCells S,
      (cellKey faces c = cellKey faces d ↔ cellLattice S c = cellLattice S d))
    (pm : K) (st : FillState K) (hinv : FillInv pm faces S (gridCells S) st) :
    st.particles.length = 6 * S ^ 2 - 12 * S + 8 := by
  have h1 : st.particles.length = (particleKeys st.particles).toFinset.card := by
    rw [List.toFinset_card_of_nodup hinv.nodup]
    simp [particleKeys]
  have h2 : (particleKeys st.particles).toFinset = (gridCells S).toFinset.image (cellKey faces) := by
    ext k
    simp only [List.mem_toFinset, Finset.mem_image]
    rw [hinv.mem_iff k]
  have h3 : (gridCells S).toFinset.image (cellLattice S) = surfacePoints S := by
    rw [← cellLattice_image S hS]
    ext t
    simp only [Finset.mem_image, List.mem_toFinset, List.mem_map]
  rw [h1, h2, card_image_eq_of_iff _ _ (cellLattice S)
    (fun a ha b hb => hsep a (List.mem_toFinset.mp ha) b (List.mem_toFinset.mp hb)), h3,
    surfacePoints_card S hS]

theorem pget_natCast (ps : List (Particle K)) (n : Nat) (hn : n < ps.length) :
    pget ps (n : Int) = ps[n] := by
  unfold pget
  rw [if_neg (by omega)]
  simp [List.getD_eq_getElem?_getD, hn]

/-- The particle whose index a cell holds is the particle created at rest at the position of
a cell with the same key. -/
theorem FillInv.particle_at_cell {faces : List (FaceDef K)} {S : Nat} {pm : K}
    {st : FillState K} (hinv : FillInv pm faces S (gridCells S) st)
    (c : Nat × Nat × Nat) (hc : CellValid S c) :
    ∃ d ∈ gridCells S, cellKey faces d = cellKey faces c ∧
      pget st.particles (cellGet st.facePointIdx c.1 (c.2.1 * S + c.2.2)) =
        ⟨cellPosOf faces d, cellPosOf faces d, Vec3.splat 0, if pm > 0 then 1 / pm else 0⟩ := by
  have hcm : c ∈ gridCells S := (mem_gridCells S c).mpr hc
  rw [hinv.cell_eq c hcm]
  have hmem : cellKey faces c ∈ particleKeys st.particles :=
    (hinv.mem_iff _).mpr ⟨c, hcm, rfl⟩
  have hlt := List.indexOf_lt_length.mpr hmem
  have hlen : (particleKeys st.particles).length = st.particles.length := by
    simp [particleKeys]
  have hlt2 : List.indexOf (cellKey faces c) (particleKeys st.particles) <
      st.particles.length := by omega
  rw [pget_natCast _ _ hlt2]
  obtain ⟨d, hd, hpd⟩ := hinv.fresh _ (List.getElem_mem hlt2)
  have hkey : keyOf (st.particles[List.indexOf (cellKey faces c)
      (particleKeys st.particles)]).p = cellKey faces c := by
    have h3 : ∀ (n : Nat) (h1 : n < (particleKeys st.particles).length)
        (h2 : n < st.particles.length),
        (particleKeys st.particles)[n] = keyOf (st.particles[n]).p := by
      intro n h1 h2
      simp [particleKeys]
    exact (h3 _ hlt hlt2).symm.trans (List.getElem_indexOf hlt)
  rw [hpd] at hkey
  exact ⟨d, hd, hkey, hpd⟩

/-- The particle count `6 * S^2 - 12 * S + 8` fits an `int` when `6 * S^2 < 2^31`. -/
theorem welded_count_fits {n S : Nat} (hS : 2 ≤ S) (hcount : n = 6 * S ^ 2 - 12 * S + 8)
    (hfit : 6 * S ^ 2 < 2 ^ 31) : (n : Int) ≤ 2147483647 := by
  have h0 : 2 ^ 2 ≤ S ^ 2 := Nat.pow_le_pow_left hS 2
  have h1 : n < 2 ^ 31 := by omega
  have h3 : (n : Int) < 2 ^ 31 := by exact_mod_cast h1
  norm_num at h3
  omega

/-- Two cells hold the same particle index exactly when they have the same key. -/
theorem FillInv.index_eq_iff {faces : List (FaceDef K)} {S : Nat} {pm : K} {st : FillState K}
    (hinv : FillInv pm faces S (gridCells S) st) (c d : Nat × Nat × Nat)
    (hc : c ∈ gridCells S) (hd : d ∈ gridCells S) :
    cellGet st.facePointIdx c.1 (c.2.1 * S + c.2.2) =
        cellGet st.facePointIdx d.1 (d.2.1 * S + d.2.2) ↔
      cellKey faces c = cellKey faces d := by
  have e1 := hinv.cell_eq c hc
  have e2 := hinv.cell_eq d hd
  have m1 : cellKey faces c ∈ particleKeys st.particles := (hinv.mem_iff _).mpr ⟨c, hc, rfl⟩
  have m2 : cellKey faces d ∈ particleKeys st.particles := (hinv.mem_iff _).mpr ⟨d, hd, rfl⟩
  constructor
  · intro h
    have h3 := e1.symm.trans (h.trans e2)
    exact (List.indexOf_inj m1 m2).mp (by exact_mod_cast h3)
  · intro h
    rw [h] at e1
    exact e1.trans e2.symm

end Welding

section WeldingEvaluations

set_option maxHeartbeats 2000000

end WeldingEvaluations

section Evaluations

/-- C8 (coincident centers), the code at the failing input: two unit cubes built around the
same center have coinciding bounding boxes and equal penetration on the three axes;
`CollideWith` moves every particle of the first body by `-1/4` along x and every particle of
the second body by `+1/4` along x, and leaves all y and z coordinates unchanged. -/
theorem collideWith_coincident_centers_pushes_along_x :
    aabbOverlap (unitCube ⟨0, 0, 0⟩).aabbMin (unitCube ⟨0, 0, 0⟩).aabbMax
      (unitCube ⟨0, 0, 0⟩).aabbMin (unitCube ⟨0, 0, 0⟩).aabbMax ∧
    penetration (unitCube ⟨0, 0, 0⟩).aabbMin (unitCube ⟨0, 0, 0⟩).aabbMax
      (unitCube ⟨0, 0, 0⟩).aabbMin (unitCube ⟨0, 0, 0⟩).aabbMax = ⟨1, 1, 1⟩ ∧
    ((unitCube ⟨0, 0, 0⟩).CollideWith (unitCube ⟨0, 0, 0⟩)).1.particles.map (fun p => p.p) =
      (unitCube ⟨0, 0, 0⟩).particles.map (fun p => ⟨p.p.x - 1 / 4, p.p.y, p.p.z⟩) ∧
    ((unitCube ⟨0, 0, 0⟩).CollideWith (unitCube ⟨0, 0, 0⟩)).2.particles.map (fun p => p.p) =
      (unitCube ⟨0, 0, 0⟩).particles.map (fun p => ⟨p.p.x + 1 / 4, p.p.y, p.p.z⟩) := by
  decide!

/-- C10 (AABB freshness), the code at the failing input: after `apply_punch` on the unit
cube at the origin the cached maximum corner is still `(1/2, 1/2, 1/2)` while the particles
reach `z = 11/20`; after `resolve_ground_collision` the cached minimum corner is still
`(-1/2, -1/2, -1/2)` while no particle lies below `y = 0`. -/
theorem cosmetic_moves_leave_aabb_stale :
    ((unitCube ⟨0, 0, 0⟩).apply_punch).aabbMax = ⟨1 / 2, 1 / 2, 1 / 2⟩ ∧
    (aabbOf ((unitCube ⟨0, 0, 0⟩).apply_punch).particles).2 = ⟨1 / 2, 1 / 2, 11 / 20⟩ ∧
    ((unitCube ⟨0, 0, 0⟩).resolve_ground_collision).aabbMin = ⟨-1 / 2, -1 / 2, -1 / 2⟩ ∧
    (aabbOf ((unitCube ⟨0, 0, 0⟩).resolve_ground_collision).particles).1 = ⟨-1 / 2, 0, -1 / 2⟩ := by
  decide!

/-- Counterexample to C9 as stated: in the cube of `Main.cpp` built with mass `0` every
particle has inverse mass `0`, and one `Update` with the time step and the container of
`Main.cpp` lowers particle `0` by `9.81 / 14400`. -/
theorem update_moves_pinned_particle :
    (∀ p ∈ masslessCube.particles, p.invMass = 0) ∧
    (pget (masslessCube.Update qMath (1 / 120) mainBox).particles 0).p.y =
      (pget masslessCube.particles 0).p.y - 981 / 1440000 := by
  decide!

end Evaluations

section Pinned

variable {K : Type} [LinearOrderedField K]

theorem pget_pset (ps : List (Particle K)) (i j : Int) (q : Particle K) :
    pget (pset ps i q) j = if i = j ∧ 0 ≤ i ∧ i < ps.length then q else pget ps j := by
  by_cases hij : i = j
  · subst hij
    by_cases hv : 0 ≤ i ∧ i < ps.length
    · rw [if_pos ⟨rfl, hv⟩]
      exact pget_pset_same ps i q hv.1 hv.2
    · rw [if_neg (fun h => hv h.2)]
      unfold pget pset
      by_cases h0 : i < 0
      · simp [h0]
      · have hge : ps.length ≤ i.toNat := by
          push_neg at h0
          by_contra hcon
          exact hv ⟨h0, by omega⟩
        simp [h0, List.set_eq_of_length_le hge]
  · rw [if_neg (fun h => hij h.1)]
    exact pget_pset_ne ps i j q hij

theorem Vec3.add_smul_zero (v c : Vec3 K) (w : K) :
    v.add (Vec3.smul (0 / w) c) = v := by
  rw [Vec3.ext_iff3]
  simp [Vec3.add, Vec3.smul]

theorem Vec3.sub_smul_zero (v c : Vec3 K) (w : K) :
    v.sub (Vec3.smul (0 / w) c) = v := by
  rw [Vec3.ext_iff3]
  simp [Vec3.sub, Vec3.smul]

theorem Vec3.length2_sub_self (v : Vec3 K) : (v.sub v).length2 = 0 := by
  simp [Vec3.sub, Vec3.length2]

theorem pinned_update_add (q : Particle K) (c : Vec3 K) (w : K) (h : q.invMass = 0) :
    ({ q with p := q.p.add (Vec3.smul (q.invMass / w) c) } : Particle K) = q := by
  cases q
  simp only at h
  subst h
  simp [Vec3.ext_iff3, Vec3.add, Vec3.smul]

theorem pinned_update_sub (q : Particle K) (c : Vec3 K) (w : K) (h : q.invMass = 0) :
    ({ q with p := q.p.sub (Vec3.smul (q.invMass / w) c) } : Particle K) = q := by
  cases q
  simp only at h
  subst h
  simp [Vec3.ext_iff3, Vec3.sub, Vec3.smul]

theorem relaxSpring_pinned (m : MathFns K) (kIter : K) (ps : List (Particle K)) (s : Spring K)
    (i : Int) (hi : (pget ps i).invMass = 0) : pget (relaxSpring m kIter ps s) i = pget ps i := by
  unfold relaxSpring
  dsimp only
  split_ifs with h1 h2 h3
  · rfl
  · rfl
  all_goals
    have hne : s.i ≠ s.j := by
      intro heq
      apply h1
      rw [heq, Vec3.length2_sub_self]
      norm_num
    rw [pget_pset, pget_pset_ne _ _ _ _ hne]
    by_cases hj : s.j = i
    · subst hj
      rw [pinned_update_sub _ _ _ hi]
      split_ifs
      · rfl
      · exact pget_pset_ne _ _ _ _ hne
    · rw [if_neg (fun h => hj h.1), pget_pset]
      by_cases hi2 : s.i = i
      · subst hi2
        rw [pinned_update_add _ _ _ hi]
        split_ifs <;> rfl
      · rw [if_neg (fun h => hi2 h.1)]

theorem foldl_relaxSpring_pinned (m : MathFns K) (kIter : K) (springs : List (Spring K))
    (ps : List (Particle K)) (i : Int) (hi : (pget ps i).invMass = 0) :
    pget (springs.foldl (relaxSpring m kIter) ps) i = pget ps i := by
  induction springs generalizing ps with
  | nil => rfl
  | cons s ss ih =>
    simp only [List.foldl_cons]
    have h1 := relaxSpring_pinned m kIter ps s i hi
    rw [ih _ (by rw [h1]; exact hi), h1]

theorem satisfyConstraints_pinned (m : MathFns K) (N : Nat) (b : Jelly K) (i : Int)
    (hi : (pget b.particles i).invMass = 0) :
    pget (b.satisfyConstraints m N).particles i = pget b.particles i := by
  unfold Jelly.satisfyConstraints
  dsimp only
  exact forN_inv (fun ps : List (Particle K) => pget ps i = pget b.particles i) N _ _ rfl
    (fun x hx => by
      show pget (List.foldl (relaxSpring m (k_iter m N)) x b.springs) i = pget b.particles i
      rw [foldl_relaxSpring_pinned m _ _ _ i (by rw [hx]; exact hi), hx])

end Pinned

section PinnedConstruction

variable {K : Type} [LinearOrderedField K] [FloorRing K] [Rounding K]

/-- C9 as amended (immovable particles).  A body constructed with per-particle mass at most
zero gives every particle inverse mass 0, and a particle with inverse mass 0 is exempt from
the spring corrections: in every body state and for every iteration count,
`satisfyConstraints` leaves every particle with inverse mass 0 as it was. -/
theorem pinned_particles_skip_spring_corrections (m : MathFns K) (center : Vec3 K) (radius : K)
    (velocity acceleration : Vec3 K) (pointMass springStrength : K) (springsPerEdge : Int)
    (hmass : pointMass ≤ 0) :
    (∀ p ∈ (Jelly.new m center radius velocity acceleration pointMass springStrength
        springsPerEdge).particles, p.invMass = 0) ∧
    ∀ (b : Jelly K) (N : Nat) (i : Int), (pget b.particles i).invMass = 0 →
      pget (b.satisfyConstraints m N).particles i = pget b.particles i := by
  refine ⟨?_, fun b N i hi => satisfyConstraints_pinned m N b i hi⟩
  intro p hp
  have hinv := fillGrid_inv pointMass
    (cubeFaces center radius (subdivisions springsPerEdge)) (subdivisions springsPerEdge)
  obtain ⟨c, -, hpc⟩ := hinv.fresh p hp
  rw [hpc]
  simp only
  rw [if_neg (not_lt.mpr hmass)]

/-- Witness of C9 as amended: the cube of `Main.cpp` built with mass `0`. -/
theorem pinned_particles_skip_spring_corrections_witness :
    (0 : ℚ) ≤ 0 ∧ (∀ p ∈ masslessCube.particles, p.invMass = 0) ∧
    pget (masslessCube.satisfyConstraints qMath 1).particles 0 = pget masslessCube.particles 0 :=
  ⟨le_refl 0,
    (pinned_particles_skip_spring_corrections qMath ⟨0, 7 / 10, 0⟩ (35 / 100) ⟨0, 0, 0⟩
      ⟨0, 0, 0⟩ 0 (25 / 100) 1 (le_refl 0)).1,
    (pinned_particles_skip_spring_corrections qMath ⟨0, 7 / 10, 0⟩ (35 / 100) ⟨0, 0, 0⟩
      ⟨0, 0, 0⟩ 0 (25 / 100) 1 (le_refl 0)).2 masslessCube 1 0 (by decide!)⟩

end PinnedConstruction

section Relaxation

variable {K : Type} [LinearOrderedField K]

theorem relax_vector_identity (a b d : Vec3 K) (w1 w2 c : K) (hw : w1 + w2 ≠ 0)
    (hd : d = b.sub a) :
    (b.sub (Vec3.smul (w2 / (w1 + w2)) (d.scale c))).sub
        (a.add (Vec3.smul (w1 / (w1 + w2)) (d.scale c))) = d.scale (1 - c) := by
  subst hd
  rw [Vec3.ext_iff3]
  simp only [Vec3.sub, Vec3.add, Vec3.smul, Vec3.scale]
  refine ⟨?_, ?_, ?_⟩ <;> field_simp <;> ring

theorem Vec3.scale_scale (d : Vec3 K) (c f : K) : (d.scale c).scale f = d.scale (c * f) := by
  rw [Vec3.ext_iff3]
  simp only [Vec3.scale]
  refine ⟨by ring, by ring, by ring⟩

/-- One relaxation that is not skipped replaces the difference vector `d` of the spring by
`d * (1 - relaxFactor)` and changes neither an inverse mass nor the number of particles. -/
theorem relaxSpring_step (m : MathFns K) (kIter : K) (ps : List (Particle K)) (s : Spring K)
    (hi : 0 ≤ s.i ∧ s.i < ps.length) (hj : 0 ≤ s.j ∧ s.j < ps.length)
    (hl2 : ¬ ((pget ps s.j).p.sub (pget ps s.i).p).length2 < 1 / 1000000000000)
    (hw : 0 < (pget ps s.i).invMass + (pget ps s.j).invMass) :
    (pget (relaxSpring m kIter ps s) s.j).p.sub (pget (relaxSpring m kIter ps s) s.i).p =
        ((pget ps s.j).p.sub (pget ps s.i).p).scale (1 - relaxFactor m kIter ps s) ∧
      (pget (relaxSpring m kIter ps s) s.i).invMass = (pget ps s.i).invMass ∧
      (pget (relaxSpring m kIter ps s) s.j).invMass = (pget ps s.j).invMass := by
  have hne : s.i ≠ s.j := by
    intro heq
    apply hl2
    rw [heq, Vec3.length2_sub_self]
    norm_num
  have hj1 : ∀ q : Particle K, s.j < ((pset ps s.i q).length : Int) := by
    intro q; rw [pset_length]; exact hj.2
  unfold relaxSpring relaxFactor
  dsimp only
  rw [if_neg hl2, if_neg (not_le.mpr hw)]
  split_ifs with hc
  all_goals
    rw [pget_pset_same _ _ _ hj.1 (hj1 _), pget_pset_ne _ _ _ _ hne.symm,
      pget_pset_same _ _ _ hi.1 hi.2, pget_pset_ne _ _ _ _ hne]
    refine ⟨?_, rfl, rfl⟩
    simp only
  · rw [Vec3.scale_scale]
    exact relax_vector_identity _ _ _ _ _ _ (ne_of_gt hw) rfl
  · exact relax_vector_identity _ _ _ _ _ _ (ne_of_gt hw) rfl

theorem Vec3.length2_scale (d : Vec3 K) (c : K) : (d.scale c).length2 = c * c * d.length2 := by
  simp only [Vec3.scale, Vec3.length2]
  ring

/-- With a square root that is exact on squares and a spring of length `L > 0`, the
correction factor is `k * (L - rest) / L` for an effective stiffness `k` between `0` and
`kIter`, equal to `kIter` when the clamp is inactive. -/
theorem relaxFactor_eq (m : MathFns K) (kIter : K) (ps : List (Particle K)) (s : Spring K)
    (L : K) (hs : m.SqrtExact) (hL : 0 < L)
    (hlen : ((pget ps s.j).p.sub (pget ps s.i).p).length2 = L * L)
    (hk : 0 ≤ kIter) (hrest : 0 ≤ s.rest) :
    ∃ k : K, 0 ≤ k ∧ k ≤ kIter ∧ relaxFactor m kIter ps s = k * ((L - s.rest) / L) ∧
      (kIter * |L - s.rest| ≤ maxCorrFrac * s.rest → k = kIter) := by
  have hsq : m.sqrt ((pget ps s.j).p.sub (pget ps s.i).p).length2 = L := by
    rw [hlen]; exact hs L hL.le
  have hcorr : Vec3.length m (((pget ps s.j).p.sub (pget ps s.i).p).scale
      (kIter * ((L - s.rest) / L))) = kIter * |L - s.rest| := by
    unfold Vec3.length
    rw [Vec3.length2_scale, hlen]
    have h1 : kIter * ((L - s.rest) / L) * (kIter * ((L - s.rest) / L)) * (L * L) =
        (kIter * |L - s.rest|) * (kIter * |L - s.rest|) := by
      have h2 : |L - s.rest| * |L - s.rest| = (L - s.rest) * (L - s.rest) := abs_mul_abs_self _
      have h3 : kIter * |L - s.rest| * (kIter * |L - s.rest|) =
          kIter * kIter * (|L - s.rest| * |L - s.rest|) := by ring
      rw [h3, h2]
      field_simp
      ring
    rw [h1]
    exact hs _ (mul_nonneg hk (abs_nonneg _))
  unfold relaxFactor
  rw [hsq, hcorr]
  have hmax : (0 : K) ≤ maxCorrFrac * s.rest := by
    unfold maxCorrFrac; positivity
  split_ifs with hc
  · have hpos : (0 : K) < max (kIter * |L - s.rest|) (1 / 100000000) :=
      lt_of_lt_of_le (by norm_num) (le_max_right _ _)
    have hf0 : 0 ≤ maxCorrFrac * s.rest / max (kIter * |L - s.rest|) (1 / 100000000) :=
      div_nonneg hmax hpos.le
    have hf1 : maxCorrFrac * s.rest / max (kIter * |L - s.rest|) (1 / 100000000) ≤ 1 := by
      rw [div_le_one hpos]
      exact le_trans hc.le (le_max_left _ _)
    refine ⟨kIter * (maxCorrFrac * s.rest / max (kIter * |L - s.rest|) (1 / 100000000)),
      mul_nonneg hk hf0, ?_, by ring, ?_⟩
    · calc kIter * (maxCorrFrac * s.rest / max (kIter * |L - s.rest|) (1 / 100000000))
          ≤ kIter * 1 := mul_le_mul_of_nonneg_left hf1 hk
        _ = kIter := mul_one _
    · intro hle
      exact absurd hle (not_le.mpr hc)
  · exact ⟨kIter, hk, le_refl _, rfl, fun _ => rfl⟩

theorem pos_of_length2_ge (L x : K) (hL : 0 ≤ L) (hx : x = L * L)
    (h : ¬ x < 1 / 1000000000000) : 0 < L := by
  rcases eq_or_lt_of_le hL with h0 | h0
  · exfalso
    apply h
    rw [hx, ← h0]
    norm_num
  · exact h0

theorem relaxed_length_bounds (L rest k : K) (hk0 : 0 ≤ k) (hk1 : k ≤ 1) (hL : 0 ≤ L)
    (hrest : 0 ≤ rest) :
    0 ≤ L - k * (L - rest) ∧
      (rest ≤ L → rest ≤ L - k * (L - rest) ∧ L - k * (L - rest) ≤ L) ∧
      (L ≤ rest → L ≤ L - k * (L - rest) ∧ L - k * (L - rest) ≤ rest) := by
  have hk1' : 0 ≤ 1 - k := sub_nonneg.mpr hk1
  refine ⟨?_, ?_, ?_⟩
  · have h1 := mul_nonneg hk1' hL
    have h2 := mul_nonneg hk0 hrest
    have e : L - k * (L - rest) = (1 - k) * L + k * rest := by ring
    rw [e]; linarith
  · intro h
    have h1 := mul_nonneg hk1' (sub_nonneg.mpr h)
    have h2 := mul_nonneg hk0 (sub_nonneg.mpr h)
    constructor
    · have e : L - k * (L - rest) = rest + (1 - k) * (L - rest) := by ring
      rw [e]; linarith
    · linarith
  · intro h
    have h1 := mul_nonneg hk1' (sub_nonneg.mpr h)
    have h2 := mul_nonneg hk0 (sub_nonneg.mpr h)
    constructor
    · have e : L - k * (L - rest) = L + k * (rest - L) := by ring
      rw [e]; linarith
    · have e : L - k * (L - rest) = rest - (1 - k) * (rest - L) := by ring
      rw [e]; linarith

/-- C5 (no overshoot).  For every spring relaxation of `satisfyConstraints(N)` on a spring
with valid endpoints, positive rest length and positive inverse-mass sum, the clamp being
active or not, the length of the spring after the relaxation lies between its length
before and the rest length: a stretched spring stays at length at least `rest` and does not
grow, a compressed spring stays at length at most `rest` and does not shrink.  The square
root is exact on squares, the squared distance of the endpoints is the square of `L`, and
`pow(1 - k_total, 1 / N)` lies between 0 and 1 (as it does for every `N >= 1`). -/
theorem relaxSpring_no_overshoot (m : MathFns K) (N : Nat) (ps : List (Particle K))
    (s : Spring K) (L : K) (hs : m.SqrtExact)
    (hpow : 0 ≤ m.pow (1 - k_total) (1 / (N : K)) ∧ m.pow (1 - k_total) (1 / (N : K)) ≤ 1)
    (hi : 0 ≤ s.i ∧ s.i < ps.length) (hj : 0 ≤ s.j ∧ s.j < ps.length)
    (hL : 0 ≤ L) (hlen : ((pget ps s.j).p.sub (pget ps s.i).p).length2 = L * L)
    (hrest : 0 < s.rest) (hw : 0 < (pget ps s.i).invMass + (pget ps s.j).invMass) :
    Vec3.length m ((pget ps s.j).p.sub (pget ps s.i).p) = L ∧
    (s.rest ≤ L →
      s.rest ≤ Vec3.length m ((pget (relaxSpring m (k_iter m N) ps s) s.j).p.sub
        (pget (relaxSpring m (k_iter m N) ps s) s.i).p) ∧
      Vec3.length m ((pget (relaxSpring m (k_iter m N) ps s) s.j).p.sub
        (pget (relaxSpring m (k_iter m N) ps s) s.i).p) ≤ L) ∧
    (L ≤ s.rest →
      L ≤ Vec3.length m ((pget (relaxSpring m (k_iter m N) ps s) s.j).p.sub
        (pget (relaxSpring m (k_iter m N) ps s) s.i).p) ∧
      Vec3.length m ((pget (relaxSpring m (k_iter m N) ps s) s.j).p.sub
        (pget (relaxSpring m (k_iter m N) ps s) s.i).p) ≤ s.rest) := by
  have hlenL : Vec3.length m ((pget ps s.j).p.sub (pget ps s.i).p) = L := by
    unfold Vec3.length; rw [hlen]; exact hs L hL
  refine ⟨hlenL, ?_⟩
  by_cases hl2 : ((pget ps s.j).p.sub (pget ps s.i).p).length2 < 1 / 1000000000000
  · have hskip : relaxSpring m (k_iter m N) ps s = ps := by
      unfold relaxSpring
      dsimp only
      rw [if_pos hl2]
    rw [hskip, hlenL]
    exact ⟨fun h => ⟨h, le_refl _⟩, fun h => ⟨le_refl _, h⟩⟩
  · have hLpos : 0 < L := pos_of_length2_ge L _ hL hlen hl2
    have hk0 : 0 ≤ k_iter m N := by unfold k_iter; linarith [hpow.2]
    have hk1 : k_iter m N ≤ 1 := by unfold k_iter; linarith [hpow.1]
    obtain ⟨hd, -, -⟩ := relaxSpring_step m (k_iter m N) ps s hi hj hl2 hw
    obtain ⟨k, hk, hkle, hfac, -⟩ := relaxFactor_eq m (k_iter m N) ps s L hs hLpos hlen hk0 hrest.le
    have hk1' : k ≤ 1 := le_trans hkle hk1
    have hnew : Vec3.length m ((pget (relaxSpring m (k_iter m N) ps s) s.j).p.sub
        (pget (relaxSpring m (k_iter m N) ps s) s.i).p) = L - k * (L - s.rest) := by
      rw [hd, hfac]
      unfold Vec3.length
      rw [Vec3.length2_scale, hlen]
      have h1 : (1 - k * ((L - s.rest) / L)) * (1 - k * ((L - s.rest) / L)) * (L * L) =
          (L - k * (L - s.rest)) * (L - k * (L - s.rest)) := by
        field_simp
      rw [h1]
      exact hs _ (relaxed_length_bounds L s.rest k hk hk1' hLpos.le hrest.le).1
    rw [hnew]
    exact (relaxed_length_bounds L s.rest k hk hk1' hLpos.le hrest.le).2

end Relaxation

section RationalSqrt

theorem isqrtAux_spec (fuel n : Nat) (h : n ≤ fuel) :
    isqrtAux fuel n * isqrtAux fuel n ≤ n ∧ n < (isqrtAux fuel n + 1) * (isqrtAux fuel n + 1) := by
  induction fuel generalizing n with
  | zero =>
    have : n = 0 := by omega
    subst this
    simp [isqrtAux]
  | succ f ih =>
    unfold isqrtAux
    by_cases h4 : n < 4
    · rw [if_pos h4]
      by_cases h0 : n = 0
      · simp [h0]
      · rw [if_neg h0]
        constructor <;> omega
    · rw [if_neg h4]
      dsimp only
      have hq : n / 4 ≤ f := by omega
      obtain ⟨h1, h2⟩ := ih (n / 4) hq
      generalize isqrtAux f (n / 4) = r at h1 h2 ⊢
      have hdiv : 4 * (n / 4) ≤ n ∧ n < 4 * (n / 4) + 4 := by omega
      generalize n / 4 = q at h1 h2 hdiv
      split_ifs with hc
      · refine ⟨hc, ?_⟩
        nlinarith
      · push_neg at hc
        refine ⟨?_, hc⟩
        nlinarith

theorem isqrt_mul_self (x : Nat) : isqrt (x * x) = x := by
  obtain ⟨h1, h2⟩ := isqrtAux_spec (x * x) (x * x) (le_refl _)
  unfold isqrt
  generalize isqrtAux (x * x) (x * x) = r at h1 h2
  have hle : r ≤ x := Nat.mul_self_le_mul_self_iff.mp h1
  have hlt : x < r + 1 := Nat.mul_self_lt_mul_self_iff.mp h2
  omega

theorem ceilSqrt_mul_self (x : Nat) : ceilSqrt (x * x) = x := by
  unfold ceilSqrt
  rw [isqrt_mul_self, if_pos rfl]

theorem le_ceilSqrt_sq (n : Nat) : n ≤ ceilSqrt n * ceilSqrt n := by
  obtain ⟨h1, h2⟩ := isqrtAux_spec n n (le_refl _)
  unfold ceilSqrt isqrt
  split_ifs with hc
  · exact le_of_eq hc.symm
  · exact h2.le

/-- The rational square root is exact on squares of non-negative rationals. -/
theorem qMath_sqrtExact : qMath.SqrtExact := by
  intro x hx
  show qsqrt (x * x) = x
  unfold qsqrt
  rw [Rat.mul_self_num, Rat.mul_self_den]
  have hnum : 0 ≤ x.num := Rat.num_nonneg.mpr hx
  obtain ⟨a, ha⟩ := Int.eq_ofNat_of_zero_le hnum
  have hden : (x.den : ℚ) ≠ 0 := by exact_mod_cast x.den_nz
  have e1 : (x.num * x.num).toNat * (x.den * x.den) = (a * x.den) * (a * x.den) := by
    rw [ha]
    have : ((a : Int) * (a : Int)).toNat = a * a := by
      rw [← Int.natCast_mul]; exact Int.toNat_natCast _
    rw [this]; ring
  rw [e1, ceilSqrt_mul_self]
  have hx2 : x = (a : ℚ) / (x.den : ℚ) := by
    have := Rat.num_div_den x
    rw [ha] at this
    simpa using this.symm
  push_cast
  rw [mul_div_mul_right _ _ hden]
  exact hx2.symm

/-- The rational square root never underestimates. -/
theorem qMath_sqrtUpper : qMath.SqrtUpper := by
  intro x hx
  show 0 ≤ qsqrt x ∧ x ≤ qsqrt x * qsqrt x
  unfold qsqrt
  have hden : (0 : ℚ) < (x.den : ℚ) := by exact_mod_cast x.den_pos
  have hnum : 0 ≤ x.num := Rat.num_nonneg.mpr hx
  obtain ⟨a, ha⟩ := Int.eq_ofNat_of_zero_le hnum
  constructor
  · exact div_nonneg (Nat.cast_nonneg _) hden.le
  · have h1 := le_ceilSqrt_sq (x.num.toNat * x.den)
    have h2 : ((x.num.toNat * x.den : Nat) : ℚ) ≤
        ((ceilSqrt (x.num.toNat * x.den) * ceilSqrt (x.num.toNat * x.den) : Nat) : ℚ) := by
      exact_mod_cast h1
    have hx2 : x = (a : ℚ) / (x.den : ℚ) := by
      have := Rat.num_div_den x
      rw [ha] at this
      simpa using this.symm
    have ha2 : x.num.toNat = a := by rw [ha]; simp
    rw [ha2] at h2 ⊢
    push_cast at h2
    rw [div_mul_div_comm]
    rw [le_div_iff₀ (mul_pos hden hden)]
    calc x * ((x.den : ℚ) * (x.den : ℚ)) = (a : ℚ) * (x.den : ℚ) := by
          nth_rewrite 1 [hx2]
          field_simp
          ring
      _ ≤ _ := h2

end RationalSqrt

section Convergence

variable {K : Type} [LinearOrderedField K]

/-- One relaxation with inactive clamp of a stretched spring of length `L`: the new squared
length is the square of `rest + (1 - k) * (L - rest)`. -/
theorem relaxSpring_unclamped (m : MathFns K) (k : K) (ps : List (Particle K)) (s : Spring K)
    (L : K) (hs : m.SqrtExact)
    (hi : 0 ≤ s.i ∧ s.i < ps.length) (hj : 0 ≤ s.j ∧ s.j < ps.length)
    (hw : 0 < (pget ps s.i).invMass + (pget ps s.j).invMass)
    (hlen : ((pget ps s.j).p.sub (pget ps s.i).p).length2 = L * L)
    (hrest : 0 < s.rest) (hLr : s.rest < L) (hk0 : 0 ≤ k)
    (hguard : 1 / 1000000000000 ≤ L * L)
    (hclamp : k * (L - s.rest) ≤ maxCorrFrac * s.rest) :
    ((pget (relaxSpring m k ps s) s.j).p.sub (pget (relaxSpring m k ps s) s.i).p).length2 =
        (s.rest + (1 - k) * (L - s.rest)) * (s.rest + (1 - k) * (L - s.rest)) ∧
      (pget (relaxSpring m k ps s) s.i).invMass = (pget ps s.i).invMass ∧
      (pget (relaxSpring m k ps s) s.j).invMass = (pget ps s.j).invMass := by
  have hLpos : 0 < L := lt_trans hrest hLr
  have hl2 : ¬ ((pget ps s.j).p.sub (pget ps s.i).p).length2 < 1 / 1000000000000 := by
    rw [hlen]; exact not_lt.mpr hguard
  obtain ⟨hd, hmi, hmj⟩ := relaxSpring_step m k ps s hi hj hl2 hw
  obtain ⟨k', -, -, hfac, hkk⟩ := relaxFactor_eq m k ps s L hs hLpos hlen hk0 hrest.le
  have habs : |L - s.rest| = L - s.rest := abs_of_pos (sub_pos.mpr hLr)
  rw [habs] at hkk
  rw [hkk hclamp] at hfac
  refine ⟨?_, hmi, hmj⟩
  rw [hd, hfac, Vec3.length2_scale, hlen]
  field_simp
  ring

theorem pow_le_one_of_pow_eq (r : K) (N : Nat) (hN : 1 ≤ N) (c : K) (hc : c ≤ 1)
    (h : r ^ N = c) : r ≤ 1 := by
  by_contra hcon
  push_neg at hcon
  have : 1 < r ^ N := one_lt_pow₀ hcon (by omega)
  linarith

/-- Iterating the unclamped relaxation `n` times on a single stretched spring multiplies the
stretch by `(1 - k)^n`. -/
theorem forN_relaxSpring_unclamped (m : MathFns K) (k : K) (s : Spring K) (hs : m.SqrtExact)
    (hrest : 0 < s.rest) (hk0 : 0 ≤ k) (hk1 : k < 1) (n : Nat) :
    ∀ (ps : List (Particle K)) (L : K),
      (0 ≤ s.i ∧ s.i < ps.length) → (0 ≤ s.j ∧ s.j < ps.length) →
      0 < (pget ps s.i).invMass + (pget ps s.j).invMass →
      ((pget ps s.j).p.sub (pget ps s.i).p).length2 = L * L →
      s.rest < L → k * (L - s.rest) ≤ maxCorrFrac * s.rest →
      (1 ≤ n → 1 / 1000000000000 ≤
        (s.rest + (1 - k) ^ (n - 1) * (L - s.rest)) * (s.rest + (1 - k) ^ (n - 1) * (L - s.rest))) →
      ((pget (forN n (fun ps => relaxSpring m k ps s) ps) s.j).p.sub
          (pget (forN n (fun ps => relaxSpring m k ps s) ps) s.i).p).length2 =
        (s.rest + (1 - k) ^ n * (L - s.rest)) * (s.rest + (1 - k) ^ n * (L - s.rest)) := by
  induction n with
  | zero =>
    intro ps L _ _ _ hlen _ _ _
    simp only [forN, pow_zero, one_mul]
    rw [hlen]
    ring
  | succ n ih =>
    intro ps L hi hj hw hlen hLr hclamp hguard
    have hr0 : 0 < 1 - k := sub_pos.mpr hk1
    have hr1 : 1 - k ≤ 1 := by linarith
    have hpow0 : 0 ≤ (1 - k) ^ n := pow_nonneg hr0.le n
    have hpow1 : (1 - k) ^ n ≤ 1 := pow_le_one₀ hr0.le hr1
    have hstretch : 0 < L - s.rest := sub_pos.mpr hLr
    have hg := hguard (by omega)
    simp only [Nat.add_sub_cancel] at hg
    have hLn : s.rest + (1 - k) ^ n * (L - s.rest) ≤ L := by
      have := mul_le_mul_of_nonneg_right hpow1 hstretch.le
      linarith
    have hLn0 : 0 ≤ s.rest + (1 - k) ^ n * (L - s.rest) := by
      have := mul_nonneg hpow0 hstretch.le
      linarith
    have hgL : 1 / 1000000000000 ≤ L * L :=
      le_trans hg (mul_le_mul hLn hLn hLn0 (le_trans hLn0 hLn))
    obtain ⟨h1, h2, h3⟩ := relaxSpring_unclamped m k ps s L hs hi hj hw hlen hrest hLr hk0 hgL hclamp
    have hL1 : s.rest < s.rest + (1 - k) * (L - s.rest) := by
      have := mul_pos hr0 hstretch
      linarith
    have hc1 : k * (s.rest + (1 - k) * (L - s.rest) - s.rest) ≤ maxCorrFrac * s.rest := by
      have e : k * (s.rest + (1 - k) * (L - s.rest) - s.rest) =
          (1 - k) * (k * (L - s.rest)) := by ring
      rw [e]
      have hkl : 0 ≤ k * (L - s.rest) := mul_nonneg hk0 hstretch.le
      have := mul_le_mul_of_nonneg_right hr1 hkl
      linarith
    have hnext := ih (relaxSpring m k ps s) (s.rest + (1 - k) * (L - s.rest))
      (by rw [relaxSpring_length]; exact hi) (by rw [relaxSpring_length]; exact hj)
      (by rw [h2, h3]; exact hw) h1 hL1 hc1 (by
        intro hn
        have e : s.rest + (1 - k) ^ (n - 1) * (s.rest + (1 - k) * (L - s.rest) - s.rest) =
            s.rest + (1 - k) ^ n * (L - s.rest) := by
          have : (1 - k) ^ n = (1 - k) ^ (n - 1) * (1 - k) := by
            rw [← pow_succ]; congr 1; omega
          rw [this]; ring
        rw [e]; exact hg)
    show ((pget (forN n (fun ps => relaxSpring m k ps s) (relaxSpring m k ps s)) s.j).p.sub
      (pget (forN n (fun ps => relaxSpring m k ps s) (relaxSpring m k ps s)) s.i).p).length2 = _
    rw [hnext]
    have e : s.rest + (1 - k) ^ n * (s.rest + (1 - k) * (L - s.rest) - s.rest) =
        s.rest + (1 - k) ^ (n + 1) * (L - s.rest) := by
      rw [pow_succ]; ring
    rw [e]

/-- C4 as amended (convergence).  For a body whose only spring `s` has rest length
`rest > 0`, joins two valid particles with non-negative inverse masses that are not both
zero, and is stretched to the length `L0 > rest`, with the clamp inactive
(`k_iter * (L0 - rest) <= 0.2 * rest`) and the spring never shorter than the 1e-6 guard
during the `N` iterations (its length before the last iteration,
`rest + (1 - k_iter)^(N - 1) * (L0 - rest)`, has a square of at least 1e-12),
`satisfyConstraints(N)` leaves the stretch `(1 - 0.6) * (L0 - rest)`, for every `N >= 1`.
The square root is exact on squares and `r = pow(1 - k_total, 1 / N)` is the positive `N`-th
root of `1 - k_total`. -/
theorem satisfyConstraints_removes_k_total (m : MathFns K) (N : Nat) (b : Jelly K)
    (s : Spring K) (L0 : K) (hs : m.SqrtExact) (hN : 1 ≤ N)
    (hr0 : 0 < m.pow (1 - k_total) (1 / (N : K)))
    (hrN : m.pow (1 - k_total) (1 / (N : K)) ^ N = 1 - k_total)
    (hsp : b.springs = [s])
    (hi : 0 ≤ s.i ∧ s.i < b.particles.length) (hj : 0 ≤ s.j ∧ s.j < b.particles.length)
    (hwi : 0 ≤ (pget b.particles s.i).invMass) (hwj : 0 ≤ (pget b.particles s.j).invMass)
    (hw : ¬ ((pget b.particles s.i).invMass = 0 ∧ (pget b.particles s.j).invMass = 0))
    (hrest : 0 < s.rest) (hL0 : s.rest < L0)
    (hlen : ((pget b.particles s.j).p.sub (pget b.particles s.i).p).length2 = L0 * L0)
    (hclamp : k_iter m N * (L0 - s.rest) ≤ maxCorrFrac * s.rest)
    (hguard : 1 / 1000000000000 ≤
      (s.rest + (1 - k_iter m N) ^ (N - 1) * (L0 - s.rest)) *
        (s.rest + (1 - k_iter m N) ^ (N - 1) * (L0 - s.rest))) :
    Vec3.length m ((pget (b.satisfyConstraints m N).particles s.j).p.sub
        (pget (b.satisfyConstraints m N).particles s.i).p) - s.rest =
      (1 - k_total) * (L0 - s.rest) := by
  have hkt : (1 : K) - k_total ≤ 1 := by unfold k_total; norm_num
  have hkt0 : (0 : K) ≤ 1 - k_total := by unfold k_total; norm_num
  have hr1 := pow_le_one_of_pow_eq _ N hN _ hkt hrN
  have hk0 : 0 ≤ k_iter m N := by unfold k_iter; linarith
  have hk1 : k_iter m N < 1 := by unfold k_iter; linarith
  have hwsum : 0 < (pget b.particles s.i).invMass + (pget b.particles s.j).invMass := by
    rcases eq_or_lt_of_le hwi with h | h
    · rcases eq_or_lt_of_le hwj with h' | h'
      · exact absurd ⟨h.symm, h'.symm⟩ hw
      · linarith
    · linarith
  have hmain := forN_relaxSpring_unclamped m (k_iter m N) s hs hrest hk0 hk1 N b.particles L0
    hi hj hwsum hlen hL0 hclamp (fun _ => hguard)
  have hpart : (b.satisfyConstraints m N).particles =
      forN N (fun ps => relaxSpring m (k_iter m N) ps s) b.particles := by
    unfold Jelly.satisfyConstraints
    simp only [hsp, List.foldl_cons, List.foldl_nil]
  have hone : (1 - k_iter m N) ^ N = 1 - k_total := by
    unfold k_iter
    rw [sub_sub_cancel]
    exact hrN
  rw [hpart]
  unfold Vec3.length
  rw [hmain, hone]
  have hnn : 0 ≤ s.rest + (1 - k_total) * (L0 - s.rest) := by
    have := mul_nonneg hkt0 (sub_pos.mpr hL0).le
    linarith
  rw [hs _ hnn]
  ring

end Convergence

section ConvergenceEvaluations

/-- Counterexample to C4 as stated: the spring of `tinyPair` has rest length `3e-7 > 0`,
length `4e-7 > rest` and an inactive clamp for `N = 1`, yet `satisfyConstraints(1)` skips it
(squared length below 1e-12) and leaves the stretch `1e-7` instead of `0.4e-7`. -/
theorem satisfyConstraints_skips_short_spring :
    ((0 : ℚ) < 3 / 10000000 ∧ (3 / 10000000 : ℚ) < 4 / 10000000 ∧
      k_iter qMath 1 * (4 / 10000000 - 3 / 10000000) ≤ maxCorrFrac * (3 / 10000000 : ℚ)) ∧
    Vec3.length qMath ((pget tinyPair.particles 1).p.sub (pget tinyPair.particles 0).p) =
      4 / 10000000 ∧
    Vec3.length qMath ((pget (tinyPair.satisfyConstraints qMath 1).particles 1).p.sub
        (pget (tinyPair.satisfyConstraints qMath 1).particles 0).p) - 3 / 10000000 =
      1 / 10000000 ∧
    (1 / 10000000 : ℚ) ≠ (1 - k_total) * (4 / 10000000 - 3 / 10000000) := by
  decide!

/-- Witness of C5: the compressed spring of `compressedPair` (rest `2`, length `1`). -/
theorem relaxSpring_no_overshoot_witness :
    (1 : ℚ) ≤ 2 ∧
    1 ≤ Vec3.length qMath
      ((pget (relaxSpring qMath (k_iter qMath 1) compressedPair.particles ⟨0, 1, 2, 1⟩) 1).p.sub
        (pget (relaxSpring qMath (k_iter qMath 1) compressedPair.particles ⟨0, 1, 2, 1⟩) 0).p) ∧
    Vec3.length qMath
      ((pget (relaxSpring qMath (k_iter qMath 1) compressedPair.particles ⟨0, 1, 2, 1⟩) 1).p.sub
        (pget (relaxSpring qMath (k_iter qMath 1) compressedPair.particles ⟨0, 1, 2, 1⟩) 0).p) ≤ 2 :=
  ⟨by decide!,
    (relaxSpring_no_overshoot qMath 1 compressedPair.particles ⟨0, 1, 2, 1⟩ 1 qMath_sqrtExact
      (by decide!) (by decide!) (by decide!) (by decide!) (by decide!) (by decide!)
      (by decide!)).2.2 (by decide!)⟩

end ConvergenceEvaluations

section BoundingBox

variable {K : Type} [LinearOrderedField K]

theorem foldl_min_spec {α : Type} (f : α → K) (l : List α) (c : K) :
    l.foldl (fun acc p => min acc (f p)) c ≤ c ∧
      (∀ p ∈ l, l.foldl (fun acc p => min acc (f p)) c ≤ f p) ∧
      (l.foldl (fun acc p => min acc (f p)) c = c ∨
        ∃ p ∈ l, l.foldl (fun acc p => min acc (f p)) c = f p) := by
  induction l generalizing c with
  | nil => simp
  | cons a l ih =>
    simp only [List.foldl_cons, List.mem_cons, forall_eq_or_imp, exists_eq_or_imp]
    obtain ⟨h1, h2, h3⟩ := ih (min c (f a))
    refine ⟨le_trans h1 (min_le_left _ _), ⟨le_trans h1 (min_le_right _ _), h2⟩, ?_⟩
    rcases h3 with h3 | ⟨p, hp, h3⟩
    · rcases min_choice c (f a) with hm | hm
      · left; rw [h3, hm]
      · right; left; rw [h3, hm]
    · right; right; exact ⟨p, hp, h3⟩

theorem foldl_max_spec {α : Type} (f : α → K) (l : List α) (c : K) :
    c ≤ l.foldl (fun acc p => max acc (f p)) c ∧
      (∀ p ∈ l, f p ≤ l.foldl (fun acc p => max acc (f p)) c) ∧
      (l.foldl (fun acc p => max acc (f p)) c = c ∨
        ∃ p ∈ l, l.foldl (fun acc p => max acc (f p)) c = f p) := by
  induction l generalizing c with
  | nil => simp
  | cons a l ih =>
    simp only [List.foldl_cons, List.mem_cons, forall_eq_or_imp, exists_eq_or_imp]
    obtain ⟨h1, h2, h3⟩ := ih (max c (f a))
    refine ⟨le_trans (le_max_left _ _) h1, ⟨le_trans (le_max_right _ _) h1, h2⟩, ?_⟩
    rcases h3 with h3 | ⟨p, hp, h3⟩
    · rcases max_choice c (f a) with hm | hm
      · left; rw [h3, hm]
      · right; left; rw [h3, hm]
    · right; right; exact ⟨p, hp, h3⟩

/-- On a non-empty list whose values stay below the start value, the running minimum is
the least value of the list. -/
theorem foldl_min_least {α : Type} (f : α → K) (l : List α) (c : K) (hne : l ≠ [])
    (hc : ∀ p ∈ l, f p ≤ c) :
    (∃ p ∈ l, l.foldl (fun acc p => min acc (f p)) c = f p) ∧
      ∀ p ∈ l, l.foldl (fun acc p => min acc (f p)) c ≤ f p := by
  obtain ⟨-, h2, h3⟩ := foldl_min_spec f l c
  refine ⟨?_, h2⟩
  rcases h3 with h3 | h3
  · obtain ⟨a, ha⟩ := List.exists_mem_of_ne_nil l hne
    exact ⟨a, ha, le_antisymm (h2 a ha) (by rw [h3]; exact hc a ha)⟩
  · exact h3

theorem foldl_max_greatest {α : Type} (f : α → K) (l : List α) (c : K) (hne : l ≠ [])
    (hc : ∀ p ∈ l, c ≤ f p) :
    (∃ p ∈ l, l.foldl (fun acc p => max acc (f p)) c = f p) ∧
      ∀ p ∈ l, f p ≤ l.foldl (fun acc p => max acc (f p)) c := by
  obtain ⟨-, h2, h3⟩ := foldl_max_spec f l c
  refine ⟨?_, h2⟩
  rcases h3 with h3 | h3
  · obtain ⟨a, ha⟩ := List.exists_mem_of_ne_nil l hne
    exact ⟨a, ha, le_antisymm (by rw [h3]; exact hc a ha) (h2 a ha)⟩
  · exact h3

theorem foldl_min_translate {α : Type} (f : α → K) (g : α → α) (t : K) (l : List α) (c : K)
    (hne : l ≠ []) (hfg : ∀ p, f (g p) = f p + t) (hc : ∀ p ∈ l, f p ≤ c)
    (hc2 : ∀ p ∈ l, f p + t ≤ c) :
    (l.map g).foldl (fun acc p => min acc (f p)) c =
      l.foldl (fun acc p => min acc (f p)) c + t := by
  have hne2 : l.map g ≠ [] := by simpa using hne
  obtain ⟨⟨p, hp, e1⟩, h1⟩ := foldl_min_least f l c hne hc
  obtain ⟨⟨q, hq, e2⟩, h2⟩ := foldl_min_least f (l.map g) c hne2 (by
    intro x hx
    obtain ⟨y, hy, rfl⟩ := List.mem_map.mp hx
    rw [hfg]; exact hc2 y hy)
  obtain ⟨y, hy, rfl⟩ := List.mem_map.mp hq
  apply le_antisymm
  · have := h2 (g p) (List.mem_map.mpr ⟨p, hp, rfl⟩)
    rw [hfg] at this
    rw [e1]; exact this
  · rw [e2, hfg]
    have := h1 y hy
    linarith

theorem foldl_max_translate {α : Type} (f : α → K) (g : α → α) (t : K) (l : List α) (c : K)
    (hne : l ≠ []) (hfg : ∀ p, f (g p) = f p + t) (hc : ∀ p ∈ l, c ≤ f p)
    (hc2 : ∀ p ∈ l, c ≤ f p + t) :
    (l.map g).foldl (fun acc p => max acc (f p)) c =
      l.foldl (fun acc p => max acc (f p)) c + t := by
  have hne2 : l.map g ≠ [] := by simpa using hne
  obtain ⟨⟨p, hp, e1⟩, h1⟩ := foldl_max_greatest f l c hne hc
  obtain ⟨⟨q, hq, e2⟩, h2⟩ := foldl_max_greatest f (l.map g) c hne2 (by
    intro x hx
    obtain ⟨y, hy, rfl⟩ := List.mem_map.mp hx
    rw [hfg]; exact hc2 y hy)
  obtain ⟨y, hy, rfl⟩ := List.mem_map.mp hq
  apply le_antisymm
  · rw [e2, hfg]
    have := h1 y hy
    linarith
  · have := h2 (g p) (List.mem_map.mpr ⟨p, hp, rfl⟩)
    rw [hfg] at this
    rw [e1]; exact this

/-- The six coordinates computed by the loop of `updateAABB`, as running minima and
maxima. -/
theorem aabbOf_coords (ps : List (Particle K)) :
    (aabbOf ps).1 = ⟨ps.foldl (fun acc p => min acc p.p.x) 1000000000,
      ps.foldl (fun acc p => min acc p.p.y) 1000000000,
      ps.foldl (fun acc p => min acc p.p.z) 1000000000⟩ ∧
    (aabbOf ps).2 = ⟨ps.foldl (fun acc p => max acc p.p.x) (-1000000000),
      ps.foldl (fun acc p => max acc p.p.y) (-1000000000),
      ps.foldl (fun acc p => max acc p.p.z) (-1000000000)⟩ := by
  unfold aabbOf Vec3.splat
  generalize (-1000000000 : K) = c2
  generalize (1000000000 : K) = c1
  suffices h : ∀ (l : List (Particle K)) (mn mx : Vec3 K),
      (l.foldl (fun acc p => (acc.1.vmin p.p, acc.2.vmax p.p)) (mn, mx)).1 =
        ⟨l.foldl (fun acc p => min acc p.p.x) mn.x, l.foldl (fun acc p => min acc p.p.y) mn.y,
          l.foldl (fun acc p => min acc p.p.z) mn.z⟩ ∧
      (l.foldl (fun acc p => (acc.1.vmin p.p, acc.2.vmax p.p)) (mn, mx)).2 =
        ⟨l.foldl (fun acc p => max acc p.p.x) mx.x, l.foldl (fun acc p => max acc p.p.y) mx.y,
          l.foldl (fun acc p => max acc p.p.z) mx.z⟩ from h ps ⟨c1, c1, c1⟩ ⟨c2, c2, c2⟩
  intro l
  induction l with
  | nil => intro mn mx; exact ⟨rfl, rfl⟩
  | cons a l ih =>
    intro mn mx
    simp only [List.foldl_cons]
    exact ih (mn.vmin a.p) (mx.vmax a.p)

/-- Translating every particle of a non-empty body by `T` translates the bounding box that
`updateAABB` computes by `T`, provided the coordinates stay within the start values of the
loop before and after. -/
theorem aabbOf_translate (ps : List (Particle K)) (g : Particle K → Particle K) (T : Vec3 K)
    (hg : ∀ p, (g p).p = p.p.add T) (hne : ps ≠ [])
    (h1 : ∀ p ∈ ps, p.p.InRange) (h2 : ∀ p ∈ ps, (g p).p.InRange) :
    (aabbOf (ps.map g)).1 = (aabbOf ps).1.add T ∧ (aabbOf (ps.map g)).2 = (aabbOf ps).2.add T := by
  have hx : ∀ p : Particle K, (g p).p.x = p.p.x + T.x := fun p => by rw [hg]; rfl
  have hy : ∀ p : Particle K, (g p).p.y = p.p.y + T.y := fun p => by rw [hg]; rfl
  have hz : ∀ p : Particle K, (g p).p.z = p.p.z + T.z := fun p => by rw [hg]; rfl
  rw [(aabbOf_coords (ps.map g)).1, (aabbOf_coords (ps.map g)).2, (aabbOf_coords ps).1,
    (aabbOf_coords ps).2]
  simp only [Vec3.add, Vec3.mk.injEq]
  refine ⟨⟨?_, ?_, ?_⟩, ⟨?_, ?_, ?_⟩⟩
  · exact foldl_min_translate (fun p : Particle K => p.p.x) g T.x ps _ hne hx
      (fun p hp => (h1 p hp).1.2) (fun p hp => by rw [← hx]; exact (h2 p hp).1.2)
  · exact foldl_min_translate (fun p : Particle K => p.p.y) g T.y ps _ hne hy
      (fun p hp => (h1 p hp).2.1.2) (fun p hp => by rw [← hy]; exact (h2 p hp).2.1.2)
  · exact foldl_min_translate (fun p : Particle K => p.p.z) g T.z ps _ hne hz
      (fun p hp => (h1 p hp).2.2.2) (fun p hp => by rw [← hz]; exact (h2 p hp).2.2.2)
  · exact foldl_max_translate (fun p : Particle K => p.p.x) g T.x ps _ hne hx
      (fun p hp => (h1 p hp).1.1) (fun p hp => by rw [← hx]; exact (h2 p hp).1.1)
  · exact foldl_max_translate (fun p : Particle K => p.p.y) g T.y ps _ hne hy
      (fun p hp => (h1 p hp).2.1.1) (fun p hp => by rw [← hy]; exact (h2 p hp).2.1.1)
  · exact foldl_max_translate (fun p : Particle K => p.p.z) g T.z ps _ hne hz
      (fun p hp => (h1 p hp).2.2.1) (fun p hp => by rw [← hz]; exact (h2 p hp).2.2.1)

theorem collideWith_eq_push (a o : Jelly K)
    (hov : aabbOverlap a.aabbMin a.aabbMax o.aabbMin o.aabbMax) :
    a.CollideWith o =
      (Jelly.updateAABB { a with particles := a.particles.map fun p =>
          { p with p := p.p.add (collidePush a.aabbMin a.aabbMax o.aabbMin o.aabbMax) } },
       Jelly.updateAABB { o with particles := o.particles.map fun p =>
          { p with p := p.p.sub (collidePush a.aabbMin a.aabbMax o.aabbMin o.aabbMax) } }) :=
  collideWith_of_overlap a o hov

/-- The bounding boxes after `CollideWith` are the boxes before, translated by the push and
by its opposite, when the boxes were up to date and all coordinates stay within the start
values of `updateAABB`. -/
theorem collideWith_aabb (a o : Jelly K)
    (hov : aabbOverlap a.aabbMin a.aabbMax o.aabbMin o.aabbMax)
    (hna : a.particles ≠ []) (hno : o.particles ≠ [])
    (hfa : a.aabbMin = (aabbOf a.particles).1 ∧ a.aabbMax = (aabbOf a.particles).2)
    (hfo : o.aabbMin = (aabbOf o.particles).1 ∧ o.aabbMax = (aabbOf o.particles).2)
    (hra : ∀ p ∈ a.particles, p.p.InRange) (hro : ∀ p ∈ o.particles, p.p.InRange)
    (hra2 : ∀ p ∈ (a.CollideWith o).1.particles, p.p.InRange)
    (hro2 : ∀ p ∈ (a.CollideWith o).2.particles, p.p.InRange) :
    (a.CollideWith o).1.aabbMin =
        a.aabbMin.add (collidePush a.aabbMin a.aabbMax o.aabbMin o.aabbMax) ∧
      (a.CollideWith o).1.aabbMax =
        a.aabbMax.add (collidePush a.aabbMin a.aabbMax o.aabbMin o.aabbMax) ∧
      (a.CollideWith o).2.aabbMin =
        o.aabbMin.sub (collidePush a.aabbMin a.aabbMax o.aabbMin o.aabbMax) ∧
      (a.CollideWith o).2.aabbMax =
        o.aabbMax.sub (collidePush a.aabbMin a.aabbMax o.aabbMin o.aabbMax) := by
  rw [collideWith_eq_push a o hov] at hra2 hro2 ⊢
  simp only [Jelly.updateAABB] at hra2 hro2 ⊢
  generalize collidePush a.aabbMin a.aabbMax o.aabbMin o.aabbMax = T at hra2 hro2 ⊢
  have hA := aabbOf_translate a.particles (fun p => { p with p := p.p.add T }) T
    (fun _ => rfl) hna hra (fun p hp => hra2 _ (List.mem_map.mpr ⟨p, hp, rfl⟩))
  have hsub : ∀ v : Vec3 K, v.sub T = v.add ⟨-T.x, -T.y, -T.z⟩ := by
    intro v
    rw [Vec3.ext_iff3]
    simp only [Vec3.sub, Vec3.add]
    refine ⟨by ring, by ring, by ring⟩
  have hO := aabbOf_translate o.particles (fun p => { p with p := p.p.sub T }) ⟨-T.x, -T.y, -T.z⟩
    (fun p => hsub p.p) hno hro (fun p hp => hro2 _ (List.mem_map.mpr ⟨p, hp, rfl⟩))
  rw [hA.1, hA.2, hO.1, hO.2, hsub, hsub, ← hfa.1, ← hfa.2, ← hfo.1, ← hfo.2]
  exact ⟨rfl, rfl, rfl, rfl⟩

theorem penetration_halved (amin amax bmin bmax : K) (h1 : amin ≤ bmax) :
    min ((amax + (if 1 / 2 * (amin + amax) - 1 / 2 * (bmin + bmax) > 0 then (1 : K) else -1) *
            (1 / 2 * min (amax - bmin) (bmax - amin)) * (1 / 2)) -
          (bmin - (if 1 / 2 * (amin + amax) - 1 / 2 * (bmin + bmax) > 0 then (1 : K) else -1) *
            (1 / 2 * min (amax - bmin) (bmax - amin)) * (1 / 2)))
        ((bmax - (if 1 / 2 * (amin + amax) - 1 / 2 * (bmin + bmax) > 0 then (1 : K) else -1) *
            (1 / 2 * min (amax - bmin) (bmax - amin)) * (1 / 2)) -
          (amin + (if 1 / 2 * (amin + amax) - 1 / 2 * (bmin + bmax) > 0 then (1 : K) else -1) *
            (1 / 2 * min (amax - bmin) (bmax - amin)) * (1 / 2))) =
      min (amax - bmin) (bmax - amin) / 2 := by
  by_cases hpos : 1 / 2 * (amin + amax) - 1 / 2 * (bmin + bmax) > 0
  · rw [if_pos hpos]
    have hPQ : bmax - amin ≤ amax - bmin := by linarith
    rw [min_eq_right hPQ, min_eq_right (by linarith)]
    ring
  · rw [if_neg hpos]
    have hPQ : amax - bmin ≤ bmax - amin := by linarith
    rw [min_eq_left hPQ, min_eq_left (by linarith)]
    ring

end BoundingBox

section BoundingBoxEvaluations

end BoundingBoxEvaluations

section Containment

variable {K : Type} [LinearOrderedField K]

/-- Every coordinate of a vector is bounded by a length that does not underestimate. -/
theorem Vec3.abs_coord_le_length (m : MathFns K) (hsu : m.SqrtUpper) (v : Vec3 K) :
    0 ≤ Vec3.length m v ∧ |v.x| ≤ Vec3.length m v ∧ |v.y| ≤ Vec3.length m v ∧
      |v.z| ≤ Vec3.length m v := by
  have hl2 : 0 ≤ v.length2 := by
    unfold Vec3.length2
    nlinarith [mul_self_nonneg v.x, mul_self_nonneg v.y, mul_self_nonneg v.z]
  obtain ⟨h0, h1⟩ := hsu v.length2 hl2
  unfold Vec3.length
  generalize m.sqrt v.length2 = r at h0 h1
  unfold Vec3.length2 at h1
  refine ⟨h0, ?_, ?_, ?_⟩
  · apply abs_le_of_sq_le_sq _ h0
    nlinarith [mul_self_nonneg v.y, mul_self_nonneg v.z]
  · apply abs_le_of_sq_le_sq _ h0
    nlinarith [mul_self_nonneg v.x, mul_self_nonneg v.z]
  · apply abs_le_of_sq_le_sq _ h0
    nlinarith [mul_self_nonneg v.x, mul_self_nonneg v.y]

theorem clamp_scalar_bound (c len maxStep : K) (hc : |c| ≤ len) (hmax : 0 ≤ maxStep) :
    |c * (maxStep / max len (1 / 100000000))| ≤ maxStep := by
  have hM : 0 < max len (1 / 100000000) := lt_of_lt_of_le (by norm_num) (le_max_right _ _)
  have hf : 0 ≤ maxStep / max len (1 / 100000000) := div_nonneg hmax hM.le
  rw [abs_mul, abs_of_nonneg hf]
  have h1 : |c| * (maxStep / max len (1 / 100000000)) ≤
      max len (1 / 100000000) * (maxStep / max len (1 / 100000000)) :=
    mul_le_mul_of_nonneg_right (le_trans hc (le_max_left _ _)) hf
  have h2 : max len (1 / 100000000) * (maxStep / max len (1 / 100000000)) = maxStep := by
    field_simp
  linarith

/-- The correction applied by one relaxation has every coordinate bounded by
`maxStep = 0.2 * rest`. -/
theorem clamped_correction_bound (m : MathFns K) (hsu : m.SqrtUpper) (corr : Vec3 K)
    (maxStep : K) (hmax : 0 ≤ maxStep) :
    |(if Vec3.length m corr > maxStep then
        corr.scale (maxStep / max (Vec3.length m corr) (1 / 100000000)) else corr).x| ≤ maxStep ∧
    |(if Vec3.length m corr > maxStep then
        corr.scale (maxStep / max (Vec3.length m corr) (1 / 100000000)) else corr).y| ≤ maxStep ∧
    |(if Vec3.length m corr > maxStep then
        corr.scale (maxStep / max (Vec3.length m corr) (1 / 100000000)) else corr).z| ≤ maxStep := by
  obtain ⟨h0, hx, hy, hz⟩ := Vec3.abs_coord_le_length m hsu corr
  split_ifs with hc
  · simp only [Vec3.scale]
    exact ⟨clamp_scalar_bound _ _ _ hx hmax, clamp_scalar_bound _ _ _ hy hmax,
      clamp_scalar_bound _ _ _ hz hmax⟩
  · push_neg at hc
    exact ⟨le_trans hx hc, le_trans hy hc, le_trans hz hc⟩

theorem weight_bound (w1 w2 c B : K) (h1 : 0 ≤ w1) (h2 : 0 ≤ w2) (hw : 0 < w1 + w2)
    (hc : |c| ≤ B) : |w1 / (w1 + w2) * c| ≤ B ∧ |w2 / (w1 + w2) * c| ≤ B := by
  have hB : 0 ≤ B := le_trans (abs_nonneg _) hc
  have key : ∀ w : K, 0 ≤ w → w ≤ w1 + w2 → |w / (w1 + w2) * c| ≤ B := by
    intro w hw0 hwle
    have hq0 : 0 ≤ w / (w1 + w2) := div_nonneg hw0 hw.le
    have hq1 : w / (w1 + w2) ≤ 1 := (div_le_one hw).mpr hwle
    rw [abs_mul, abs_of_nonneg hq0]
    calc w / (w1 + w2) * |c| ≤ 1 * |c| := mul_le_mul_of_nonneg_right hq1 (abs_nonneg _)
      _ = |c| := one_mul _
      _ ≤ B := hc
  exact ⟨key w1 h1 (by linarith), key w2 h2 (by linarith)⟩

theorem Vec3.near_refl (v : Vec3 K) (B : K) (hB : 0 ≤ B) : Vec3.Near v v B := by
  unfold Vec3.Near
  simp [hB]

theorem Vec3.near_trans (u v w : Vec3 K) (B C : K) (h1 : Vec3.Near u v B)
    (h2 : Vec3.Near v w C) : Vec3.Near u w (C + B) := by
  unfold Vec3.Near at *
  obtain ⟨a1, a2, a3⟩ := h1
  obtain ⟨b1, b2, b3⟩ := h2
  simp only [abs_le] at *
  refine ⟨⟨?_, ?_⟩, ⟨?_, ?_⟩, ⟨?_, ?_⟩⟩ <;> linarith

theorem mem_pset (ps : List (Particle K)) (i : Int) (q p : Particle K)
    (h : p ∈ pset ps i q) : p ∈ ps ∨ p = q := by
  unfold pset at h
  split_ifs at h
  · exact Or.inl h
  · exact List.mem_or_eq_of_mem_set h

theorem massNonneg_pget (ps : List (Particle K)) (h : ∀ p ∈ ps, 0 ≤ p.invMass) (j : Int) :
    0 ≤ (pget ps j).invMass := by
  unfold pget
  split_ifs
  · simp
  · rw [List.getD_eq_getElem?_getD]
    cases hj : ps[j.toNat]? with
    | none => simp
    | some q =>
      simp only [Option.getD_some]
      exact h q (List.getElem?_mem hj)

theorem near_sub_smul (v c : Vec3 K) (q B : K) (hx : |q * c.x| ≤ B) (hy : |q * c.y| ≤ B)
    (hz : |q * c.z| ≤ B) : Vec3.Near (v.sub (Vec3.smul q c)) v B := by
  unfold Vec3.Near
  simp only [Vec3.sub, Vec3.smul]
  refine ⟨?_, ?_, ?_⟩
  · rw [show v.x - q * c.x - v.x = -(q * c.x) by ring, abs_neg]; exact hx
  · rw [show v.y - q * c.y - v.y = -(q * c.y) by ring, abs_neg]; exact hy
  · rw [show v.z - q * c.z - v.z = -(q * c.z) by ring, abs_neg]; exact hz

theorem near_add_smul (v c : Vec3 K) (q B : K) (hx : |q * c.x| ≤ B) (hy : |q * c.y| ≤ B)
    (hz : |q * c.z| ≤ B) : Vec3.Near (v.add (Vec3.smul q c)) v B := by
  unfold Vec3.Near
  simp only [Vec3.add, Vec3.smul]
  refine ⟨?_, ?_, ?_⟩
  · rw [show v.x + q * c.x - v.x = q * c.x by ring]; exact hx
  · rw [show v.y + q * c.y - v.y = q * c.y by ring]; exact hy
  · rw [show v.z + q * c.z - v.z = q * c.z by ring]; exact hz

/-- One relaxation moves an endpoint of the spring by at most `0.2 * rest` in every
coordinate, moves no other particle, and keeps the inverse masses non-negative. -/
theorem relaxSpring_near (m : MathFns K) (hsu : m.SqrtUpper) (kIter : K)
    (ps : List (Particle K)) (s : Spring K) (i : Int) (hrest : 0 ≤ s.rest)
    (hmass : ∀ p ∈ ps, 0 ≤ p.invMass) :
    Vec3.Near (pget (relaxSpring m kIter ps s) i).p (pget ps i).p
        (if s.i = i ∨ s.j = i then maxCorrFrac * s.rest else 0) ∧
      ∀ p ∈ relaxSpring m kIter ps s, 0 ≤ p.invMass := by
  have hmax : (0 : K) ≤ maxCorrFrac * s.rest := by unfold maxCorrFrac; positivity
  have hB : (0 : K) ≤ (if s.i = i ∨ s.j = i then maxCorrFrac * s.rest else 0) := by
    split_ifs
    · exact hmax
    · exact le_refl 0
  unfold relaxSpring
  dsimp only
  by_cases hl2 : ((pget ps s.j).p.sub (pget ps s.i).p).length2 < 1 / 1000000000000
  · rw [if_pos hl2]
    exact ⟨Vec3.near_refl _ _ hB, hmass⟩
  rw [if_neg hl2]
  by_cases hw : (pget ps s.i).invMass + (pget ps s.j).invMass ≤ 0
  · rw [if_pos hw]
    exact ⟨Vec3.near_refl _ _ hB, hmass⟩
  rw [if_neg hw]
  push_neg at hw
  have hne : s.i ≠ s.j := by
    intro heq
    apply hl2
    rw [heq, Vec3.length2_sub_self]
    norm_num
  obtain ⟨cx, cy, cz⟩ := clamped_correction_bound m hsu
    (((pget ps s.j).p.sub (pget ps s.i).p).scale
      (kIter * ((m.sqrt ((pget ps s.j).p.sub (pget ps s.i).p).length2 - s.rest) /
        m.sqrt ((pget ps s.j).p.sub (pget ps s.i).p).length2))) (maxCorrFrac * s.rest) hmax
  generalize (if Vec3.length m (((pget ps s.j).p.sub (pget ps s.i).p).scale
      (kIter * ((m.sqrt ((pget ps s.j).p.sub (pget ps s.i).p).length2 - s.rest) /
        m.sqrt ((pget ps s.j).p.sub (pget ps s.i).p).length2))) > maxCorrFrac * s.rest then
      (((pget ps s.j).p.sub (pget ps s.i).p).scale
      (kIter * ((m.sqrt ((pget ps s.j).p.sub (pget ps s.i).p).length2 - s.rest) /
        m.sqrt ((pget ps s.j).p.sub (pget ps s.i).p).length2))).scale
        (maxCorrFrac * s.rest / max (Vec3.length m (((pget ps s.j).p.sub (pget ps s.i).p).scale
      (kIter * ((m.sqrt ((pget ps s.j).p.sub (pget ps s.i).p).length2 - s.rest) /
        m.sqrt ((pget ps s.j).p.sub (pget ps s.i).p).length2)))) (1 / 100000000))
      else ((pget ps s.j).p.sub (pget ps s.i).p).scale
      (kIter * ((m.sqrt ((pget ps s.j).p.sub (pget ps s.i).p).length2 - s.rest) /
        m.sqrt ((pget ps s.j).p.sub (pget ps s.i).p).length2))) = c at cx cy cz ⊢
  have hwi := massNonneg_pget ps hmass s.i
  have hwj := massNonneg_pget ps hmass s.j
  have wx := weight_bound _ _ c.x _ hwi hwj hw cx
  have wy := weight_bound _ _ c.y _ hwi hwj hw cy
  have wz := weight_bound _ _ c.z _ hwi hwj hw cz
  constructor
  · rw [pget_pset, pget_pset_ne _ _ _ _ hne]
    by_cases hj : s.j = i
    · subst hj
      rw [if_pos (Or.inr rfl)]
      split_ifs
      · exact near_sub_smul _ _ _ _ wx.2 wy.2 wz.2
      · rw [pget_pset_ne _ _ _ _ hne]
        exact Vec3.near_refl _ _ hmax
    · rw [if_neg (fun h => hj h.1), pget_pset]
      by_cases hi : s.i = i
      · subst hi
        rw [if_pos (Or.inl rfl)]
        split_ifs
        · exact near_add_smul _ _ _ _ wx.1 wy.1 wz.1
        · exact Vec3.near_refl _ _ hmax
      · rw [if_neg (fun h => hi h.1)]
        exact Vec3.near_refl _ _ hB
  · intro p hp
    rcases mem_pset _ _ _ _ hp with hp | hp
    · rcases mem_pset _ _ _ _ hp with hp | hp
      · exact hmass p hp
      · rw [hp]; exact hwi
    · rw [hp, pget_pset_ne _ _ _ _ hne]
      exact hwj

theorem incidentRest_nonneg (springs : List (Spring K)) (i : Int)
    (h : ∀ s ∈ springs, 0 ≤ s.rest) : 0 ≤ incidentRest springs i := by
  induction springs with
  | nil => simp [incidentRest]
  | cons s ss ih =>
    unfold incidentRest
    have h1 := h s (by simp)
    have h2 := ih (fun t ht => h t (by simp [ht]))
    split_ifs <;> linarith

/-- One pass over the springs moves particle `i` by at most `0.2` times the sum of the rest
lengths of its springs, in every coordinate. -/
theorem foldl_relaxSpring_near (m : MathFns K) (hsu : m.SqrtUpper) (kIter : K)
    (springs : List (Spring K)) (ps : List (Particle K)) (i : Int)
    (hrest : ∀ s ∈ springs, 0 ≤ s.rest) (hmass : ∀ p ∈ ps, 0 ≤ p.invMass) :
    Vec3.Near (pget (springs.foldl (relaxSpring m kIter) ps) i).p (pget ps i).p
      (maxCorrFrac * incidentRest springs i) := by
  induction springs generalizing ps with
  | nil =>
    simp only [List.foldl_nil, incidentRest, mul_zero]
    exact Vec3.near_refl _ _ (le_refl 0)
  | cons s ss ih =>
    simp only [List.foldl_cons]
    obtain ⟨h1, h2⟩ := relaxSpring_near m hsu kIter ps s i (hrest s (by simp)) hmass
    have h3 := ih (relaxSpring m kIter ps s) (fun t ht => hrest t (by simp [ht])) h2
    have h4 := Vec3.near_trans _ _ _ _ _ h3 h1
    have e : maxCorrFrac * incidentRest (s :: ss) i =
        (if s.i = i ∨ s.j = i then maxCorrFrac * s.rest else 0) +
          maxCorrFrac * incidentRest ss i := by
      rw [show incidentRest (s :: ss) i =
        (if s.i = i ∨ s.j = i then s.rest else 0) + incidentRest ss i from rfl]
      split_ifs <;> ring
    rw [e]
    exact h4

theorem collideFloor_pos (box : Container K) (cp : Vec3 K × Vec3 K) :
    box.min.y ≤ (collideFloor box cp).1.y ∧ (collideFloor box cp).1.x = cp.1.x ∧
      (collideFloor box cp).1.z = cp.1.z := by
  have hE : (0 : K) < EPS := by unfold EPS; norm_num
  unfold collideFloor
  dsimp only
  split_ifs with h
  · exact ⟨by simp only []; linarith, rfl, rfl⟩
  · exact ⟨not_lt.mp h, rfl, rfl⟩

theorem collideX_pos (box : Container K) (cp : Vec3 K × Vec3 K) :
    (collideX box cp).1.y = cp.1.y ∧ (collideX box cp).1.z = cp.1.z ∧
      (box.min.x ≤ box.max.x →
        box.min.x - EPS ≤ (collideX box cp).1.x ∧ (collideX box cp).1.x ≤ box.max.x + EPS) := by
  have hE : (0 : K) < EPS := by unfold EPS; norm_num
  unfold collideX bounceX
  dsimp only
  split_ifs with h1 h2
  · exact ⟨rfl, rfl, fun hb => ⟨by simp only []; linarith, by simp only []; linarith⟩⟩
  · exact ⟨rfl, rfl, fun hb => ⟨by simp only []; linarith, by simp only []; linarith⟩⟩
  · push_neg at h1 h2
    exact ⟨rfl, rfl, fun _ => ⟨by linarith, by linarith⟩⟩

theorem collideZ_pos (box : Container K) (cp : Vec3 K × Vec3 K) :
    (collideZ box cp).1.x = cp.1.x ∧ (collideZ box cp).1.y = cp.1.y ∧
      (box.min.z ≤ box.max.z →
        box.min.z - EPS ≤ (collideZ box cp).1.z ∧ (collideZ box cp).1.z ≤ box.max.z + EPS) := by
  have hE : (0 : K) < EPS := by unfold EPS; norm_num
  unfold collideZ bounceZ
  dsimp only
  split_ifs with h1 h2
  · exact ⟨rfl, rfl, fun hb => ⟨by simp only []; linarith, by simp only []; linarith⟩⟩
  · exact ⟨rfl, rfl, fun hb => ⟨by simp only []; linarith, by simp only []; linarith⟩⟩
  · push_neg at h1 h2
    exact ⟨rfl, rfl, fun _ => ⟨by linarith, by linarith⟩⟩

/-- After the container collision of one particle: the position is on or above the floor,
and within `EPS` of the x and z walls when the container is not inverted on that axis; the
inverse mass is unchanged. -/
theorem collideParticle_contained (box : Container K) (p : Particle K) :
    box.min.y ≤ (collideParticle box p).p.y ∧
    (box.min.x ≤ box.max.x →
      box.min.x - EPS ≤ (collideParticle box p).p.x ∧
        (collideParticle box p).p.x ≤ box.max.x + EPS) ∧
    (box.min.z ≤ box.max.z →
      box.min.z - EPS ≤ (collideParticle box p).p.z ∧
        (collideParticle box p).p.z ≤ box.max.z + EPS) ∧
    (collideParticle box p).invMass = p.invMass := by
  unfold collideParticle
  dsimp only
  obtain ⟨f1, -, -⟩ := collideFloor_pos box (p.p, p.prev)
  obtain ⟨x1, -, x3⟩ := collideX_pos box (collideFloor box (p.p, p.prev))
  obtain ⟨z1, z2, z3⟩ := collideZ_pos box (collideX box (collideFloor box (p.p, p.prev)))
  refine ⟨?_, ?_, z3, rfl⟩
  · rw [z2, x1]; exact f1
  · intro hb
    rw [z1]; exact x3 hb

theorem forN_succ_last {σ : Type} (n : Nat) (body : σ → σ) (s : σ) :
    forN (n + 1) body s = body (forN n body s) := by
  induction n generalizing s with
  | zero => rfl
  | succ n ih =>
    show forN (n + 1) body (body s) = body (forN (n + 1) body s)
    rw [ih (body s)]
    rfl

theorem pget_map (ps : List (Particle K)) (f : Particle K → Particle K) (i : Int)
    (hi : 0 ≤ i ∧ i < ps.length) : pget (ps.map f) i = f (pget ps i) := by
  have hlt : i.toNat < ps.length := by omega
  unfold pget
  rw [if_neg (by omega), if_neg (by omega)]
  simp [List.getD_eq_getElem?_getD, hlt]

theorem foldl_relaxSpring_mass (m : MathFns K) (hsu : m.SqrtUpper) (kIter : K)
    (springs : List (Spring K)) (ps : List (Particle K))
    (hrest : ∀ s ∈ springs, 0 ≤ s.rest) (hmass : ∀ p ∈ ps, 0 ≤ p.invMass) :
    ∀ p ∈ springs.foldl (relaxSpring m kIter) ps, 0 ≤ p.invMass := by
  induction springs generalizing ps with
  | nil => exact hmass
  | cons s ss ih =>
    simp only [List.foldl_cons]
    exact ih _ (fun t ht => hrest t (by simp [ht]))
      (relaxSpring_near m hsu kIter ps s 0 (hrest s (by simp)) hmass).2

/-- The body of the loop of `Update` keeps the springs, the number of particles and the
non-negativity of the inverse masses. -/
theorem update_pass_inv (m : MathFns K) (hsu : m.SqrtUpper) (box : Container K)
    (b c : Jelly K) (hrest : ∀ s ∈ b.springs, 0 ≤ s.rest)
    (h : c.springs = b.springs ∧ c.particles.length = b.particles.length ∧
      ∀ p ∈ c.particles, 0 ≤ p.invMass) :
    ((c.collideWithContainer box).satisfyConstraints m 1).springs = b.springs ∧
      ((c.collideWithContainer box).satisfyConstraints m 1).particles.length =
        b.particles.length ∧
      ∀ p ∈ ((c.collideWithContainer box).satisfyConstraints m 1).particles, 0 ≤ p.invMass := by
  obtain ⟨h1, h2, h3⟩ := h
  have hf := satisfyConstraints_frame m 1 (c.collideWithContainer box)
  refine ⟨by rw [hf.1]; exact h1, by rw [hf.2]; simpa [Jelly.collideWithContainer] using h2, ?_⟩
  unfold Jelly.satisfyConstraints Jelly.collideWithContainer
  simp only [forN]
  apply foldl_relaxSpring_mass m hsu
  · rw [h1]; exact hrest
  · intro p hp
    obtain ⟨q, hq, rfl⟩ := List.mem_map.mp hp
    rw [(collideParticle_contained box q).2.2.2]
    exact h3 q hq

end Containment

section ContainmentEvaluations

end ContainmentEvaluations

section RealInstance

/-- Over the reals the square root hypotheses of the theorems hold for the real square
root. -/
theorem real_sqrt_hypotheses (m : MathFns ℝ) (h : m.sqrt = Real.sqrt) :
    m.SqrtExact ∧ m.SqrtUpper := by
  constructor
  · intro x hx
    rw [h]
    exact Real.sqrt_mul_self hx
  · intro x hx
    rw [h]
    exact ⟨Real.sqrt_nonneg x, le_of_eq (Real.mul_self_sqrt hx).symm⟩

/-- Over the reals the hypotheses on `pow(1 - k_total, 1 / N)` hold for the real power
function and every `N >= 1`. -/
theorem real_pow_hypotheses (m : MathFns ℝ) (h : m.pow = fun a e => a ^ e) (N : Nat)
    (hN : 1 ≤ N) :
    0 < m.pow (1 - k_total) (1 / (N : ℝ)) ∧ m.pow (1 - k_total) (1 / (N : ℝ)) ≤ 1 ∧
      m.pow (1 - k_total) (1 / (N : ℝ)) ^ N = 1 - k_total := by
  have hk : (0 : ℝ) < 1 - k_total := by unfold k_total; norm_num
  have hk1 : (1 : ℝ) - k_total ≤ 1 := by unfold k_total; norm_num
  rw [h]
  simp only
  refine ⟨Real.rpow_pos_of_pos hk _, ?_, ?_⟩
  · exact Real.rpow_le_one hk.le hk1 (by positivity)
  · rw [one_div]
    exact Real.rpow_inv_natCast_pow hk.le (by omega)

/-- A positive square root of `1 - k_total = 0.4` lies between `1/5` and `1`. -/
theorem real_root_bounds (r : ℝ) (h0 : 0 < r) (h2 : r ^ 2 = 1 - k_total) :
    1 / 5 ≤ r ∧ r ≤ 1 := by
  unfold k_total at h2
  constructor <;> nlinarith

end RealInstance

section ConvergenceRealEvaluation

/-- Witness of C4 as amended.  Over the rationals with `N = 1`, and over the reals with
`N = 2`, the real square root and the real power function: `k_iter = 1 - sqrt(0.4)` is
applied twice to the spring of `stretchedPair` (rest `4/5`, length `1`) and leaves the stretch
`0.4 * 0.2`. -/
theorem satisfyConstraints_removes_k_total_witness :
    Vec3.length qMath ((pget (stretchedPair.satisfyConstraints qMath 1).particles 1).p.sub
        (pget (stretchedPair.satisfyConstraints qMath 1).particles 0).p) - 4 / 5 =
      (1 - k_total) * (1 - 4 / 5) ∧
    Vec3.length (⟨Real.sqrt, fun a e => a ^ e, Real.sin⟩ : MathFns ℝ)
        ((pget ((stretchedPairOver ℝ).satisfyConstraints
          (⟨Real.sqrt, fun a e => a ^ e, Real.sin⟩ : MathFns ℝ) 2).particles 1).p.sub
        (pget ((stretchedPairOver ℝ).satisfyConstraints
          (⟨Real.sqrt, fun a e => a ^ e, Real.sin⟩ : MathFns ℝ) 2).particles 0).p) - 4 / 5 =
      (1 - k_total) * (1 - 4 / 5) := by
  have hp := real_pow_hypotheses (⟨Real.sqrt, fun a e => a ^ e, Real.sin⟩ : MathFns ℝ) rfl 2
    (by norm_num)
  have hb := real_root_bounds _ hp.1 hp.2.2
  constructor
  · exact satisfyConstraints_removes_k_total qMath 1 stretchedPair ⟨0, 1, 4 / 5, 1⟩ 1
      qMath_sqrtExact (le_refl 1) (by decide!) (by decide!) rfl (by decide!) (by decide!)
      (by decide!) (by decide!) (by decide!) (by decide!) (by decide!) (by decide!) (by decide!)
      (by decide!)
  · exact satisfyConstraints_removes_k_total
      (⟨Real.sqrt, fun a e => a ^ e, Real.sin⟩ : MathFns ℝ) 2 (stretchedPairOver ℝ)
      ⟨0, 1, 4 / 5, 1⟩ 1 (real_sqrt_hypotheses _ rfl).1 (by norm_num) hp.1 hp.2.2 rfl
      (by simp [stretchedPairOver]) (by simp [stretchedPairOver])
      (by simp [stretchedPairOver, pget]) (by simp [stretchedPairOver, pget])
      (by simp [stretchedPairOver, pget]) (by norm_num) (by norm_num)
      (by simp [stretchedPairOver, pget, Vec3.sub, Vec3.length2])
      (by
        unfold k_iter maxCorrFrac
        have := hb.1
        simp only [Nat.cast_ofNat] at this ⊢
        nlinarith)
      (by
        unfold k_iter
        have := hb.1
        simp only [Nat.cast_ofNat] at this ⊢
        norm_num
        nlinarith)

end ConvergenceRealEvaluation

section ContainerResponse

variable {K : Type} [LinearOrderedField K]

theorem collideX_inside (box : Container K) (cp : Vec3 K × Vec3 K)
    (h : box.min.x ≤ cp.1.x ∧ cp.1.x ≤ box.max.x) : collideX box cp = cp := by
  unfold collideX
  rw [if_neg (not_lt.mpr h.1), if_neg (not_lt.mpr h.2)]

theorem collideZ_inside (box : Container K) (cp : Vec3 K × Vec3 K)
    (h : box.min.z ≤ cp.1.z ∧ cp.1.z ≤ box.max.z) : collideZ box cp = cp := by
  unfold collideZ
  rw [if_neg (not_lt.mpr h.1), if_neg (not_lt.mpr h.2)]

theorem collideFloor_above (box : Container K) (cp : Vec3 K × Vec3 K)
    (h : box.min.y ≤ cp.1.y) : collideFloor box cp = cp := by
  unfold collideFloor
  rw [if_neg (not_lt.mpr h)]

theorem collideParticle_inside (box : Container K) (p : Particle K)
    (hy : box.min.y ≤ p.p.y) (hx : box.min.x ≤ p.p.x ∧ p.p.x ≤ box.max.x)
    (hz : box.min.z ≤ p.p.z ∧ p.p.z ≤ box.max.z) : collideParticle box p = p := by
  unfold collideParticle
  rw [collideFloor_above box _ hy, collideX_inside box _ hx, collideZ_inside box _ hz]

/-- C11 (floor response).  A particle below the floor whose x and z lie within the walls
is put at height `min.y + EPS`, x and z unchanged; with `v` the clamped position minus the
previous position, the new previous position is the new position minus
`(v.x * (1 - friction), -v.y * (1 - restitution), v.z * (1 - friction))`.  Hence the new
implicit velocity has y component `0` when `restitution = 1` and `-v.y` when
`restitution = 0`.  Accumulated acceleration and inverse mass are not touched. -/
theorem collideWithContainer_floor_response (box : Container K) (b : Jelly K) (i : Int)
    (hi : 0 ≤ i ∧ i < b.particles.length)
    (hy : (pget b.particles i).p.y < box.min.y)
    (hx : box.min.x ≤ (pget b.particles i).p.x ∧ (pget b.particles i).p.x ≤ box.max.x)
    (hz : box.min.z ≤ (pget b.particles i).p.z ∧ (pget b.particles i).p.z ≤ box.max.z) :
    let p := pget b.particles i
    let q := pget (b.collideWithContainer box).particles i
    let v := q.p.sub p.prev
    q.p = ⟨p.p.x, box.min.y + EPS, p.p.z⟩ ∧
    q.prev = q.p.sub
      ⟨v.x * (1 - box.friction), -v.y * (1 - box.restitution), v.z * (1 - box.friction)⟩ ∧
    (box.restitution = 1 → (q.p.sub q.prev).y = 0) ∧
    (box.restitution = 0 → (q.p.sub q.prev).y = -v.y) ∧
    q.a = p.a ∧ q.invMass = p.invMass := by
  intro p q v
  have hq : q = collideParticle box p := pget_map b.particles (collideParticle box) i hi
  have hfl : collideParticle box p =
      { p with p := ⟨p.p.x, box.min.y + EPS, p.p.z⟩,
               prev := (⟨p.p.x, box.min.y + EPS, p.p.z⟩ : Vec3 K).sub
                 ⟨((⟨p.p.x, box.min.y + EPS, p.p.z⟩ : Vec3 K).sub p.prev).x * (1 - box.friction),
                  -((⟨p.p.x, box.min.y + EPS, p.p.z⟩ : Vec3 K).sub p.prev).y *
                    (1 - box.restitution),
                  ((⟨p.p.x, box.min.y + EPS, p.p.z⟩ : Vec3 K).sub p.prev).z *
                    (1 - box.friction)⟩ } := by
    unfold collideParticle
    have h1 : collideFloor box (p.p, p.prev) =
        ((⟨p.p.x, box.min.y + EPS, p.p.z⟩ : Vec3 K),
          (⟨p.p.x, box.min.y + EPS, p.p.z⟩ : Vec3 K).sub
            ⟨((⟨p.p.x, box.min.y + EPS, p.p.z⟩ : Vec3 K).sub p.prev).x * (1 - box.friction),
             -((⟨p.p.x, box.min.y + EPS, p.p.z⟩ : Vec3 K).sub p.prev).y *
               (1 - box.restitution),
             ((⟨p.p.x, box.min.y + EPS, p.p.z⟩ : Vec3 K).sub p.prev).z *
               (1 - box.friction)⟩) := by
      unfold collideFloor
      rw [if_pos hy]
    rw [h1, collideX_inside box _ hx, collideZ_inside box _ hz]
  have hp : q.p = ⟨p.p.x, box.min.y + EPS, p.p.z⟩ := by rw [hq, hfl]
  have hv : v = (⟨p.p.x, box.min.y + EPS, p.p.z⟩ : Vec3 K).sub p.prev := by
    show q.p.sub p.prev = _
    rw [hp]
  have hprev : q.prev = q.p.sub
      ⟨v.x * (1 - box.friction), -v.y * (1 - box.restitution), v.z * (1 - box.friction)⟩ := by
    rw [hp, hv, hq, hfl]
  refine ⟨hp, hprev, ?_, ?_, by rw [hq, hfl], by rw [hq, hfl]⟩
  · intro hr
    rw [hprev, hr]
    simp [Vec3.sub]
  · intro hr
    rw [hprev, hr]
    simp [Vec3.sub]

/-- C12 (open top).  A particle on or above the floor whose x and z lie within the walls is
left unchanged by `collideWithContainer`, position and previous position included; no
hypothesis bounds its height from above, so `box.max.y` plays no part. -/
theorem collideWithContainer_open_top (box : Container K) (b : Jelly K) (i : Int)
    (hi : 0 ≤ i ∧ i < b.particles.length)
    (hy : box.min.y ≤ (pget b.particles i).p.y)
    (hx : box.min.x ≤ (pget b.particles i).p.x ∧ (pget b.particles i).p.x ≤ box.max.x)
    (hz : box.min.z ≤ (pget b.particles i).p.z ∧ (pget b.particles i).p.z ≤ box.max.z) :
    pget (b.collideWithContainer box).particles i = pget b.particles i := by
  show pget (b.particles.map (collideParticle box)) i = _
  rw [pget_map b.particles (collideParticle box) i hi]
  exact collideParticle_inside box _ hy hx hz

end ContainerResponse

section ContainerProjection

variable {K : Type} [LinearOrderedField K]

theorem collideFloor_clamp (box : Container K) (cp : Vec3 K × Vec3 K) :
    (collideFloor box cp).1.y = (if cp.1.y < box.min.y then box.min.y + EPS else cp.1.y) := by
  unfold collideFloor
  dsimp only
  split_ifs <;> rfl

theorem collideX_clamp (box : Container K) (cp : Vec3 K × Vec3 K) :
    (collideX box cp).1.x =
      (if cp.1.x < box.min.x then box.min.x + EPS
       else if cp.1.x > box.max.x then box.max.x - EPS else cp.1.x) := by
  unfold collideX bounceX
  dsimp only
  split_ifs <;> rfl

theorem collideZ_clamp (box : Container K) (cp : Vec3 K × Vec3 K) :
    (collideZ box cp).1.z =
      (if cp.1.z < box.min.z then box.min.z + EPS
       else if cp.1.z > box.max.z then box.max.z - EPS else cp.1.z) := by
  unfold collideZ bounceZ
  dsimp only
  split_ifs <;> rfl

/-- The position that `collideWithContainer` gives one particle, coordinate by coordinate. -/
theorem collideParticle_pos (box : Container K) (p : Particle K) :
    (collideParticle box p).p.y = (if p.p.y < box.min.y then box.min.y + EPS else p.p.y) ∧
    (collideParticle box p).p.x =
      (if p.p.x < box.min.x then box.min.x + EPS
       else if p.p.x > box.max.x then box.max.x - EPS else p.p.x) ∧
    (collideParticle box p).p.z =
      (if p.p.z < box.min.z then box.min.z + EPS
       else if p.p.z > box.max.z then box.max.z - EPS else p.p.z) := by
  unfold collideParticle
  dsimp only
  obtain ⟨-, f2, f3⟩ := collideFloor_pos box (p.p, p.prev)
  obtain ⟨x1, x2, -⟩ := collideX_pos box (collideFloor box (p.p, p.prev))
  obtain ⟨z1, z2, -⟩ := collideZ_pos box (collideX box (collideFloor box (p.p, p.prev)))
  refine ⟨?_, ?_, ?_⟩
  · rw [z2, x1, collideFloor_clamp]
  · rw [z1, collideX_clamp, f2]
  · rw [collideZ_clamp, x2, f3]

theorem clamp_inside (lo hi x : K) (h : lo + EPS ≤ hi) :
    lo ≤ (if x < lo then lo + EPS else if x > hi then hi - EPS else x) ∧
      (if x < lo then lo + EPS else if x > hi then hi - EPS else x) ≤ hi := by
  have hE : (0 : K) < EPS := by unfold EPS; norm_num
  split_ifs with h1 h2
  · exact ⟨by linarith, h⟩
  · exact ⟨by linarith, by linarith⟩
  · exact ⟨not_lt.mp h1, not_lt.mp h2⟩

/-- C16 (container projection).  When the container is at least `EPS` wide along x and z,
every particle is, after `collideWithContainer`, on or above the floor and between the x
walls and the z walls.  A coordinate that violated a bound is set to that bound inset by
`EPS` towards the inside, and a coordinate that violated none keeps its value. -/
theorem collideWithContainer_projects (box : Container K) (b : Jelly K)
    (hx : box.min.x + EPS ≤ box.max.x) (hz : box.min.z + EPS ≤ box.max.z) :
    (∀ q ∈ (b.collideWithContainer box).particles,
      box.min.y ≤ q.p.y ∧ (box.min.x ≤ q.p.x ∧ q.p.x ≤ box.max.x) ∧
        (box.min.z ≤ q.p.z ∧ q.p.z ≤ box.max.z)) ∧
    ∀ i : Int, 0 ≤ i ∧ i < b.particles.length →
      let p := pget b.particles i
      let q := pget (b.collideWithContainer box).particles i
      (p.p.y < box.min.y → q.p.y = box.min.y + EPS) ∧
      (p.p.x < box.min.x → q.p.x = box.min.x + EPS) ∧
      (box.max.x < p.p.x → q.p.x = box.max.x - EPS) ∧
      (p.p.z < box.min.z → q.p.z = box.min.z + EPS) ∧
      (box.max.z < p.p.z → q.p.z = box.max.z - EPS) ∧
      (box.min.y ≤ p.p.y → q.p.y = p.p.y) ∧
      (box.min.x ≤ p.p.x ∧ p.p.x ≤ box.max.x → q.p.x = p.p.x) ∧
      (box.min.z ≤ p.p.z ∧ p.p.z ≤ box.max.z → q.p.z = p.p.z) := by
  have hE : (0 : K) < EPS := by unfold EPS; norm_num
  constructor
  · intro q hq
    obtain ⟨p, -, rfl⟩ := List.mem_map.mp hq
    obtain ⟨hy, hxx, hzz⟩ := collideParticle_pos box p
    refine ⟨?_, ?_, ?_⟩
    · rw [hy]
      split_ifs with h
      · linarith
      · exact not_lt.mp h
    · rw [hxx]; exact clamp_inside _ _ _ hx
    · rw [hzz]; exact clamp_inside _ _ _ hz
  · intro i hi p q
    have hq : q = collideParticle box p := pget_map b.particles (collideParticle box) i hi
    obtain ⟨hy, hxx, hzz⟩ := collideParticle_pos box p
    rw [← hq] at hy hxx hzz
    refine ⟨?_, ?_, ?_, ?_, ?_, ?_, ?_, ?_⟩
    · intro h; rw [hy, if_pos h]
    · intro h; rw [hxx, if_pos h]
    · intro h; rw [hxx, if_neg (by linarith), if_pos h]
    · intro h; rw [hzz, if_pos h]
    · intro h; rw [hzz, if_neg (by linarith), if_pos h]
    · intro h; rw [hy, if_neg (not_lt.mpr h)]
    · intro h; rw [hxx, if_neg (not_lt.mpr h.1), if_neg (not_lt.mpr h.2)]
    · intro h; rw [hzz, if_neg (not_lt.mpr h.1), if_neg (not_lt.mpr h.2)]

end ContainerProjection

section ContainerEvaluations

/-- Witness of C11: the first particle of `strayParticles`, below the floor of `mainBox`
and moving down and towards `-x`. -/
theorem collideWithContainer_floor_response_witness :
    (pget (strayParticles.collideWithContainer mainBox).particles 0).p = ⟨0, 1 / 10000, 0⟩ ∧
    (pget (strayParticles.collideWithContainer mainBox).particles 0).prev =
      ⟨1 / 250, 7 / 40000, 0⟩ :=
  have h := collideWithContainer_floor_response mainBox strayParticles 0 (by decide!) (by decide!) (by decide!)
    (by decide!)
  ⟨h.1.trans (by decide!), h.2.1.trans (by decide!)⟩

/-- Witness of C12: the second particle of `strayParticles`, at height `5` above the top
`max.y = 1.2` of `mainBox`. -/
theorem collideWithContainer_open_top_witness :
    mainBox.max.y < (pget strayParticles.particles 1).p.y ∧
    pget (strayParticles.collideWithContainer mainBox).particles 1 =
      pget strayParticles.particles 1 :=
  ⟨by decide!, collideWithContainer_open_top mainBox strayParticles 1 (by decide!) (by decide!) (by decide!)
    (by decide!)⟩

/-- Witness of C16: the five particles of `strayParticles` against `mainBox`. -/
theorem collideWithContainer_projects_witness :
    (strayParticles.collideWithContainer mainBox).particles.map (fun q => q.p) =
      [⟨0, 1 / 10000, 0⟩, ⟨0, 5, 0⟩, ⟨9999 / 10000, 1 / 2, 0⟩, ⟨0, 1 / 2, -(9999 / 10000)⟩,
        ⟨-(9999 / 10000), 1 / 10000, 9999 / 10000⟩] ∧
    ∀ q ∈ (strayParticles.collideWithContainer mainBox).particles,
      mainBox.min.y ≤ q.p.y ∧ (mainBox.min.x ≤ q.p.x ∧ q.p.x ≤ mainBox.max.x) ∧
        (mainBox.min.z ≤ q.p.z ∧ q.p.z ≤ mainBox.max.z) :=
  ⟨by decide!, (collideWithContainer_projects mainBox strayParticles (by decide!) (by decide!)).1⟩

end ContainerEvaluations

section MassWeighting

variable {K : Type} [LinearOrderedField K]

/-- A relaxation that is not skipped, written with the correction `d * relaxFactor`: the
first endpoint is moved by the share `w1 / wsum` of it, the second by the opposite share
`w2 / wsum`. -/
theorem relaxSpring_moves (m : MathFns K) (kIter : K) (ps : List (Particle K)) (s : Spring K)
    (hl2 : ¬ ((pget ps s.j).p.sub (pget ps s.i).p).length2 < 1 / 1000000000000)
    (hw : 0 < (pget ps s.i).invMass + (pget ps s.j).invMass) :
    relaxSpring m kIter ps s =
      pset (pset ps s.i { (pget ps s.i) with p := ((pget ps s.i).p.add
          (Vec3.smul ((pget ps s.i).invMass / ((pget ps s.i).invMass + (pget ps s.j).invMass))
            (((pget ps s.j).p.sub (pget ps s.i).p).scale (relaxFactor m kIter ps s)))) })
        s.j { (pget ps s.j) with p := ((pget ps s.j).p.sub
          (Vec3.smul ((pget ps s.j).invMass / ((pget ps s.i).invMass + (pget ps s.j).invMass))
            (((pget ps s.j).p.sub (pget ps s.i).p).scale (relaxFactor m kIter ps s)))) } := by
  have hne : s.i ≠ s.j := by
    intro heq
    apply hl2
    rw [heq, Vec3.length2_sub_self]
    norm_num
  unfold relaxSpring relaxFactor
  dsimp only
  rw [if_neg hl2, if_neg (not_le.mpr hw)]
  split_ifs with hc
  all_goals rw [pget_pset_ne _ _ _ _ hne]
  rw [Vec3.scale_scale]

theorem sum_map_set {α : Type} (f : α → K) (l : List α) (n : Nat) (hn : n < l.length) (q : α) :
    ((l.set n q).map f).sum = (l.map f).sum - f (l.get ⟨n, hn⟩) + f q := by
  induction l generalizing n with
  | nil => simp at hn
  | cons x xs ih =>
    cases n with
    | zero => simp [add_comm]
    | succ n =>
      simp only [List.set_cons_succ, List.map_cons, List.sum_cons, List.get_cons_succ]
      rw [ih n (by simpa using hn)]
      ring

theorem sum_map_pset (f : Particle K → K) (ps : List (Particle K)) (i : Int)
    (hi : 0 ≤ i ∧ i < ps.length) (q : Particle K) :
    ((pset ps i q).map f).sum = (ps.map f).sum - f (pget ps i) + f q := by
  have hlt : i.toNat < ps.length := by omega
  unfold pset pget
  rw [if_neg (by omega), if_neg (by omega), sum_map_set f ps i.toNat hlt]
  simp [List.getD_eq_getElem?_getD, hlt]

theorem weighted_share_cancel (w1 w2 a b c : K) (h1 : 0 < w1) (h2 : 0 < w2) :
    1 / w1 * a + 1 / w2 * b - 1 / w1 * a + 1 / w1 * (a + w1 / (w1 + w2) * c) -
      1 / w2 * b + 1 / w2 * (b - w2 / (w1 + w2) * c) = 1 / w1 * a + 1 / w2 * b := by
  have h3 : w1 + w2 ≠ 0 := ne_of_gt (add_pos h1 h2)
  field_simp
  ring

theorem pget_mem (ps : List (Particle K)) (i : Int) (hi : 0 ≤ i ∧ i < ps.length) :
    pget ps i ∈ ps := by
  have hlt : i.toNat < ps.length := by omega
  unfold pget
  rw [if_neg (by omega)]
  simp [List.getD_eq_getElem?_getD, hlt]

theorem pset_map_invMass (ps : List (Particle K)) (i : Int) (q : Particle K)
    (h : q.invMass = (pget ps i).invMass) :
    (pset ps i q).map (fun p => p.invMass) = ps.map (fun p => p.invMass) := by
  by_cases hi : 0 ≤ i ∧ i < ps.length
  · have hlt : i.toNat < ps.length := by omega
    apply List.ext_getElem
    · simp [pset_length]
    · intro n h1 h2
      have hn : n < ps.length := by simpa using h2
      rw [List.getElem_map, List.getElem_map]
      have hget : ∀ k : Nat, ∀ hk : k < (pset ps i q).length,
          (pset ps i q)[k] = pget (pset ps i q) (k : Int) := by
        intro k hk
        unfold pget
        rw [if_neg (by omega)]
        simp [List.getD_eq_getElem?_getD, hk]
      have hget2 : ps[n] = pget ps (n : Int) := by
        unfold pget
        rw [if_neg (by omega)]
        simp [List.getD_eq_getElem?_getD, hn]
      rw [hget n (by simpa [pset_length] using hn), hget2, pget_pset]
      split_ifs with hc
      · rw [h, hc.1]
      · rfl
  · unfold pset
    split_ifs with h0
    · rfl
    · rw [List.set_eq_of_length_le (by omega)]

theorem relaxSpring_invMass (m : MathFns K) (kIter : K) (ps : List (Particle K))
    (s : Spring K) :
    (relaxSpring m kIter ps s).map (fun p => p.invMass) = ps.map (fun p => p.invMass) := by
  by_cases hl2 : ((pget ps s.j).p.sub (pget ps s.i).p).length2 < 1 / 1000000000000
  · unfold relaxSpring
    dsimp only
    rw [if_pos hl2]
  by_cases hw : (pget ps s.i).invMass + (pget ps s.j).invMass ≤ 0
  · unfold relaxSpring
    dsimp only
    rw [if_neg hl2, if_pos hw]
  have hne : s.i ≠ s.j := by
    intro heq
    apply hl2
    rw [heq, Vec3.length2_sub_self]
    norm_num
  rw [relaxSpring_moves m kIter ps s hl2 (not_le.mp hw), pset_map_invMass, pset_map_invMass]
  · rfl
  · rw [pget_pset_ne _ _ _ _ hne]

theorem foldl_relaxSpring_invMass (m : MathFns K) (kIter : K) (springs : List (Spring K))
    (ps : List (Particle K)) :
    (springs.foldl (relaxSpring m kIter) ps).map (fun p => p.invMass) =
      ps.map (fun p => p.invMass) := by
  induction springs generalizing ps with
  | nil => rfl
  | cons s ss ih => simp only [List.foldl_cons]; rw [ih, relaxSpring_invMass]

theorem invMass_pos_of_map_eq (ps qs : List (Particle K))
    (h : qs.map (fun p => p.invMass) = ps.map (fun p => p.invMass))
    (hpos : ∀ p ∈ ps, 0 < p.invMass) : ∀ p ∈ qs, 0 < p.invMass := by
  intro p hp
  have h1 : p.invMass ∈ qs.map (fun p => p.invMass) := List.mem_map.mpr ⟨p, hp, rfl⟩
  rw [h] at h1
  obtain ⟨p', hp', he⟩ := List.mem_map.mp h1
  rw [← he]
  exact hpos p' hp'

/-- One relaxation leaves the mass-weighted sum of any additive coordinate unchanged. -/
theorem relaxSpring_weighted_coord (m : MathFns K) (kIter : K) (ps : List (Particle K))
    (s : Spring K) (cf : Vec3 K → K)
    (hadd : ∀ (u c : Vec3 K) (t : K), cf (u.add (Vec3.smul t c)) = cf u + t * cf c)
    (hsub : ∀ (u c : Vec3 K) (t : K), cf (u.sub (Vec3.smul t c)) = cf u - t * cf c)
    (hi : 0 ≤ s.i ∧ s.i < ps.length) (hj : 0 ≤ s.j ∧ s.j < ps.length)
    (hpos : ∀ p ∈ ps, 0 < p.invMass) :
    ((relaxSpring m kIter ps s).map fun p => 1 / p.invMass * cf p.p).sum =
      (ps.map fun p => 1 / p.invMass * cf p.p).sum := by
  by_cases hl2 : ((pget ps s.j).p.sub (pget ps s.i).p).length2 < 1 / 1000000000000
  · unfold relaxSpring
    dsimp only
    rw [if_pos hl2]
  have h1 : 0 < (pget ps s.i).invMass := hpos _ (pget_mem ps s.i hi)
  have h2 : 0 < (pget ps s.j).invMass := hpos _ (pget_mem ps s.j hj)
  have hne : s.i ≠ s.j := by
    intro heq
    apply hl2
    rw [heq, Vec3.length2_sub_self]
    norm_num
  rw [relaxSpring_moves m kIter ps s hl2 (add_pos h1 h2),
    sum_map_pset _ _ _ (by rw [pset_length]; exact hj), sum_map_pset _ _ _ hi,
    pget_pset_ne _ _ _ _ hne]
  simp only [hadd, hsub]
  have h3 : (pget ps s.i).invMass + (pget ps s.j).invMass ≠ 0 := ne_of_gt (add_pos h1 h2)
  field_simp
  ring

theorem foldl_relaxSpring_weighted (m : MathFns K) (kIter : K) (springs : List (Spring K))
    (ps : List (Particle K)) (cf : Vec3 K → K)
    (hadd : ∀ (u c : Vec3 K) (t : K), cf (u.add (Vec3.smul t c)) = cf u + t * cf c)
    (hsub : ∀ (u c : Vec3 K) (t : K), cf (u.sub (Vec3.smul t c)) = cf u - t * cf c)
    (hvalid : ∀ s ∈ springs, (0 ≤ s.i ∧ s.i < ps.length) ∧ (0 ≤ s.j ∧ s.j < ps.length))
    (hpos : ∀ p ∈ ps, 0 < p.invMass) :
    ((springs.foldl (relaxSpring m kIter) ps).map fun p => 1 / p.invMass * cf p.p).sum =
      (ps.map fun p => 1 / p.invMass * cf p.p).sum := by
  induction springs generalizing ps with
  | nil => rfl
  | cons s ss ih =>
    simp only [List.foldl_cons]
    have hv := hvalid s (List.mem_cons_self _ _)
    rw [ih (relaxSpring m kIter ps s)
      (fun t ht => by rw [relaxSpring_length]; exact hvalid t (List.mem_cons_of_mem _ ht))
      (invMass_pos_of_map_eq ps _ (relaxSpring_invMass m kIter ps s) hpos),
      relaxSpring_weighted_coord m kIter ps s cf hadd hsub hv.1 hv.2 hpos]

theorem foldl_relaxSpring_massWeightedSum (m : MathFns K) (kIter : K)
    (springs : List (Spring K)) (ps : List (Particle K))
    (hvalid : ∀ s ∈ springs, (0 ≤ s.i ∧ s.i < ps.length) ∧ (0 ≤ s.j ∧ s.j < ps.length))
    (hpos : ∀ p ∈ ps, 0 < p.invMass) :
    massWeightedSum (springs.foldl (relaxSpring m kIter) ps) = massWeightedSum ps := by
  unfold massWeightedSum
  rw [Vec3.ext_iff3]
  refine ⟨?_, ?_, ?_⟩
  · exact foldl_relaxSpring_weighted m kIter springs ps (fun v => v.x) (fun _ _ _ => rfl)
      (fun _ _ _ => rfl) hvalid hpos
  · exact foldl_relaxSpring_weighted m kIter springs ps (fun v => v.y) (fun _ _ _ => rfl)
      (fun _ _ _ => rfl) hvalid hpos
  · exact foldl_relaxSpring_weighted m kIter springs ps (fun v => v.z) (fun _ _ _ => rfl)
      (fun _ _ _ => rfl) hvalid hpos

/-- C14 (mass-weighted distribution).  A relaxation that is not skipped moves the first
endpoint by the share `w1 / (w1 + w2)` of the correction and the second endpoint by the
opposite share `w2 / (w1 + w2)`, where `w1`, `w2` are the inverse masses.  Hence, for a body
whose springs join particles of the body and whose inverse masses are all positive,
`satisfyConstraints(N)` leaves the mass-weighted sum of the positions unchanged. -/
theorem satisfyConstraints_conserves_mass_weighted_sum (m : MathFns K) (N : Nat) (b : Jelly K)
    (hvalid : b.SpringsValid) (hpos : ∀ p ∈ b.particles, 0 < p.invMass) :
    (∀ (ps : List (Particle K)) (s : Spring K),
      (0 ≤ s.i ∧ s.i < ps.length) → (0 ≤ s.j ∧ s.j < ps.length) →
      ¬ ((pget ps s.j).p.sub (pget ps s.i).p).length2 < 1 / 1000000000000 →
      0 < (pget ps s.i).invMass + (pget ps s.j).invMass →
      (pget (relaxSpring m (k_iter m N) ps s) s.i).p = (pget ps s.i).p.add
          (Vec3.smul ((pget ps s.i).invMass / ((pget ps s.i).invMass + (pget ps s.j).invMass))
            (((pget ps s.j).p.sub (pget ps s.i).p).scale (relaxFactor m (k_iter m N) ps s))) ∧
      (pget (relaxSpring m (k_iter m N) ps s) s.j).p = (pget ps s.j).p.sub
          (Vec3.smul ((pget ps s.j).invMass / ((pget ps s.i).invMass + (pget ps s.j).invMass))
            (((pget ps s.j).p.sub (pget ps s.i).p).scale (relaxFactor m (k_iter m N) ps s)))) ∧
    massWeightedSum (b.satisfyConstraints m N).particles = massWeightedSum b.particles := by
  constructor
  · intro ps s hi hj hl2 hw
    have hne : s.i ≠ s.j := by
      intro heq
      apply hl2
      rw [heq, Vec3.length2_sub_self]
      norm_num
    rw [relaxSpring_moves m (k_iter m N) ps s hl2 hw,
      pget_pset_same _ _ _ hj.1 (by rw [pset_length]; exact hj.2),
      pget_pset_ne _ _ _ _ hne.symm, pget_pset_same _ _ _ hi.1 hi.2]
    exact ⟨rfl, rfl⟩
  · show massWeightedSum (forN N (fun ps : List (Particle K) =>
        b.springs.foldl (relaxSpring m (k_iter m N)) ps) b.particles) = _
    have key := forN_inv (fun ps : List (Particle K) =>
        ps.length = b.particles.length ∧
        ps.map (fun p => p.invMass) = b.particles.map (fun p => p.invMass) ∧
        massWeightedSum ps = massWeightedSum b.particles) N
      (fun ps : List (Particle K) => b.springs.foldl (relaxSpring m (k_iter m N)) ps)
      b.particles ⟨rfl, rfl, rfl⟩ (by
        intro ps ⟨h1, h2, h3⟩
        refine ⟨?_, ?_, ?_⟩
        · show (b.springs.foldl (relaxSpring m (k_iter m N)) ps).length = _
          rw [foldl_relaxSpring_length, h1]
        · show (b.springs.foldl (relaxSpring m (k_iter m N)) ps).map _ = _
          rw [foldl_relaxSpring_invMass, h2]
        · show massWeightedSum (b.springs.foldl (relaxSpring m (k_iter m N)) ps) = _
          rw [foldl_relaxSpring_massWeightedSum m _ b.springs ps
            (fun s hs => by rw [h1]; exact hvalid s hs)
            (invMass_pos_of_map_eq b.particles ps h2 hpos), h3])
    exact key.2.2

end MassWeighting

section MassWeightingEvaluations

/-- Witness of C14: `unequalPair` (inverse masses `1` and `3`) relaxed once; the particles
move by `3/100` and `9/100` in opposite directions and the weighted sum stays `(0, 1/3, 0)`. -/
theorem satisfyConstraints_conserves_mass_weighted_sum_witness :
    massWeightedSum unequalPair.particles = ⟨0, 1 / 3, 0⟩ ∧
    (unequalPair.satisfyConstraints qMath 1).particles.map (fun p => p.p) =
      [⟨0, 3 / 100, 0⟩, ⟨0, 91 / 100, 0⟩] ∧
    massWeightedSum (unequalPair.satisfyConstraints qMath 1).particles =
      massWeightedSum unequalPair.particles :=
  ⟨by decide!, by decide!,
    (satisfyConstraints_conserves_mass_weighted_sum qMath 1 unequalPair (by decide!)
      (by decide!)).2⟩

end MassWeightingEvaluations

section CorrectionClamp

variable {K : Type} [LinearOrderedField K]

theorem clamp_sq_bound (x len B e : K) (hlen : 0 ≤ len) (hx : x ≤ len * len)
    (hB : 0 ≤ B) (he : 0 < e) :
    (len > B → (B / max len e) * (B / max len e) * x ≤ B * B) ∧ (¬ len > B → x ≤ B * B) := by
  constructor
  · intro _
    have hm : 0 < max len e := lt_max_of_lt_right he
    have hf0 : 0 ≤ B / max len e := div_nonneg hB (le_of_lt hm)
    have hfl : B / max len e * len ≤ B := by
      rw [div_mul_eq_mul_div, div_le_iff₀ hm]
      exact mul_le_mul_of_nonneg_left (le_max_left _ _) hB
    have h1 : (B / max len e) * (B / max len e) * x ≤
        (B / max len e) * (B / max len e) * (len * len) :=
      mul_le_mul_of_nonneg_left hx (mul_nonneg hf0 hf0)
    have h2 : (B / max len e * len) * (B / max len e * len) ≤ B * B :=
      mul_le_mul hfl hfl (mul_nonneg hf0 hlen) hB
    calc (B / max len e) * (B / max len e) * x
        ≤ (B / max len e) * (B / max len e) * (len * len) := h1
      _ = (B / max len e * len) * (B / max len e * len) := by ring
      _ ≤ B * B := h2
  · intro h
    have h1 : len ≤ B := not_lt.mp h
    calc x ≤ len * len := hx
      _ ≤ B * B := mul_le_mul h1 h1 hlen hB

theorem Vec3.length2_nonneg (v : Vec3 K) : 0 ≤ v.length2 := by
  unfold Vec3.length2
  nlinarith [mul_self_nonneg v.x, mul_self_nonneg v.y, mul_self_nonneg v.z]

/-- The correction a relaxation applies, `d * relaxFactor`, has squared length at most
`(0.2 * rest)^2`. -/
theorem correction_length2_le (m : MathFns K) (hsu : m.SqrtUpper) (kIter : K)
    (ps : List (Particle K)) (s : Spring K) (hrest : 0 ≤ s.rest) :
    (((pget ps s.j).p.sub (pget ps s.i).p).scale (relaxFactor m kIter ps s)).length2 ≤
      maxCorrFrac * s.rest * (maxCorrFrac * s.rest) := by
  have hB : (0 : K) ≤ maxCorrFrac * s.rest := by
    unfold maxCorrFrac
    exact mul_nonneg (by norm_num) hrest
  unfold relaxFactor
  generalize hc : kIter * ((m.sqrt ((pget ps s.j).p.sub (pget ps s.i).p).length2 - s.rest) /
        m.sqrt ((pget ps s.j).p.sub (pget ps s.i).p).length2) = c
  generalize hd : (pget ps s.j).p.sub (pget ps s.i).p = d
  obtain ⟨hl0, hl1⟩ := hsu (d.scale c).length2 (Vec3.length2_nonneg _)
  obtain ⟨h1, h2⟩ := clamp_sq_bound (d.scale c).length2 (Vec3.length m (d.scale c))
    (maxCorrFrac * s.rest) (1 / 100000000) hl0 hl1 hB (by norm_num)
  split_ifs with hcl
  · rw [← Vec3.scale_scale, Vec3.length2_scale]
    exact h1 hcl
  · exact h2 hcl

theorem share_length2_le (a C : Vec3 K) (q B : K) (hq0 : 0 ≤ q) (hq1 : q ≤ 1)
    (hC : C.length2 ≤ B) :
    ((a.add (Vec3.smul q C)).sub a).length2 ≤ B ∧ ((a.sub (Vec3.smul q C)).sub a).length2 ≤ B := by
  have h0 := Vec3.length2_nonneg C
  have hqq : q * q ≤ 1 := by nlinarith
  have h1 : ((a.add (Vec3.smul q C)).sub a).length2 = q * q * C.length2 := by
    simp only [Vec3.add, Vec3.sub, Vec3.smul, Vec3.length2]; ring
  have h2 : ((a.sub (Vec3.smul q C)).sub a).length2 = q * q * C.length2 := by
    simp only [Vec3.sub, Vec3.smul, Vec3.length2]; ring
  rw [h1, h2]
  have : q * q * C.length2 ≤ 1 * C.length2 := mul_le_mul_of_nonneg_right hqq h0
  constructor <;> linarith

theorem length_change_le (L L' c B : K) (hL : 0 ≤ L) (hL' : 0 ≤ L') (hB : 0 ≤ B)
    (h1 : L' * L' = (1 - c) * (1 - c) * (L * L)) (h2 : c * c * (L * L) ≤ B * B) :
    |L' - L| ≤ B := by
  have e1 : L' = |1 - c| * L := by
    have hn : 0 ≤ |1 - c| * L := mul_nonneg (abs_nonneg _) hL
    have hsq : L' * L' = (|1 - c| * L) * (|1 - c| * L) := by
      rw [h1]
      have := abs_mul_abs_self (1 - c)
      calc (1 - c) * (1 - c) * (L * L) = (|1 - c| * |1 - c|) * (L * L) := by rw [this]
        _ = _ := by ring
    exact (mul_self_inj hL' hn).mp hsq
  have e2 : |c| * L ≤ B := by
    have hn : 0 ≤ |c| * L := mul_nonneg (abs_nonneg _) hL
    have hsq : (|c| * L) * (|c| * L) ≤ B * B := by
      have := abs_mul_abs_self c
      calc (|c| * L) * (|c| * L) = (|c| * |c|) * (L * L) := by ring
        _ = c * c * (L * L) := by rw [this]
        _ ≤ B * B := h2
    exact (mul_self_le_mul_self_iff hn hB).mpr hsq
  have e3 : |(|1 - c| - 1)| ≤ |c| := by
    have := abs_abs_sub_abs_le_abs_sub (1 - c) 1
    simpa using this
  calc |L' - L| = |(|1 - c| - 1) * L| := by rw [e1]; congr 1; ring
    _ = |(|1 - c| - 1)| * L := by rw [abs_mul, abs_of_nonneg hL]
    _ ≤ |c| * L := mul_le_mul_of_nonneg_right e3 hL
    _ ≤ B := e2

/-- C15 (correction clamp).  With a square root that never underestimates, a non-negative
rest length and non-negative inverse masses, one relaxation of a spring of the body applies a
correction of length at most `0.2 * rest`; neither endpoint moves by more than `0.2 * rest`
and the distance between the endpoints changes by at most `0.2 * rest`.  Lengths are stated
through their squares, and the distance through any non-negative `L`, `L1` whose squares are
the squared distances before and after. -/
theorem relaxSpring_correction_clamped (m : MathFns K) (hsu : m.SqrtUpper) (N : Nat)
    (ps : List (Particle K)) (s : Spring K)
    (hi : 0 ≤ s.i ∧ s.i < ps.length) (hj : 0 ≤ s.j ∧ s.j < ps.length)
    (hrest : 0 ≤ s.rest)
    (hwi : 0 ≤ (pget ps s.i).invMass) (hwj : 0 ≤ (pget ps s.j).invMass) :
    let d := (pget ps s.j).p.sub (pget ps s.i).p
    let ps1 := relaxSpring m (k_iter m N) ps s
    let d1 := (pget ps1 s.j).p.sub (pget ps1 s.i).p
    let B := maxCorrFrac * s.rest
    (d.scale (relaxFactor m (k_iter m N) ps s)).length2 ≤ B * B ∧
    (d1 = d ∨ d1 = d.sub (d.scale (relaxFactor m (k_iter m N) ps s))) ∧
    ((pget ps1 s.i).p.sub (pget ps s.i).p).length2 ≤ B * B ∧
    ((pget ps1 s.j).p.sub (pget ps s.j).p).length2 ≤ B * B ∧
    ∀ L L1 : K, 0 ≤ L → 0 ≤ L1 → L * L = d.length2 → L1 * L1 = d1.length2 →
      |L1 - L| ≤ B := by
  intro d ps1 d1 B
  have hB : (0 : K) ≤ B := by
    show (0 : K) ≤ maxCorrFrac * s.rest
    unfold maxCorrFrac
    exact mul_nonneg (by norm_num) hrest
  have hC : (d.scale (relaxFactor m (k_iter m N) ps s)).length2 ≤ B * B :=
    correction_length2_le m hsu (k_iter m N) ps s hrest
  have hskip : ps1 = ps →
      (d1 = d ∨ d1 = d.sub (d.scale (relaxFactor m (k_iter m N) ps s))) ∧
      ((pget ps1 s.i).p.sub (pget ps s.i).p).length2 ≤ B * B ∧
      ((pget ps1 s.j).p.sub (pget ps s.j).p).length2 ≤ B * B ∧
      ∀ L L1 : K, 0 ≤ L → 0 ≤ L1 → L * L = d.length2 → L1 * L1 = d1.length2 →
        |L1 - L| ≤ B := by
    intro he
    have hd : d1 = d := by
      show (pget ps1 s.j).p.sub (pget ps1 s.i).p = _
      rw [he]
    refine ⟨Or.inl hd, ?_, ?_, ?_⟩
    · rw [he, Vec3.length2_sub_self]; exact mul_nonneg hB hB
    · rw [he, Vec3.length2_sub_self]; exact mul_nonneg hB hB
    · intro L L1 hL hL1 h1 h2
      rw [hd, ← h1] at h2
      rw [(mul_self_inj hL1 hL).mp h2, sub_self, abs_zero]
      exact hB
  refine ⟨hC, ?_⟩
  by_cases hl2 : ((pget ps s.j).p.sub (pget ps s.i).p).length2 < 1 / 1000000000000
  · apply hskip
    show relaxSpring m (k_iter m N) ps s = ps
    unfold relaxSpring
    dsimp only
    rw [if_pos hl2]
  by_cases hw : (pget ps s.i).invMass + (pget ps s.j).invMass ≤ 0
  · apply hskip
    show relaxSpring m (k_iter m N) ps s = ps
    unfold relaxSpring
    dsimp only
    rw [if_neg hl2, if_pos hw]
  have hw1 : 0 < (pget ps s.i).invMass + (pget ps s.j).invMass := not_le.mp hw
  have hne : s.i ≠ s.j := by
    intro heq
    apply hl2
    rw [heq, Vec3.length2_sub_self]
    norm_num
  have hstep := (relaxSpring_step m (k_iter m N) ps s hi hj hl2 hw1).1
  have hd1 : d1 = d.scale (1 - relaxFactor m (k_iter m N) ps s) := hstep
  have hpi : (pget ps1 s.i).p = (pget ps s.i).p.add
      (Vec3.smul ((pget ps s.i).invMass / ((pget ps s.i).invMass + (pget ps s.j).invMass))
        (d.scale (relaxFactor m (k_iter m N) ps s))) := by
    show (pget (relaxSpring m (k_iter m N) ps s) s.i).p = _
    rw [relaxSpring_moves m (k_iter m N) ps s hl2 hw1, pget_pset_ne _ _ _ _ hne.symm,
      pget_pset_same _ _ _ hi.1 hi.2]
  have hpj : (pget ps1 s.j).p = (pget ps s.j).p.sub
      (Vec3.smul ((pget ps s.j).invMass / ((pget ps s.i).invMass + (pget ps s.j).invMass))
        (d.scale (relaxFactor m (k_iter m N) ps s))) := by
    show (pget (relaxSpring m (k_iter m N) ps s) s.j).p = _
    rw [relaxSpring_moves m (k_iter m N) ps s hl2 hw1,
      pget_pset_same _ _ _ hj.1 (by rw [pset_length]; exact hj.2)]
  have hq1 : (pget ps s.i).invMass / ((pget ps s.i).invMass + (pget ps s.j).invMass) ≤ 1 := by
    rw [div_le_one hw1]; linarith
  have hq2 : (pget ps s.j).invMass / ((pget ps s.i).invMass + (pget ps s.j).invMass) ≤ 1 := by
    rw [div_le_one hw1]; linarith
  refine ⟨Or.inr ?_, ?_, ?_, ?_⟩
  · rw [hd1, Vec3.ext_iff3]
    simp only [Vec3.scale, Vec3.sub]
    refine ⟨by ring, by ring, by ring⟩
  · rw [hpi]
    exact (share_length2_le _ _ _ _ (div_nonneg hwi (le_of_lt hw1)) hq1 hC).1
  · rw [hpj]
    exact (share_length2_le _ _ _ _ (div_nonneg hwj (le_of_lt hw1)) hq2 hC).2
  · intro L L1 hL hL1 h1 h2
    rw [hd1, Vec3.length2_scale, ← h1] at h2
    rw [Vec3.length2_scale, ← h1] at hC
    exact length_change_le L L1 _ B hL hL1 hB h2 hC

end CorrectionClamp

section CorrectionClampEvaluations

/-- Witness of C15: the spring of `compressedPair` (rest `2`, length `1`), whose correction
`0.6` is clamped to `0.4 = 0.2 * rest`; the endpoints move by `0.2` each and the distance
grows from `1` to `7/5`. -/
theorem relaxSpring_correction_clamped_witness :
    (relaxSpring qMath (k_iter qMath 1) compressedPair.particles ⟨0, 1, 2, 1⟩).map
        (fun p => p.p) = [⟨0, -(1 / 5), 0⟩, ⟨0, 6 / 5, 0⟩] ∧
    |(7 / 5 : ℚ) - 1| ≤ maxCorrFrac * 2 :=
  ⟨by decide!,
    (relaxSpring_correction_clamped qMath qMath_sqrtUpper 1 compressedPair.particles
      ⟨0, 1, 2, 1⟩ (by decide!) (by decide!) (by decide!) (by decide!) (by decide!)).2.2.2.2
      1 (7 / 5) (by decide!) (by decide!) (by decide!) (by decide!)⟩

end CorrectionClampEvaluations

section Stiffness

variable {K : Type} [LinearOrderedField K]

theorem relaxSpring_shape (m : MathFns K) (kIter : K) (ps : List (Particle K)) (s t : Spring K)
    (h : s.shape = t.shape) : relaxSpring m kIter ps s = relaxSpring m kIter ps t := by
  cases s with
  | mk i j rest k =>
    cases t with
    | mk i' j' rest' k' =>
      simp only [Spring.shape, Prod.mk.injEq] at h
      obtain ⟨rfl, rfl, rfl⟩ := h
      rfl

theorem foldl_relaxSpring_shape (m : MathFns K) (kIter : K) (sp sp' : List (Spring K))
    (h : sp.map Spring.shape = sp'.map Spring.shape) (ps : List (Particle K)) :
    sp.foldl (relaxSpring m kIter) ps = sp'.foldl (relaxSpring m kIter) ps := by
  induction sp generalizing sp' ps with
  | nil =>
    cases sp' with
    | nil => rfl
    | cons t ts => simp at h
  | cons s ss ih =>
    cases sp' with
    | nil => simp at h
    | cons t ts =>
      simp only [List.map_cons, List.cons.injEq] at h
      simp only [List.foldl_cons]
      rw [relaxSpring_shape m kIter ps s t h.1]
      exact ih ts h.2 _

theorem foldl_rel {α σ : Type} (R : σ → σ → Prop) (f g : σ → α → σ) (l : List α)
    (hstep : ∀ a b x, R a b → R (f a x) (g b x)) (a b : σ) (h : R a b) :
    R (l.foldl f a) (l.foldl g b) := by
  induction l generalizing a b with
  | nil => exact h
  | cons x xs ih => exact ih _ _ (hstep a b x h)

theorem forN_rel {σ τ : Type} (R : σ → τ → Prop) (f : σ → σ) (g : τ → τ) (n : Nat)
    (hstep : ∀ a b, R a b → R (f a) (g b)) (a : σ) (b : τ) (h : R a b) :
    R (forN n f a) (forN n g b) := by
  induction n generalizing a b with
  | zero => exact h
  | succ n ih => exact ih _ _ (hstep a b h)

theorem addSpring_shape (m : MathFns K) (ps : List (Particle K)) (sp sp' : List (Spring K))
    (a b : Int) (k k' : K) (h : sp.map Spring.shape = sp'.map Spring.shape) :
    (addSpring m ps sp a b k).map Spring.shape = (addSpring m ps sp' a b k').map Spring.shape := by
  unfold addSpring
  split_ifs
  · exact h
  · simp [h, Spring.shape]

theorem cond_addSpring_shape (m : MathFns K) (ps : List (Particle K)) (c : Prop) [Decidable c]
    (sp sp' : List (Spring K)) (a b : Int) (k k' : K)
    (h : sp.map Spring.shape = sp'.map Spring.shape) :
    (if c then addSpring m ps sp a b k else sp).map Spring.shape =
      (if c then addSpring m ps sp' a b k' else sp').map Spring.shape := by
  split_ifs
  · exact addSpring_shape m ps sp sp' a b k k' h
  · exact h

theorem faceSprings_shape (m : MathFns K) (ps : List (Particle K)) (fpi : List (List Int))
    (S : Nat) (k k' : K) (sp sp' : List (Spring K))
    (h : sp.map Spring.shape = sp'.map Spring.shape) :
    (faceSprings m ps fpi S k sp).map Spring.shape =
      (faceSprings m ps fpi S k' sp').map Spring.shape := by
  unfold faceSprings
  refine foldl_rel (fun a b : List (Spring K) => a.map Spring.shape = b.map Spring.shape) _ _ _ ?_ _ _ h
  intro a b f hab
  refine foldl_rel (fun a b : List (Spring K) => a.map Spring.shape = b.map Spring.shape) _ _ _ ?_ _ _ hab
  intro a b v hab
  refine foldl_rel (fun a b : List (Spring K) => a.map Spring.shape = b.map Spring.shape) _ _ _ ?_ _ _ hab
  intro a b u hab
  unfold faceSpringsCell
  dsimp only
  exact cond_addSpring_shape m ps _ _ _ _ _ _ _
    (cond_addSpring_shape m ps _ _ _ _ _ _ _
      (cond_addSpring_shape m ps _ _ _ _ _ _ _
        (cond_addSpring_shape m ps _ _ _ _ _ _ _ hab)))

theorem addPairSprings_shape (m : MathFns K) (ps : List (Particle K)) (fpi : List (List Int))
    (S fA fB : Nat) (mu mv : Bool) (k k' : K) (sp sp' : List (Spring K))
    (h : sp.map Spring.shape = sp'.map Spring.shape) :
    (addPairSprings m ps fpi S fA fB mu mv k sp).map Spring.shape =
      (addPairSprings m ps fpi S fA fB mu mv k' sp').map Spring.shape := by
  unfold addPairSprings
  refine foldl_rel (fun a b : List (Spring K) => a.map Spring.shape = b.map Spring.shape) _ _ _ ?_ _ _ h
  intro a b v hab
  refine foldl_rel (fun a b : List (Spring K) => a.map Spring.shape = b.map Spring.shape) _ _ _ ?_ _ _ hab
  intro a b u hab
  unfold pairSpringsCell
  dsimp only
  split_ifs <;> first | exact hab | simp [hab, Spring.shape]

theorem new_sameUpToStiffness [FloorRing K] [Rounding K] (m : MathFns K) (center : Vec3 K) (radius : K)
    (velocity velocity1 acceleration : Vec3 K) (pointMass k k1 : K) (springsPerEdge : Int) :
    (Jelly.new m center radius velocity acceleration pointMass k springsPerEdge).SameUpToStiffness
      (Jelly.new m center radius velocity1 acceleration pointMass k1 springsPerEdge) := by
  refine ⟨rfl, rfl, ?_, rfl, rfl⟩
  show List.map Spring.shape (addPairSprings m _ _ _ 4 5 false true _
      (addPairSprings m _ _ _ 2 3 true false _ (addPairSprings m _ _ _ 0 1 true false _
        (faceSprings m _ _ _ k [])))) =
    List.map Spring.shape (addPairSprings m _ _ _ 4 5 false true _
      (addPairSprings m _ _ _ 2 3 true false _ (addPairSprings m _ _ _ 0 1 true false _
        (faceSprings m _ _ _ k1 []))))
  exact addPairSprings_shape m _ _ _ _ _ _ _ _ _ _ _
    (addPairSprings_shape m _ _ _ _ _ _ _ _ _ _ _
      (addPairSprings_shape m _ _ _ _ _ _ _ _ _ _ _
        (faceSprings_shape m _ _ _ _ _ _ _ rfl)))

theorem satisfyConstraints_shape (m : MathFns K) (N : Nat) (b c : Jelly K)
    (hp : b.particles = c.particles)
    (hs : b.springs.map Spring.shape = c.springs.map Spring.shape) :
    (b.satisfyConstraints m N).particles = (c.satisfyConstraints m N).particles := by
  show forN N (fun ps : List (Particle K) => b.springs.foldl (relaxSpring m (k_iter m N)) ps)
      b.particles =
    forN N (fun ps : List (Particle K) => c.springs.foldl (relaxSpring m (k_iter m N)) ps)
      c.particles
  have hf : (fun ps : List (Particle K) => b.springs.foldl (relaxSpring m (k_iter m N)) ps) =
      (fun ps : List (Particle K) => c.springs.foldl (relaxSpring m (k_iter m N)) ps) :=
    funext fun ps => foldl_relaxSpring_shape m _ _ _ hs ps
  rw [hf, hp]

theorem update_sameUpToStiffness (m : MathFns K) (dt : K) (box : Container K) (b c : Jelly K)
    (h : b.SameUpToStiffness c) :
    (b.Update m dt box).SameUpToStiffness (c.Update m dt box) := by
  obtain ⟨hp, ha, hs, -, -⟩ := h
  have hpass : (forN 4 (fun x : Jelly K => (x.collideWithContainer box).satisfyConstraints m 1)
        ((({ b with particles := b.particles.map fun p => { p with a := p.a.add b.acceleration } } :
          Jelly K).applyGravity).integrate dt)).particles =
      (forN 4 (fun x : Jelly K => (x.collideWithContainer box).satisfyConstraints m 1)
        ((({ c with particles := c.particles.map fun p => { p with a := p.a.add c.acceleration } } :
          Jelly K).applyGravity).integrate dt)).particles ∧
      (forN 4 (fun x : Jelly K => (x.collideWithContainer box).satisfyConstraints m 1)
        ((({ b with particles := b.particles.map fun p => { p with a := p.a.add b.acceleration } } :
          Jelly K).applyGravity).integrate dt)).acceleration =
      (forN 4 (fun x : Jelly K => (x.collideWithContainer box).satisfyConstraints m 1)
        ((({ c with particles := c.particles.map fun p => { p with a := p.a.add c.acceleration } } :
          Jelly K).applyGravity).integrate dt)).acceleration ∧
      (forN 4 (fun x : Jelly K => (x.collideWithContainer box).satisfyConstraints m 1)
        ((({ b with particles := b.particles.map fun p => { p with a := p.a.add b.acceleration } } :
          Jelly K).applyGravity).integrate dt)).springs.map Spring.shape =
      (forN 4 (fun x : Jelly K => (x.collideWithContainer box).satisfyConstraints m 1)
        ((({ c with particles := c.particles.map fun p => { p with a := p.a.add c.acceleration } } :
          Jelly K).applyGravity).integrate dt)).springs.map Spring.shape := by
    refine forN_rel (fun x y : Jelly K => x.particles = y.particles ∧
      x.acceleration = y.acceleration ∧
      x.springs.map Spring.shape = y.springs.map Spring.shape) _ _ 4 ?_ _ _ ?_
    · intro x y ⟨h1, h2, h3⟩
      refine ⟨?_, h2, h3⟩
      apply satisfyConstraints_shape
      · show x.particles.map (collideParticle box) = y.particles.map (collideParticle box)
        rw [h1]
      · exact h3
    · refine ⟨?_, ha, hs⟩
      simp only [Jelly.integrate, Jelly.applyGravity]
      rw [hp, ha]
  obtain ⟨h1, h2, h3⟩ := hpass
  refine ⟨h1, h2, h3, ?_, ?_⟩
  · show (aabbOf _).1 = (aabbOf _).1
    rw [h1]
  · show (aabbOf _).2 = (aabbOf _).2
    rw [h1]

/-- C18 (stiffness has no effect on the dynamics).  Two bodies constructed with the same
center, radius, acceleration, mass and `springsPerEdge` but arbitrary stiffnesses (and
arbitrary initial `velocity` arguments) have, after any common sequence of `Update(dt, box)`
calls, the same particles (positions, previous positions, accelerations, inverse masses) and
the same bounding box.  Moreover `satisfyConstraints` gives the same particles when the
stiffness `k` of every spring is overwritten by any value. -/
theorem stiffness_has_no_effect [FloorRing K] [Rounding K] (m : MathFns K) (center : Vec3 K) (radius : K)
    (velocity velocity1 acceleration : Vec3 K) (pointMass k k1 : K) (springsPerEdge : Int)
    (steps : List (K × Container K)) :
    ((steps.foldl (fun (c : Jelly K) st => c.Update m st.1 st.2)
        (Jelly.new m center radius velocity acceleration pointMass k springsPerEdge)).particles =
      (steps.foldl (fun (c : Jelly K) st => c.Update m st.1 st.2)
        (Jelly.new m center radius velocity1 acceleration pointMass k1 springsPerEdge)).particles ∧
     (steps.foldl (fun (c : Jelly K) st => c.Update m st.1 st.2)
        (Jelly.new m center radius velocity acceleration pointMass k springsPerEdge)).aabbMin =
      (steps.foldl (fun (c : Jelly K) st => c.Update m st.1 st.2)
        (Jelly.new m center radius velocity1 acceleration pointMass k1 springsPerEdge)).aabbMin ∧
     (steps.foldl (fun (c : Jelly K) st => c.Update m st.1 st.2)
        (Jelly.new m center radius velocity acceleration pointMass k springsPerEdge)).aabbMax =
      (steps.foldl (fun (c : Jelly K) st => c.Update m st.1 st.2)
        (Jelly.new m center radius velocity1 acceleration pointMass k1 springsPerEdge)).aabbMax) ∧
    ∀ (b : Jelly K) (N : Nat) (g : Spring K → K),
      (b.satisfyConstraints m N).particles =
        (Jelly.satisfyConstraints m N
          { b with springs := b.springs.map fun s => { s with k := g s } }).particles := by
  constructor
  · have h := foldl_rel (fun x y : Jelly K => x.SameUpToStiffness y)
      (fun (c : Jelly K) (st : K × Container K) => c.Update m st.1 st.2)
      (fun (c : Jelly K) (st : K × Container K) => c.Update m st.1 st.2) steps
      (fun a b st hab => update_sameUpToStiffness m st.1 st.2 a b hab) _ _
      (new_sameUpToStiffness m center radius velocity velocity1 acceleration pointMass k k1
        springsPerEdge)
    exact ⟨h.1, h.2.2.2.1, h.2.2.2.2⟩
  · intro b N g
    apply satisfyConstraints_shape
    · rfl
    · show b.springs.map Spring.shape =
        (b.springs.map fun s => ({ s with k := g s } : Spring K)).map Spring.shape
      rw [List.map_map]
      rfl

end Stiffness

section FreeFall

variable {K : Type} [LinearOrderedField K]

theorem pset_pget_self (ps : List (Particle K)) (i : Int) : pset ps i (pget ps i) = ps := by
  unfold pset pget
  split_ifs with h
  · rfl
  · by_cases hlt : i.toNat < ps.length
    · simp only [List.getD_eq_getElem?_getD, List.getElem?_eq_getElem hlt, Option.getD_some]
      apply List.ext_getElem (by simp)
      intro k h1 h2
      rw [List.getElem_set]
      split_ifs with hk
      · subst hk; rfl
      · rfl
    · rw [List.set_eq_of_length_le (by omega)]

theorem relaxFactor_at_rest (m : MathFns K) (kIter : K) (ps : List (Particle K)) (s : Spring K)
    (hrest : Vec3.length m ((pget ps s.j).p.sub (pget ps s.i).p) = s.rest) :
    relaxFactor m kIter ps s = 0 := by
  unfold Vec3.length at hrest
  unfold relaxFactor
  simp only [hrest, sub_self, zero_div, mul_zero, zero_mul, ite_self]

/-- A spring whose current length is its rest length is left alone by the relaxation. -/
theorem relaxSpring_at_rest (m : MathFns K) (kIter : K) (ps : List (Particle K)) (s : Spring K)
    (hrest : Vec3.length m ((pget ps s.j).p.sub (pget ps s.i).p) = s.rest) :
    relaxSpring m kIter ps s = ps := by
  by_cases hl2 : ((pget ps s.j).p.sub (pget ps s.i).p).length2 < 1 / 1000000000000
  · unfold relaxSpring
    dsimp only
    rw [if_pos hl2]
  by_cases hw : (pget ps s.i).invMass + (pget ps s.j).invMass ≤ 0
  · unfold relaxSpring
    dsimp only
    rw [if_neg hl2, if_pos hw]
  rw [relaxSpring_moves m kIter ps s hl2 (not_le.mp hw), relaxFactor_at_rest m kIter ps s hrest]
  have h1 : ∀ (q : Particle K) (w : K) (d : Vec3 K),
      ({ q with p := (q.p.add (Vec3.smul w (d.scale 0))) } : Particle K) = q := by
    intro q w d
    cases q
    simp [Vec3.add, Vec3.smul, Vec3.scale]
  have h2 : ∀ (q : Particle K) (w : K) (d : Vec3 K),
      ({ q with p := (q.p.sub (Vec3.smul w (d.scale 0))) } : Particle K) = q := by
    intro q w d
    cases q
    simp [Vec3.sub, Vec3.smul, Vec3.scale]
  rw [h1, h2, pset_pget_self, pset_pget_self]

theorem foldl_relaxSpring_at_rest (m : MathFns K) (kIter : K) (springs : List (Spring K))
    (ps : List (Particle K))
    (hrest : ∀ s ∈ springs, Vec3.length m ((pget ps s.j).p.sub (pget ps s.i).p) = s.rest) :
    springs.foldl (relaxSpring m kIter) ps = ps := by
  induction springs with
  | nil => rfl
  | cons s ss ih =>
    simp only [List.foldl_cons]
    rw [relaxSpring_at_rest m kIter ps s (hrest s (List.mem_cons_self _ _))]
    exact ih (fun t ht => hrest t (List.mem_cons_of_mem _ ht))

theorem forN_fixed {σ : Type} (n : Nat) (body : σ → σ) (s : σ) (h : body s = s) :
    forN n body s = s := by
  induction n with
  | zero => rfl
  | succ n ih =>
    show forN n body (body s) = s
    rw [h, ih]

/-- A body all of whose particles are inside the container and all of whose springs are at
their rest length is a fixed point of one collide-then-relax pass. -/
theorem pass_fixed (m : MathFns K) (box : Container K) (c : Jelly K)
    (hin : ∀ p ∈ c.particles, box.min.y ≤ p.p.y ∧ (box.min.x ≤ p.p.x ∧ p.p.x ≤ box.max.x) ∧
      (box.min.z ≤ p.p.z ∧ p.p.z ≤ box.max.z))
    (hrest : ∀ s ∈ c.springs,
      Vec3.length m ((pget c.particles s.j).p.sub (pget c.particles s.i).p) = s.rest) :
    (c.collideWithContainer box).satisfyConstraints m 1 = c := by
  have h1 : c.collideWithContainer box = c := by
    unfold Jelly.collideWithContainer
    have : c.particles.map (collideParticle box) = c.particles := by
      conv_rhs => rw [← List.map_id c.particles]
      apply List.map_congr_left
      intro p hp
      obtain ⟨hy, hx, hz⟩ := hin p hp
      exact collideParticle_inside box p hy hx hz
    rw [this]
  rw [h1]
  unfold Jelly.satisfyConstraints
  dsimp only
  have h2 : forN 1 (fun ps : List (Particle K) =>
      c.springs.foldl (relaxSpring m (k_iter m 1)) ps) c.particles = c.particles :=
    forN_fixed 1 _ _ (foldl_relaxSpring_at_rest m _ c.springs c.particles hrest)
  rw [h2]

theorem translate_sub (a b t : Vec3 K) : (a.add t).sub (b.add t) = a.sub b := by
  rw [Vec3.ext_iff3]
  simp only [Vec3.add, Vec3.sub]
  refine ⟨by ring, by ring, by ring⟩

theorem Vec3.length2_sub_comm (a b : Vec3 K) : (a.sub b).length2 = (b.sub a).length2 := by
  simp only [Vec3.sub, Vec3.length2]
  ring

/-- A freshly constructed body: the springs join particles of the body and are at their rest
length, and every particle is at rest with no accumulated acceleration. -/
theorem new_body_at_rest [FloorRing K] [Rounding K] (m : MathFns K) (center : Vec3 K) (radius : K)
    (velocity acceleration : Vec3 K) (pointMass springStrength : K) (springsPerEdge : Int) :
    (Jelly.new m center radius velocity acceleration pointMass springStrength
      springsPerEdge).SpringsValid ∧
    (∀ s ∈ (Jelly.new m center radius velocity acceleration pointMass springStrength
        springsPerEdge).springs,
      Vec3.length m
        ((pget (Jelly.new m center radius velocity acceleration pointMass springStrength
          springsPerEdge).particles s.j).p.sub
         (pget (Jelly.new m center radius velocity acceleration pointMass springStrength
          springsPerEdge).particles s.i).p) = s.rest) ∧
    ∀ p ∈ (Jelly.new m center radius velocity acceleration pointMass springStrength
        springsPerEdge).particles, p.p.sub p.prev = ⟨0, 0, 0⟩ ∧ p.a = ⟨0, 0, 0⟩ := by
  have hb := generateCubeMesh_springs_built m
    (Jelly.init center radius velocity acceleration pointMass springStrength springsPerEdge)
  have hinv := fillGrid_inv pointMass (cubeFaces center radius (subdivisions springsPerEdge))
    (subdivisions springsPerEdge)
  refine ⟨?_, ?_, ?_⟩
  · intro s hs
    exact ⟨(hb s hs).2.1, (hb s hs).2.2.1⟩
  · intro s hs
    have h := (hb s hs).2.2.2
    unfold Vec3.length at h ⊢
    rw [h]
    show m.sqrt (Vec3.length2 _) = m.sqrt (Vec3.length2 _)
    rw [Vec3.length2_sub_comm]
    rfl
  · intro p hp
    obtain ⟨c, -, rfl⟩ := hinv.fresh p hp
    refine ⟨?_, rfl⟩
    rw [Vec3.ext_iff3]
    simp [Vec3.sub]

/-- C17 (rigid free fall).  Take a body whose springs join particles of the body and are at
their rest length, whose particles all have implicit velocity `v` and no accumulated
acceleration, and whose positions translated by
`fallStep = 0.99 * v + (acceleration + (0, -9.81, 0)) * dt^2` are all inside the container.
Then `Update(dt, box)` moves every particle by `fallStep`, stores the old position as previous
position and resets the accumulated acceleration; this is the result of the integration step
alone: a collide-then-relax pass is the identity on every body with these particles and the
springs of the body, so the four passes change nothing.  A freshly constructed body satisfies
the hypotheses on the body with `v = 0`. -/
theorem update_rigid_free_fall [FloorRing K] [Rounding K] (m : MathFns K) :
    (∀ (dt : K) (box : Container K) (b : Jelly K) (v : Vec3 K),
      b.SpringsValid →
      (∀ s ∈ b.springs,
        Vec3.length m ((pget b.particles s.j).p.sub (pget b.particles s.i).p) = s.rest) →
      (∀ p ∈ b.particles, p.p.sub p.prev = v ∧ p.a = ⟨0, 0, 0⟩) →
      (∀ p ∈ b.particles, box.min.y ≤ (p.p.add (fallStep b v dt)).y ∧
        (box.min.x ≤ (p.p.add (fallStep b v dt)).x ∧
          (p.p.add (fallStep b v dt)).x ≤ box.max.x) ∧
        (box.min.z ≤ (p.p.add (fallStep b v dt)).z ∧
          (p.p.add (fallStep b v dt)).z ≤ box.max.z)) →
      (b.Update m dt box).particles =
          b.particles.map (fun p => ⟨p.p.add (fallStep b v dt), p.p, ⟨0, 0, 0⟩, p.invMass⟩) ∧
        ∀ c : Jelly K,
          c.particles =
            b.particles.map
              (fun p => ⟨p.p.add (fallStep b v dt), p.p, ⟨0, 0, 0⟩, p.invMass⟩) →
          c.springs = b.springs →
          (c.collideWithContainer box).satisfyConstraints m 1 = c) ∧
    ∀ (center : Vec3 K) (radius : K) (velocity acceleration : Vec3 K)
      (pointMass springStrength : K) (springsPerEdge : Int),
      (Jelly.new m center radius velocity acceleration pointMass springStrength
        springsPerEdge).SpringsValid ∧
      (∀ s ∈ (Jelly.new m center radius velocity acceleration pointMass springStrength
          springsPerEdge).springs,
        Vec3.length m
          ((pget (Jelly.new m center radius velocity acceleration pointMass springStrength
            springsPerEdge).particles s.j).p.sub
           (pget (Jelly.new m center radius velocity acceleration pointMass springStrength
            springsPerEdge).particles s.i).p) = s.rest) ∧
      ∀ p ∈ (Jelly.new m center radius velocity acceleration pointMass springStrength
          springsPerEdge).particles, p.p.sub p.prev = ⟨0, 0, 0⟩ ∧ p.a = ⟨0, 0, 0⟩ := by
  refine ⟨?_, new_body_at_rest m⟩
  intro dt box b v hvalid hrest hvel hin
  have hpass : ∀ c : Jelly K,
      c.particles =
        b.particles.map (fun p => ⟨p.p.add (fallStep b v dt), p.p, ⟨0, 0, 0⟩, p.invMass⟩) →
      c.springs = b.springs →
      (c.collideWithContainer box).satisfyConstraints m 1 = c := by
    intro c hp hs
    apply pass_fixed
    · intro q hq
      rw [hp] at hq
      obtain ⟨p, hp1, rfl⟩ := List.mem_map.mp hq
      exact hin p hp1
    · intro s hsm
      rw [hs] at hsm
      obtain ⟨hi, hj⟩ := hvalid s hsm
      rw [hp, pget_map _ _ _ hi, pget_map _ _ _ hj]
      show Vec3.length m (((pget b.particles s.j).p.add _).sub ((pget b.particles s.i).p.add _)) = _
      rw [translate_sub]
      exact hrest s hsm
  have key : ∀ c : Jelly K,
      c.particles =
        b.particles.map (fun p => ⟨p.p.add (fallStep b v dt), p.p, ⟨0, 0, 0⟩, p.invMass⟩) →
      c.springs = b.springs →
      forN 4 (fun x : Jelly K => (x.collideWithContainer box).satisfyConstraints m 1) c = c :=
    fun c hp hs => forN_fixed 4 _ c (hpass c hp hs)
  refine ⟨?_, hpass⟩
  unfold Jelly.Update
  dsimp only
  rw [key] <;> first
    | rfl
    | (simp only [Jelly.updateAABB, Jelly.integrate, Jelly.applyGravity, List.map_map]
       apply List.map_congr_left
       intro p hp
       obtain ⟨hv, ha⟩ := hvel p hp
       cases p with
       | mk pp pprev pa pinv =>
         simp only at hv ha
         subst ha
         subst hv
         simp only [Function.comp, integrateParticle, fallStep, Particle.mk.injEq,
           Vec3.ext_iff3, Vec3.add, Vec3.sub, Vec3.scale, Vec3.splat, and_true, true_and]
         refine ⟨?_, ?_, ?_⟩ <;> ring)

end FreeFall

section FreeFallEvaluations

/-- Witness of C17: the unit cube constructed around `(0, 1, 0)` falls for `dt = 1/120` in
`mainBox`; every particle moves down by `9.81 / 14400`. -/
theorem update_rigid_free_fall_witness :
    fallStep (unitCube ⟨0, 1, 0⟩) ⟨0, 0, 0⟩ (1 / 120) = ⟨0, -(109 / 160000), 0⟩ ∧
    ((unitCube ⟨0, 1, 0⟩).Update qMath (1 / 120) mainBox).particles =
      (unitCube ⟨0, 1, 0⟩).particles.map
        (fun p => ⟨p.p.add (fallStep (unitCube ⟨0, 1, 0⟩) ⟨0, 0, 0⟩ (1 / 120)), p.p, ⟨0, 0, 0⟩,
          p.invMass⟩) :=
  ⟨by decide!,
    ((update_rigid_free_fall qMath).1 (1 / 120) mainBox (unitCube ⟨0, 1, 0⟩) ⟨0, 0, 0⟩
      ((update_rigid_free_fall qMath).2 ⟨0, 1, 0⟩ 1 ⟨0, 0, 0⟩ ⟨0, 0, 0⟩ 1 1 1).1
      ((update_rigid_free_fall qMath).2 ⟨0, 1, 0⟩ 1 ⟨0, 0, 0⟩ ⟨0, 0, 0⟩ 1 1 1).2.1
      ((update_rigid_free_fall qMath).2 ⟨0, 1, 0⟩ 1 ⟨0, 0, 0⟩ ⟨0, 0, 0⟩ 1 1 1).2.2
      (by decide!)).1⟩

end FreeFallEvaluations

section BodySprings

variable {K : Type} [LinearOrderedField K] [FloorRing K] [Rounding K]

theorem foldl_append_map {α β : Type} (l : List α) (f : List β → α → List β) (g : α → β)
    (h : ∀ acc, ∀ x ∈ l, f acc x = acc ++ [g x]) (acc : List β) :
    l.foldl f acc = acc ++ l.map g := by
  induction l generalizing acc with
  | nil => simp
  | cons x xs ih =>
    simp only [List.foldl_cons, List.map_cons]
    rw [h acc x (List.mem_cons_self _ _),
      ih (fun a y hy => h a y (List.mem_cons_of_mem _ hy))]
    simp

theorem foldl_append_flatMap {α β : Type} (l : List α) (f : List β → α → List β)
    (g : α → List β) (h : ∀ acc, ∀ x ∈ l, f acc x = acc ++ g x) (acc : List β) :
    l.foldl f acc = acc ++ l.flatMap g := by
  induction l generalizing acc with
  | nil => simp
  | cons x xs ih =>
    simp only [List.foldl_cons, List.flatMap_cons]
    rw [h acc x (List.mem_cons_self _ _),
      ih (fun a y hy => h a y (List.mem_cons_of_mem _ hy))]
    simp

theorem pairSpringList_length (m : MathFns K) (ps : List (Particle K)) (fpi : List (List Int))
    (S fA fB : Nat) (mu mv : Bool) (k : K) :
    (pairSpringList m ps fpi S fA fB mu mv k).length = S ^ 2 := by
  unfold pairSpringList
  simp [List.length_flatMap, Function.comp_def, pow_two]

/-- When every paired cell holds two distinct particle indices, the loop of `addPairSprings`
appends exactly the list `pairSpringList`. -/
theorem addPairSprings_eq (m : MathFns K) (ps : List (Particle K)) (fpi : List (List Int))
    (S fA fB : Nat) (mu mv : Bool) (k : K)
    (hcell : ∀ v u, v < S → u < S →
      cellGet fpi fA (v * S + u) ≠ cellGet fpi fB (mirrorIdx mv S v * S + mirrorIdx mu S u))
    (acc : List (Spring K)) :
    addPairSprings m ps fpi S fA fB mu mv k acc =
      acc ++ pairSpringList m ps fpi S fA fB mu mv k := by
  unfold addPairSprings pairSpringList
  apply foldl_append_flatMap
  intro a v hv
  apply foldl_append_map
  intro a2 u hu
  have hne := hcell v u (List.mem_range.mp hv) (List.mem_range.mp hu)
  unfold mirrorIdx at hne
  unfold pairSpringsCell pairSpringAt mirrorIdx
  dsimp only
  rw [if_neg hne]

theorem particle_at_lattice {center : Vec3 K} {radius : K} {S : Nat}
    (hk : ∀ c ∈ gridCells S, ∀ d ∈ gridCells S,
      (cellKey (cubeFaces center radius S) c = cellKey (cubeFaces center radius S) d ↔
        cellLattice S c = cellLattice S d))
    (hpos : PositionsExact center radius S) {pm : K} {st : FillState K}
    (hinv : FillInv pm (cubeFaces center radius S) S (gridCells S) st)
    (f v u : Nat) (hf : f < 6) (hv : v < S) (hu : u < S) :
    (pget st.particles (cellGet st.facePointIdx f (v * S + u))).p =
      latticePos center radius S (cellLattice S (f, v, u)) := by
  obtain ⟨d, hd, hkd, hp⟩ := hinv.particle_at_cell (f, v, u) ⟨hf, hv, hu⟩
  have hlat := (hk d hd (f, v, u) ((mem_gridCells S _).mpr ⟨hf, hv, hu⟩)).mp hkd
  simp only at hp
  rw [hp, hpos d hd, hlat]

/-- The particles of paired cells: across the pair `+Z`, `-Z` they agree in x and y and
differ by `radius` in z, across `+X`, `-X` they agree in y and z and differ by `radius` in x,
across `+Y`, `-Y` they agree in x and z and differ by `radius` in y. -/
theorem paired_cells_geometry {center : Vec3 K} {radius : K} {S : Nat} (hS : 2 ≤ S)
    (hk : ∀ c ∈ gridCells S, ∀ d ∈ gridCells S,
      (cellKey (cubeFaces center radius S) c = cellKey (cubeFaces center radius S) d ↔
        cellLattice S c = cellLattice S d))
    (hpos : PositionsExact center radius S) {pm : K} {st : FillState K}
    (hinv : FillInv pm (cubeFaces center radius S) S (gridCells S) st)
    (v u : Nat) (hv : v < S) (hu : u < S) :
    (pget st.particles (cellGet st.facePointIdx 0 (v * S + u))).p =
      (pget st.particles (cellGet st.facePointIdx 1
        (mirrorIdx false S v * S + mirrorIdx true S u))).p.add ⟨0, 0, radius⟩ ∧
    (pget st.particles (cellGet st.facePointIdx 2 (v * S + u))).p =
      (pget st.particles (cellGet st.facePointIdx 3
        (mirrorIdx false S v * S + mirrorIdx true S u))).p.add ⟨radius, 0, 0⟩ ∧
    (pget st.particles (cellGet st.facePointIdx 4 (v * S + u))).p =
      (pget st.particles (cellGet st.facePointIdx 5
        (mirrorIdx true S v * S + mirrorIdx false S u))).p.add ⟨0, radius, 0⟩ := by
  have hn : (((S : Int) - 1 : Int) : K) ≠ 0 := by
    have : (1 : Int) ≤ (S : Int) - 1 := by omega
    have h2 : (0 : K) < (((S : Int) - 1 : Int) : K) := by exact_mod_cast this
    exact ne_of_gt h2
  have hS1 : ((S - 1 : Nat) : K) = (((S : Int) - 1 : Int) : K) := by
    push_cast [Nat.cast_sub (by omega : 1 ≤ S)]; ring
  have hmul : radius / (((S : Int) - 1 : Int) : K) * (((S : Int) - 1 : Int) : K) = radius :=
    div_mul_cancel₀ radius hn
  have hu2 : S - 1 - (S - 1 - u) = u := by omega
  have hv2 : S - 1 - (S - 1 - v) = v := by omega
  have hmu : S - 1 - u < S := by omega
  have hmv : S - 1 - v < S := by omega
  simp only [mirrorIdx, if_true, Bool.false_eq_true, if_false]
  rw [particle_at_lattice hk hpos hinv 0 v u (by omega) hv hu,
    particle_at_lattice hk hpos hinv 1 v (S - 1 - u) (by omega) hv hmu,
    particle_at_lattice hk hpos hinv 2 v u (by omega) hv hu,
    particle_at_lattice hk hpos hinv 3 v (S - 1 - u) (by omega) hv hmu,
    particle_at_lattice hk hpos hinv 4 v u (by omega) hv hu,
    particle_at_lattice hk hpos hinv 5 (S - 1 - v) u (by omega) hmv hu]
  simp only [cellLattice, latticePos, Vec3.add, Vec3.ext_iff3, hu2, hv2, hS1, Nat.cast_zero,
    mul_zero, add_zero]
  refine ⟨⟨trivial, trivial, ?_⟩, ⟨?_, trivial, trivial⟩, ⟨trivial, ?_, trivial⟩⟩ <;>
    linear_combination hmul

theorem offset_pair (m : MathFns K) (hs : m.SqrtExact) (pa pb t : Vec3 K) (r : K) (hr : 0 < r)
    (h : pa = pb.add t) (ht : t.length2 = r * r) :
    pa ≠ pb ∧ Vec3.length m (pa.sub pb) = r := by
  have hl : (pa.sub pb).length2 = r * r := by
    rw [← ht, h]
    simp only [Vec3.add, Vec3.sub, Vec3.length2]
    ring
  constructor
  · intro heq
    rw [heq, Vec3.length2_sub_self] at hl
    have : 0 < r * r := mul_pos hr hr
    linarith
  · unfold Vec3.length
    rw [hl]
    exact hs r (le_of_lt hr)

theorem mem_pairSpringList (m : MathFns K) (ps : List (Particle K)) (fpi : List (List Int))
    (S fA fB : Nat) (mu mv : Bool) (k : K) (s : Spring K) :
    s ∈ pairSpringList m ps fpi S fA fB mu mv k ↔
      ∃ v u, v < S ∧ u < S ∧ s = pairSpringAt m ps fpi S fA fB mu mv k v u := by
  unfold pairSpringList
  simp only [List.mem_flatMap, List.mem_map, List.mem_range]
  constructor
  · rintro ⟨v, hv, u, hu, rfl⟩
    exact ⟨v, u, hv, hu, rfl⟩
  · rintro ⟨v, u, hv, hu, rfl⟩
    exact ⟨v, hv, u, hu, rfl⟩

/-- The lattice points of paired cells: the same two in-plane coordinates, and the two
extreme values `S - 1` and `0` of the coordinate along the normal of the pair. -/
theorem paired_cells_lattice (S v u : Nat) (hv : v < S) (hu : u < S) :
    (cellLattice S (0, v, u) = (u, v, S - 1) ∧
      cellLattice S (1, mirrorIdx false S v, mirrorIdx true S u) = (u, v, 0)) ∧
    (cellLattice S (2, v, u) = (S - 1, v, u) ∧
      cellLattice S (3, mirrorIdx false S v, mirrorIdx true S u) = (0, v, u)) ∧
    (cellLattice S (4, v, u) = (u, S - 1, v) ∧
      cellLattice S (5, mirrorIdx true S v, mirrorIdx false S u) = (u, 0, v)) := by
  have hu2 : S - 1 - (S - 1 - u) = u := by omega
  have hv2 : S - 1 - (S - 1 - v) = v := by omega
  simp [cellLattice, mirrorIdx, hu2, hv2]

/-- When the keys separate the cells as the lattice does, paired cells of opposite faces hold
different particle indices. -/
theorem paired_cells_distinct {faces : List (FaceDef K)} {S : Nat} (hS : 2 ≤ S)
    (hk : ∀ c ∈ gridCells S, ∀ d ∈ gridCells S,
      (cellKey faces c = cellKey faces d ↔ cellLattice S c = cellLattice S d))
    {pm : K} {st : FillState K} (hinv : FillInv pm faces S (gridCells S) st)
    (v u : Nat) (hv : v < S) (hu : u < S) :
    cellGet st.facePointIdx 0 (v * S + u) ≠
      cellGet st.facePointIdx 1 (mirrorIdx false S v * S + mirrorIdx true S u) ∧
    cellGet st.facePointIdx 2 (v * S + u) ≠
      cellGet st.facePointIdx 3 (mirrorIdx false S v * S + mirrorIdx true S u) ∧
    cellGet st.facePointIdx 4 (v * S + u) ≠
      cellGet st.facePointIdx 5 (mirrorIdx true S v * S + mirrorIdx false S u) := by
  obtain ⟨⟨a0, a1⟩, ⟨a2, a3⟩, ⟨a4, a5⟩⟩ := paired_cells_lattice S v u hv hu
  have hmu : mirrorIdx true S u < S := by unfold mirrorIdx; simp only [if_true]; omega
  have hmv : mirrorIdx true S v < S := by unfold mirrorIdx; simp only [if_true]; omega
  have hfu : mirrorIdx false S u = u := by simp [mirrorIdx]
  have hfv : mirrorIdx false S v = v := by simp [mirrorIdx]
  have key : ∀ c d : Nat × Nat × Nat, CellValid S c → CellValid S d →
      cellLattice S c ≠ cellLattice S d →
      cellGet st.facePointIdx c.1 (c.2.1 * S + c.2.2) ≠
        cellGet st.facePointIdx d.1 (d.2.1 * S + d.2.2) := by
    intro c d hc hd hne h
    have hcm := (mem_gridCells S c).mpr hc
    have hdm := (mem_gridCells S d).mpr hd
    exact hne ((hk c hcm d hdm).mp ((hinv.index_eq_iff c d hcm hdm).mp h))
  refine ⟨?_, ?_, ?_⟩
  · refine key (0, v, u) (1, mirrorIdx false S v, mirrorIdx true S u) ⟨by omega, hv, hu⟩
      ⟨by omega, by rw [hfv]; exact hv, hmu⟩ ?_
    rw [a0, a1]
    intro h
    simp only [Prod.mk.injEq] at h
    omega
  · refine key (2, v, u) (3, mirrorIdx false S v, mirrorIdx true S u) ⟨by omega, hv, hu⟩
      ⟨by omega, by rw [hfv]; exact hv, hmu⟩ ?_
    rw [a2, a3]
    intro h
    simp only [Prod.mk.injEq] at h
    omega
  · refine key (4, v, u) (5, mirrorIdx true S v, mirrorIdx false S u) ⟨by omega, hv, hu⟩
      ⟨by omega, hmv, by rw [hfu]; exact hu⟩ ?_
    rw [a4, a5]
    intro h
    simp only [Prod.mk.injEq] at h
    omega

end BodySprings

section BodySpringsEvaluations

set_option maxHeartbeats 2000000

end BodySpringsEvaluations

end JellySim
